import Mathlib

/-!
Verification development for the `matcher` crate: a tiling enumerator over the
left half of an N×N board (src/matcher/src/enumeration/) and a bucket-pair
solver (src/matcher/src/matching/).  Rust machine integers are modelled as
`Nat`/`Int` with explicit `% 2^w` where overflow can occur; `f64` weights,
which in the claims only ever hold small integers (exactly representable), are
modelled as `ℚ`; Rust `HashMap`s are modelled as association lists iterated in
insertion order (the algorithms' observable results do not depend on the
iteration order, and the claims below never do).
-/

namespace Matcher

/-! ## Data model: `Bucket` (src/matcher/src/matching/types.rs) -/

/-- Mirror of `Bucket` in src/matcher/src/matching/types.rs: CSR rows of piece
indices, per-row weights, and the population-multiset key. -/
structure Bucket where
  rows_data : List Int
  indptr : List Int
  weights : List ℚ
  key : List Int

/-- Mirror of `Bucket::n_rows`: `indptr.len().saturating_sub(1)`. -/
def Bucket.n_rows (b : Bucket) : Nat := b.indptr.length - 1

/-- Mirror of `Bucket::row_slice`: `rows_data[indptr[r] .. indptr[r+1]]`. -/
def Bucket.row_slice (b : Bucket) (r : Nat) : List Int :=
  let lo := (b.indptr.getD r 0).toNat
  let hi := (b.indptr.getD (r + 1) 0).toNat
  (b.rows_data.drop lo).take (hi - lo)

/-! ## Association-list model of the Rust `HashMap`s used by the solver -/

/-- Lookup in an association list, modelling `HashMap::get`. -/
def alLookup {α : Type} (l : List (Int × α)) (k : Int) : Option α :=
  (l.find? (fun p => decide (p.1 = k))).map (fun p => p.2)

/-- Modelling `map.entry(k).or_insert(dflt)` followed by an in-place update
`f`: the first binding of `k` is updated, a missing key is appended (Rust hash
maps have no observable order; insertion order is the model's choice). -/
def alInsertWith {α : Type} (l : List (Int × α)) (k : Int) (f : α → α) (dflt : α) :
    List (Int × α) :=
  match l with
  | [] => [(k, f dflt)]
  | (k', v) :: t => if k' = k then (k', f v) :: t else (k', v) :: alInsertWith t k f dflt

/-- Rust `Vec::dedup`: remove consecutive duplicate elements. -/
def dedupConsec {α : Type} [DecidableEq α] : List α → List α
  | [] => []
  | [a] => [a]
  | a :: b :: t => if a = b then dedupConsec (b :: t) else a :: dedupConsec (b :: t)

/-- First-occurrence deduplication with an accumulator of already-seen keys,
modelling iteration over a Rust `HashSet` built by repeated insertion (the
model fixes the set's unspecified iteration order to insertion order). -/
def distinctAux : List Int → List Int → List Int
  | [], _ => []
  | a :: t, seen => if seen.contains a then distinctAux t seen else a :: distinctAux t (a :: seen)

/-- Distinct elements of a list in order of first occurrence. -/
def distinctList (l : List Int) : List Int := distinctAux l []

/-! ## Packed row code (u128) utilities (src/matcher/src/enumeration/mod.rs) -/

/-- Ceiling of log2 as a fueled halving loop: for `x ≥ 2` one more than the
count for `ceil(x/2)`, else 0 (32 steps cover every u32 value). -/
def clog2Aux : Nat → Nat → Nat
  | 0, _ => 0
  | fuel + 1, x => if x ≤ 1 then 0 else clog2Aux fuel ((x + 1) / 2) + 1

/-- Mirror of `bitwidth`: `1.max(((m.saturating_sub(1)) as u32).next_power_of_two().trailing_zeros())`.
Rust's `next_power_of_two x` is `2 ^ ceil(log2 x)` (also for `x ∈ {0,1}`),
and `trailing_zeros` of that power of two is `ceil(log2 x)` itself; the
`as u32` cast is the `% 2 ^ 32`. -/
def bitwidth (m : Nat) : Nat :=
  max 1 (clog2Aux 32 ((m - 1) % 2 ^ 32))

/-- Modelled from the spec: the required field width `max(1, ceil(log2 M))`
(spec section 4.1 and section 9), used to compare against `bitwidth`. -/
def specFieldWidth (m : Nat) : Nat := max 1 (Nat.clog 2 m)

/-- Mirror of `code_len`: the low nibble `code & 0xF`. -/
def code_len (code : Nat) : Nat := code % 16

/-- Mirror of `code_get`: read field `i` of width `b`, splitting at the 64-bit
boundary exactly like the source; `as u64`/`as u32` casts are `% 2 ^ 64` and
`% 2 ^ 32`. -/
def code_get (code i b : Nat) : Nat :=
  let shift := 4 + i * b
  if shift < 64 then
    let rem := 64 - shift
    if b ≤ rem then (((code % 2 ^ 64) >>> shift) % 2 ^ b) % 2 ^ 32
    else
      let low := ((code % 2 ^ 64) >>> shift) % 2 ^ rem
      let hi := ((code >>> 64) % 2 ^ 64) % 2 ^ (b - rem)
      ((hi <<< rem) ||| low) % 2 ^ 32
  else
    let s := shift - 64
    ((((code >>> 64) % 2 ^ 64) >>> s) % 2 ^ b) % 2 ^ 32

/-- Mirror of `code_set`: write `val` into field `i` of width `b`; the u128
bitwise complement `!m` is `(2 ^ 128 - 1) ^^^ m`, shifts that can exceed 128
bits carry an explicit `% 2 ^ 128`. -/
def code_set (code : Nat) (i b val : Nat) : Nat :=
  let shift := 4 + i * b
  let v := val % 2 ^ b
  if shift < 64 then
    let rem := 64 - shift
    if b ≤ rem then
      let mask := (2 ^ 128 - 1) ^^^ (((2 ^ b - 1) <<< shift) % 2 ^ 128)
      (code &&& mask) ||| ((v <<< shift) % 2 ^ 128)
    else
      let low_bits := rem
      let low_mask := ((2 ^ low_bits - 1) <<< shift) % 2 ^ 128
      let hi_bits := b - low_bits
      let hi_mask := ((2 ^ hi_bits - 1) <<< 64) % 2 ^ 128
      let low_part := ((v % 2 ^ low_bits) <<< shift) % 2 ^ 128
      let hi_part := ((v >>> low_bits) <<< 64) % 2 ^ 128
      let c1 := (code &&& ((2 ^ 128 - 1) ^^^ low_mask)) ||| low_part
      (c1 &&& ((2 ^ 128 - 1) ^^^ hi_mask)) ||| hi_part
  else
    let s := shift - 64
    let mask := (2 ^ 128 - 1) ^^^ (((2 ^ b - 1) <<< (64 + s)) % 2 ^ 128)
    (code &&& mask) ||| ((v <<< (64 + s)) % 2 ^ 128)

/-- Mirror of `code_with_len`: replace the low nibble by `k & 0xF`. -/
def code_with_len (code k : Nat) : Nat :=
  (code &&& ((2 ^ 128 - 1) ^^^ 15)) ||| (k % 16)

/-- Binary-search loop of `code_insert` (`while lo < hi`), with the loop's
iteration count made explicit as fuel (callers pass `k + 1`; the interval
halves each step, so the fuel is never exhausted). -/
def codeBsearch (code b j : Nat) : Nat → Nat → Nat → Nat
  | 0, lo, _ => lo
  | fuel + 1, lo, hi =>
    if lo < hi then
      let mid := (lo + hi) / 2
      if code_get code mid b < j then codeBsearch code b j fuel (mid + 1) hi
      else codeBsearch code b j fuel lo mid
    else lo

/-- Shift loop of `code_insert` (`while idx > lo`), iterating `idx` downward
from `lo + n` to `lo + 1`, copying field `idx - 1` into field `idx`. -/
def shiftLoop (b lo : Nat) (out : Nat) : Nat → Nat
  | 0 => out
  | s + 1 => shiftLoop b lo (code_set out (lo + s + 1) b (code_get out (lo + s) b)) s

/-- Mirror of `code_insert`: insert `j` into the sorted field set of `code`.
Returns the new code and whether an insertion happened (`false` on duplicate
or when the length is already 10). -/
def code_insert (code j b : Nat) : Nat × Bool :=
  let k := code_len code
  let lo := codeBsearch code b j (k + 1) 0 k
  if lo < k ∧ code_get code lo b = j then (code, false)
  else if 10 ≤ k then (code, false)
  else
    let out := shiftLoop b lo code (k - lo)
    let out2 := code_set out lo b j
    (code_with_len out2 (k + 1), true)

/-- Mirror of `code_iter`: the decoded entries `code_get code i b` for
`i < code_len code`, in index order. -/
def code_entries (code b : Nat) : List Nat :=
  (List.range (code_len code)).map (fun i => code_get code i b)

/-- Value of a little-endian digit string in base `2^b` (the packed fields of
a code, least-significant first); used to relate u128 comparison of codes to
orderings of their entry lists. -/
def digitsVal (b : Nat) : List Nat → Nat
  | [] => 0
  | e :: t => e + 2 ^ b * digitsVal b t

/-! ## Pair solver (src/matcher/src/matching/solve.rs) -/

/-- Mirror of `build_rows_by_jbt`: map each piece index `x` occurring in
`bucket` to the sorted list of rows containing it.  Rows are visited in
ascending order and each value list is sorted at the end (`sort_unstable`,
modelled by insertion sort). -/
def build_rows_by_jbt (bucket : Bucket) : List (Int × List Nat) :=
  let m := (List.range bucket.n_rows).foldl
    (fun m r => (bucket.row_slice r).foldl
      (fun m v => alInsertWith m v (fun rs => rs ++ [r]) []) m) []
  m.map (fun p => (p.1, p.2.insertionSort (fun a b => a ≤ b)))

/-- Mirror of `precompute_candidates_for_bucket1`: for each distinct `j` with
nonzero population occurring in `bucket1`, the sorted deduplicated list of
compat partners present in `rows_by_jbt`.  The source `.expect`s a present
compat key; the model returns `[]` there (the claims only use covered
tables). -/
def precompute_candidates_for_bucket1 (bucket1 : Bucket)
    (rows_by_jbt : List (Int × List Nat)) (jbt_ref_pop : List Int) (n_total : Int)
    (compat : List (Int × (List Int × List Int))) : List (Int × List Int) :=
  let all_j := distinctList (((List.range bucket1.n_rows).foldl
      (fun acc r => acc ++ bucket1.row_slice r) []).filter
      (fun j => jbt_ref_pop.getD j.toNat 0 ≠ 0))
  all_j.map (fun j =>
    let pop := jbt_ref_pop.getD j.toNat 0
    let pair :=
      if n_total / 2 < pop then
        match alLookup compat (n_total - pop) with
        | some p => (p.2, p.1)
        | none => ([], [])
      else
        match alLookup compat pop with
        | some p => (p.1, p.2)
        | none => ([], [])
    let cands := (pair.1.zip pair.2).filterMap
      (fun vx => if vx.1 = j ∧ (alLookup rows_by_jbt vx.2).isSome then some vx.2 else none)
    (j, dedupConsec (cands.insertionSort (fun a b => a ≤ b))))

/-- Candidate list of `j`: `cand_map.get(&j).map(|v| v.as_slice()).unwrap_or(&[])`. -/
def candsOf (cand_map : List (Int × List Int)) (j : Int) : List Int :=
  (alLookup cand_map j).getD []

/-- Row list of piece `x` in the right bucket (`rows_by_jbt.get(&x)`). -/
def rowsOf (rows_by : List (Int × List Nat)) (x : Int) : Option (List Nat) :=
  alLookup rows_by x

/-- Position classification loop of `subtotal_for_pair` over one row of L:
skips pop-0 positions, aborts the row (`none`) when a position has an empty
candidate list, and splits the remaining positions into unique-population and
colliding-population ones. -/
def classifyPositions (jbt_ref_pop : List Int) (cand_map : List (Int × List Int))
    (pmult : Int → Nat) : List (Nat × Int) → Option (List Nat × List Nat)
  | [] => some ([], [])
  | (i, j) :: t =>
    let pop := jbt_ref_pop.getD j.toNat 0
    if pop = 0 then classifyPositions jbt_ref_pop cand_map pmult t
    else if candsOf cand_map j = [] then none
    else
      match classifyPositions jbt_ref_pop cand_map pmult t with
      | none => none
      | some (u, c) => if pmult pop ≤ 1 then some (i :: u, c) else some (u, i :: c)

/-- Number of candidates `x` of `j` whose row list contains `r` (the `counts`
vector of the unique pass, and the per-position count of the disjoint path). -/
def candCount (rows_by : List (Int × List Nat)) (cand_map : List (Int × List Int))
    (j : Int) (r : Nat) : Nat :=
  ((candsOf cand_map j).filter
    (fun x => ((rowsOf rows_by x).getD []).contains r)).length

/-- Mirror of the unique-position vectorized pass: intersect the row mask with
the candidate union of `j` and scale surviving effective weights by the
candidate counts, aborting (`none`) when the mask empties.  The source
memoizes `union`/`counts` per `j`; the memo caches pure data, the model
recomputes them. -/
def uniquePass (rows_by : List (Int × List Nat)) (cand_map : List (Int × List Int))
    (row : List Int) (n2 : Nat) :
    List Nat → List Bool × List ℚ → Option (List Bool × List ℚ)
  | [], st => some st
  | i :: t, (mask, eff) =>
    let j := row.getD i 0
    let union := (List.range n2).map (fun r =>
      (candsOf cand_map j).any (fun x => ((rowsOf rows_by x).getD []).contains r))
    let counts := (List.range n2).map (fun r => candCount rows_by cand_map j r)
    let mask2 := (List.range n2).map (fun r => mask.getD r false && union.getD r false)
    let eff2 := (List.range n2).map (fun r =>
      if mask2.getD r false then eff.getD r 0 * (counts.getD r 0 : ℚ) else eff.getD r 0)
    if mask2.any id then uniquePass rows_by cand_map row n2 t (mask2, eff2) else none

/-- Sum of effective weights over rows surviving the mask. -/
def maskedSum (mask : List Bool) (eff : List ℚ) : ℚ :=
  (mask.enum.map (fun rm => if rm.2 then eff.getD rm.1 0 else 0)).sum

/-- Overlap test of the disjoint fast path: some `x` occurs twice across the
candidate lists of the remaining (colliding) positions. -/
def hasOverlap (cand_map : List (Int × List Int)) (rem : List Int) : Bool :=
  !(decide (rem.flatMap (candsOf cand_map)).Nodup)

/-- Feasibility prune of the branch-and-bound fallback: every remaining `j`
must have an unused candidate whose rows intersect the mask. -/
def recFeasible (rows_by : List (Int × List Nat)) (cand_map : List (Int × List Int))
    (used : List Int) (mask : List Bool) (idxs : List Int) : Bool :=
  idxs.all (fun j => (candsOf cand_map j).any (fun x =>
    !used.contains x &&
      (match rowsOf rows_by x with
       | some rows => rows.any (fun r => mask.getD r false)
       | none => false)))

/-- Viable unused candidates of `j` under the current mask (the `viable` list
computed inside the pivot loop). -/
def viableList (rows_by : List (Int × List Nat)) (cand_map : List (Int × List Int))
    (used : List Int) (mask : List Bool) (j : Int) : List Int :=
  (candsOf cand_map j).filter (fun x =>
    !used.contains x &&
      (match rowsOf rows_by x with
       | some rows => rows.any (fun r => mask.getD r false)
       | none => false))

/-- Pivot selection loop: keep the `j` with the fewest viable candidates
(ties to the first), abort (`none`, meaning subtotal 0) on an empty viable
list, and break early when a count of 1 is reached. -/
def pivotLoop (rows_by : List (Int × List Nat)) (cand_map : List (Int × List Int))
    (used : List Int) (mask : List Bool) :
    List Int → Int × List Int × Nat → Option (Int × List Int)
  | [], best => some (best.1, best.2.1)
  | j :: t, (bj, bl, bc) =>
    let v := viableList rows_by cand_map used mask j
    if v = [] then none
    else if v.length < bc then
      if v.length = 1 then some (j, v)
      else pivotLoop rows_by cand_map used mask t (j, v, v.length)
    else pivotLoop rows_by cand_map used mask t (bj, bl, bc)

/-- Mirror of `intersect_in_place`: keep mask bits whose index occurs in the
(sorted) row list; the source uses `binary_search`, sound because
`build_rows_by_jbt` sorts each list. -/
def intersectMask (mask : List Bool) (rows : List Nat) : List Bool :=
  mask.enum.map (fun iv => iv.2 && rows.contains iv.1)

/-- Mirror of the recursive branch-and-bound `rec` in `subtotal_for_pair`.
The source recursion is structurally bounded because the pivot is removed from
`idxs` at each level; the model makes that bound explicit as `fuel` (callers
pass `idxs.length + 1`, which is never exhausted). -/
def recBnB (rows_by : List (Int × List Nat)) (cand_map : List (Int × List Int)) :
    Nat → List Int → List Bool → List ℚ → List Int → ℚ
  | 0, _, _, _, _ => 0
  | fuel + 1, idxs, mask, eff, used =>
    if !recFeasible rows_by cand_map used mask idxs then 0
    else if idxs = [] then maskedSum mask eff
    else
      match pivotLoop rows_by cand_map used mask idxs (idxs.headD 0, [], 2 ^ 64 - 1) with
      | none => 0
      | some (best_j, best_list) =>
        let rest := idxs.filter (fun x => x ≠ best_j)
        (best_list.map (fun x =>
          match rowsOf rows_by x with
          | some rows =>
            let new_mask := intersectMask mask rows
            if new_mask.any id then
              recBnB rows_by cand_map fuel rest new_mask eff (x :: used)
            else 0
          | none => 0)).sum

/-- Contribution of one row `r1` of L to the subtotal: classification, unique
vectorized pass, then one of the three evaluation strategies. -/
def row_subtotal (bucket1 bucket2 : Bucket) (jbt_ref_pop : List Int)
    (rows_by : List (Int × List Nat)) (cand_map : List (Int × List Int))
    (r1 : Nat) : ℚ :=
  let row := bucket1.row_slice r1
  let w1 := bucket1.weights.getD r1 0
  let n2 := bucket2.n_rows
  match classifyPositions jbt_ref_pop cand_map (fun p => bucket1.key.count p) row.enum with
  | none => 0
  | some (uniq, coll) =>
    match uniquePass rows_by cand_map row n2 uniq
        (List.replicate n2 true, bucket2.weights) with
    | none => 0
    | some (mask, eff) =>
      let rem := coll.map (fun i => row.getD i 0)
      if rem = [] then w1 * maskedSum mask eff
      else if !hasOverlap cand_map rem then
        w1 * ((List.range n2).map (fun r =>
          if mask.getD r false then
            eff.getD r 0 * (rem.map (fun j => (candCount rows_by cand_map j r : ℚ))).prod
          else 0)).sum
      else
        w1 * recBnB rows_by cand_map (rem.length + 1) rem mask eff []

/-- Mirror of `subtotal_for_pair`: neutral fast path when L's key is empty,
otherwise the sum of per-row contributions. -/
def subtotal_for_pair (bucket1 bucket2 : Bucket) (jbt_ref_pop : List Int)
    (_n_total : Int) (_compat : List (Int × (List Int × List Int)))
    (rows_by_jbt : List (Int × List Nat)) (cand_map : List (Int × List Int)) : ℚ :=
  if bucket1.key = [] then bucket1.weights.sum * bucket2.weights.sum
  else ((List.range bucket1.n_rows).map
    (row_subtotal bucket1 bucket2 jbt_ref_pop rows_by_jbt cand_map)).sum

/-! ## Compatibility builder (src/matcher/src/enumeration/compat.rs and
`cover_and_symmetrize_compat` in src/matcher/src/enumeration/mod.rs) -/

/-- Overwriting insertion (`HashMap::insert`): replace the first binding of
`k`, or append a new one. -/
def alInsert {α : Type} (l : List (Int × α)) (k : Int) (v : α) : List (Int × α) :=
  match l with
  | [] => [(k, v)]
  | (k', w) :: t => if k' = k then (k', v) :: t else (k', w) :: alInsert t k v

/-- Mirror of `map.entry(k).or_insert_with(|| v)`: insert only when missing. -/
def alEntryOr {α : Type} (l : List (Int × α)) (k : Int) (v : α) : List (Int × α) :=
  match alLookup l k with
  | some _ => l
  | none => l ++ [(k, v)]

/-- Trailing-zero count of a u32, with the 32 loop steps as fuel
(`u32::trailing_zeros`; returns 32 on 0 like Rust). -/
def tzAux : Nat → Nat → Nat
  | 0, _ => 0
  | fuel + 1, o => if o % 2 = 1 then 0 else tzAux fuel (o / 2) + 1

/-- Rust `u32::trailing_zeros`. -/
def trailing_zeros (o : Nat) : Nat := tzAux 32 o

/-- Mirror of `contiguous_overlap`: the overlap of the two masks is a single
contiguous run of ones. -/
def contiguous_overlap (a b : Nat) : Bool :=
  let o := a &&& b
  if o = 0 then false
  else
    let s := o >>> trailing_zeros o
    decide (s &&& (s + 1) = 0)

/-- Mirror of `determine_compatibility` over the 3-component masks; zero
components are dropped and the shorter tuple goes first. -/
def determine_compatibility (c1 c2 : List Nat) : Bool :=
  let a0 := c1.filter (fun x => decide (x ≠ 0))
  let b0 := c2.filter (fun x => decide (x ≠ 0))
  let ab := if a0.length ≤ b0.length then (a0, b0) else (b0, a0)
  match ab.1, ab.2 with
  | [x], [y0, y1, y2] =>
    contiguous_overlap x y2 && contiguous_overlap x y1 && contiguous_overlap x y0
  | [x0, x1], [y0, y1] =>
    contiguous_overlap x1 y1 && contiguous_overlap x0 y0 &&
      xor (contiguous_overlap x1 y0) (contiguous_overlap x0 y1)
  | [x], [y0, y1] => contiguous_overlap x y1 && contiguous_overlap x y0
  | [x], [y0] => contiguous_overlap x y0
  | _, _ => false

/-- Mirror of `compat_for_pop_pair`: all compatible `(i, j)` index pairs with
`pop i = p` and `pop j = N - p`, as two parallel arrays. -/
def compat_for_pop_pair (jbt_ref_pop : List Int) (jbt_ref_comps : List (List Nat))
    (n_total p : Int) : List Int × List Int :=
  let q := n_total - p
  if p ≤ 0 ∨ q ≤ 0 ∨ n_total ≤ p ∨ n_total ≤ q then ([], [])
  else
    let idxs_p := ((List.range jbt_ref_pop.length).filter
      (fun j => decide (jbt_ref_pop.getD j 0 = p))).map (fun j => (j : Int))
    let idxs_q := ((List.range jbt_ref_pop.length).filter
      (fun j => decide (jbt_ref_pop.getD j 0 = q))).map (fun j => (j : Int))
    if idxs_p = [] ∨ idxs_q = [] then ([], [])
    else
      let pairs := idxs_p.flatMap (fun i => idxs_q.filterMap (fun j =>
        if determine_compatibility (jbt_ref_comps.getD i.toNat [0, 0, 0])
            (jbt_ref_comps.getD j.toNat [0, 0, 0]) then some (i, j) else none))
      (pairs.map (fun x => x.1), pairs.map (fun x => x.2))

/-- Mirror of `build_compat_map`: compute pairs for `p ∈ [1, (N-1)/2]`,
mirror-fill `N-p`, ensure the even midpoint, then cover all of `[1, N-1]`. -/
def build_compat_map (jbt_ref_pop : List Int) (jbt_ref_comps : List (List Nat))
    (n_total : Int) : List (Int × (List Int × List Int)) :=
  let ps := (List.range ((n_total - 1) / 2).toNat).map (fun i : Nat => (i : Int) + 1)
  let step1 := ps.foldl (fun m p =>
    alInsert (alInsert m p (compat_for_pop_pair jbt_ref_pop jbt_ref_comps n_total p))
      (n_total - p)
      ((compat_for_pop_pair jbt_ref_pop jbt_ref_comps n_total p).2,
        (compat_for_pop_pair jbt_ref_pop jbt_ref_comps n_total p).1)) []
  let step2 := if n_total % 2 = 0 then alEntryOr step1 (n_total / 2) ([], []) else step1
  ((List.range (n_total - 1).toNat).map (fun i : Nat => (i : Int) + 1)).foldl
    (fun m p => alEntryOr m p ([], [])) step2

/-- Mirror of `cover_and_symmetrize_compat`: mirror-fill missing `N-p` keys
from present `p` keys, then cover `[1, N-1]` with empty entries. -/
def cover_and_symmetrize_compat (c : List (Int × (List Int × List Int)))
    (n_total : Int) : List (Int × (List Int × List Int)) :=
  let base := c.map (fun kv => kv.1)
  let step1 := base.foldl (fun m p =>
    match alLookup m p with
    | some v => alEntryOr m (n_total - p) (v.2, v.1)
    | none => m) c
  ((List.range (n_total - 1).toNat).map (fun i : Nat => (i : Int) + 1)).foldl
    (fun m p => alEntryOr m p ([], [])) step1

/-- Specification of the mirror-fill stage of `cover_and_symmetrize_compat`:
present keys keep their value; a missing key `q` whose mirror `n - q` is
present and already processed gets the swapped value. -/
def mirrorSpec (c : List (Int × (List Int × List Int))) (n : Int) (pr : List Int)
    (q : Int) : Option (List Int × List Int) :=
  match alLookup c q with
  | some v => some v
  | none =>
    match alLookup c (n - q) with
    | some w => if n - q ∈ pr then some (w.2, w.1) else none
    | none => none

/-! ## Bitboard topology (src/matcher/src/enumeration/mod.rs) -/

/-- Rust `u64::trailing_zeros` (the same 32-step loop model, with 64 steps). -/
def tz64 (o : Nat) : Nat := tzAux 64 o

/-- Mirror of `left_half_mask`: the low `n * (n/2)` bits set
(`((1u128 << (n * (n/2))) - 1) as u64`). -/
def left_half_mask (n : Nat) : Nat :=
  if n = 0 then 0 else ((1 <<< (n * (n / 2))) - 1) % 2 ^ 64

/-- Mirror of `col_mask`: the `n` bits of column `x`
(`((1u64 << n) - 1) << (x * n)`). -/
def col_mask (n x : Nat) : Nat := (((1 <<< n) - 1) <<< (x * n)) % 2 ^ 64

/-- Rust `1u64 << k` in release mode: the shift amount is taken mod 64
(wrapping shift) and the result truncated to 64 bits. -/
def shl1_64 (k : Nat) : Nat := (1 <<< (k % 64)) % 2 ^ 64

/-- Mirror of `edge_masks`: bit `x*n + (n-1)` (top row) and bit `x*n`
(bottom row) for every column `x < n`, with u64 wrapping shifts. -/
def edge_masks (n : Nat) : Nat × Nat :=
  ((List.range n).foldl (fun top x => top ||| shl1_64 (x * n + (n - 1))) 0,
   (List.range n).foldl (fun bot x => bot ||| shl1_64 (x * n + 0)) 0)

/-- The `while frontier != 0` loop of `flood_fill`, with fuel: each productive
iteration adds at least one bit to `comp`, so 65 steps always suffice for
64-bit masks. -/
def flood_fill_loop (n domain top bot : Nat) : Nat → Nat → Nat → Nat
  | 0, comp, _ => comp
  | fuel + 1, comp, frontier =>
    if frontier = 0 then comp
    else
      let comp2 := comp ||| frontier
      let up := ((frontier &&& ((2 ^ 64 - 1) ^^^ top)) <<< 1) % 2 ^ 64
      let down := (frontier &&& ((2 ^ 64 - 1) ^^^ bot)) >>> 1
      let lf := frontier >>> n
      let rt := (frontier <<< n) % 2 ^ 64
      flood_fill_loop n domain top bot fuel comp2
        ((((up ||| down) ||| lf) ||| rt) &&& domain &&& ((2 ^ 64 - 1) ^^^ comp2))

/-- Mirror of `flood_fill`: 4-connected fill of `seed & domain` inside
`domain`. -/
def flood_fill (seed domain n : Nat) : Nat :=
  if seed = 0 then 0
  else flood_fill_loop n domain (edge_masks n).1 (edge_masks n).2 65 0 (seed &&& domain)

/-- Rust `u64::count_ones`, as a 64-step halving loop. -/
def popcountAux : Nat → Nat → Nat
  | 0, _ => 0
  | fuel + 1, x => x % 2 + popcountAux fuel (x / 2)

/-- Population count of a u64 value. -/
def popcount (x : Nat) : Nat := popcountAux 64 x

/-- The component-peeling loop of `detect_evil_pmask`, with fuel: each
iteration removes at least one bit from `complement`, so 65 steps suffice. -/
def detect_evil_loop (n escape : Nat) : Nat → Nat → Bool
  | 0, _ => false
  | fuel + 1, complement =>
    if complement = 0 then false
    else
      let seed := complement &&& ((2 ^ 64 - complement % 2 ^ 64) % 2 ^ 64)
      let comp := flood_fill seed complement n
      if comp &&& escape ≠ 0 then detect_evil_loop n escape fuel (complement ^^^ comp)
      else if popcount comp % n ≠ 0 then true
      else detect_evil_loop n escape fuel (complement ^^^ comp)

/-- Mirror of `detect_evil_pmask`: peel 4-connected components off the
complement of the partial mask inside the half board; evil iff some component
that misses the escape column has population not divisible by `n`. -/
def detect_evil_pmask (partial_mask n : Nat) : Bool :=
  detect_evil_loop n (col_mask n (n / 2 - 1)) 65 (partial_mask ^^^ left_half_mask n)

/-- Spec-modelled edge masks: the intended board geometry (top cell `x*n+(n-1)`
and bottom cell `x*n` of every column), with exact shifts truncated to u64
instead of Rust release-mode shift-amount wrapping. Used only to compare the
code's `edge_masks` against the specification. -/
def spec_edge_masks (n : Nat) : Nat × Nat :=
  ((List.range n).foldl (fun top x => top ||| (1 <<< (x * n + (n - 1))) % 2 ^ 64) 0,
   (List.range n).foldl (fun bot x => bot ||| (1 <<< (x * n + 0)) % 2 ^ 64) 0)

/-- Spec-modelled flood fill: identical to `flood_fill` but with the intended
edge masks. -/
def spec_flood_fill (seed domain n : Nat) : Nat :=
  if seed = 0 then 0
  else flood_fill_loop n domain (spec_edge_masks n).1 (spec_edge_masks n).2 65 0
    (seed &&& domain)

/-- Spec-modelled component peeling, using `spec_flood_fill`. -/
def spec_detect_evil_loop (n escape : Nat) : Nat → Nat → Bool
  | 0, _ => false
  | fuel + 1, complement =>
    if complement = 0 then false
    else
      let seed := complement &&& ((2 ^ 64 - complement % 2 ^ 64) % 2 ^ 64)
      let comp := spec_flood_fill seed complement n
      if comp &&& escape ≠ 0 then spec_detect_evil_loop n escape fuel (complement ^^^ comp)
      else if popcount comp % n ≠ 0 then true
      else spec_detect_evil_loop n escape fuel (complement ^^^ comp)

/-- Spec-modelled evil detection: the spec's policy (a 4-connected enclosed
component with population not divisible by `n` is evil) over the intended
board geometry. -/
def spec_detect_evil_pmask (partial_mask n : Nat) : Bool :=
  spec_detect_evil_loop n (col_mask n (n / 2 - 1)) 65 (partial_mask ^^^ left_half_mask n)

/-- Mirror of `find_root`: coordinates `(bit/n, bit%n)` of the lowest clear
bit of the half board (`None` when the half board is full). -/
def find_root (partial_mask n : Nat) : Option (Nat × Nat) :=
  if partial_mask ^^^ left_half_mask n = 0 then none
  else
    some (tz64 ((partial_mask ^^^ left_half_mask n) &&&
        ((2 ^ 64 - (partial_mask ^^^ left_half_mask n) % 2 ^ 64) % 2 ^ 64)) / n,
      tz64 ((partial_mask ^^^ left_half_mask n) &&&
        ((2 ^ 64 - (partial_mask ^^^ left_half_mask n) % 2 ^ 64) % 2 ^ 64)) % n)

/-! ## Frontier and output buckets (`AOBucket` in src/matcher/src/enumeration/mod.rs) -/

/-- Mirror of `AOBucket`: committed and pending parallel `(code, weight)`
arrays; codes are u128 values, weights u32 values (as `Nat`). -/
structure AOBucket where
  codes : List Nat
  weights : List Nat
  pend_codes : List Nat
  pend_w : List Nat

/-- Rust `u64::saturating_add` on `Nat` values. -/
def satAdd64 (a b : Nat) : Nat := min (a + b) (2 ^ 64 - 1)

/-- The u32 clamp applied when a merged sum is committed
(`if sum > Weight::MAX as u64 { Weight::MAX } else { sum }`). -/
def clampW (s : Nat) : Nat := min s (2 ^ 32 - 1)

/-- Run-merge loop of `AOBucket::flush` over the sorted entries: accumulate
the current code's weight sum with `u64` saturation, clamp to u32 on commit. -/
def mergeRunsAux (c sum : Nat) : List (Nat × Nat) → List (Nat × Nat)
  | [] => [(c, clampW sum)]
  | (c2, w) :: t =>
    if c2 = c then mergeRunsAux c (satAdd64 sum w) t
    else (c, clampW sum) :: mergeRunsAux c2 w t

/-- Merge equal-code runs of a sorted `(code, weight)` list. -/
def mergeRuns : List (Nat × Nat) → List (Nat × Nat)
  | [] => []
  | (c, w) :: t => mergeRunsAux c w t

/-- Mirror of `AOBucket::flush`: no-op when pending is empty, otherwise
concatenate committed and pending, sort by code (`sort_unstable_by_key`,
modelled by insertion sort on the code component), merge equal-code runs
summing weights with saturation, and clear pending. -/
def AOBucket.flush (b : AOBucket) : AOBucket :=
  if b.pend_codes = [] then b
  else
    let all := (b.codes ++ b.pend_codes).zip (b.weights ++ b.pend_w)
    let sorted := all.insertionSort (fun x y => x.1 ≤ y.1)
    let merged := mergeRuns sorted
    ⟨merged.map (fun x => x.1), merged.map (fun x => x.2), [], []⟩

/-- Sum of the weights of the entries carrying code `c` (the specification of
the merged weight before clamping). -/
def codeWeightSum (l : List (Nat × Nat)) (c : Nat) : Nat :=
  ((l.filter (fun x => decide (x.1 = c))).map (fun x => x.2)).sum

/-! ## Enumeration driver (`enumerate_to_snapshot` in
src/matcher/src/enumeration/mod.rs), sequentialized: the rayon jobs and the
hash-map iteration orders are fixed to first-occurrence order, which yields
one of the executions the parallel code can produce; the final snapshot
(sorted, run-merged buckets) does not depend on this choice. -/

/-- Mirror of `AOBucket::append_batch`: extend the pending buffers, flushing
once they reach `pend_flush_codes()` (default 32768) entries. -/
def AOBucket.append_batch (b : AOBucket) (codes w : List Nat) : AOBucket :=
  if codes = [] then b
  else
    let b2 : AOBucket := ⟨b.codes, b.weights, b.pend_codes ++ codes, b.pend_w ++ w⟩
    if 32768 ≤ b2.pend_codes.length then b2.flush else b2

/-- `RootFrontier.get_bucket_mut` followed by `append_batch` (also
`OutBuckets::append_completed`): find the keyed bucket, creating a default one
at the end on a miss, and append the batch to it. -/
def bucket_map_add : List (Nat × AOBucket) → Nat → List Nat → List Nat →
    List (Nat × AOBucket)
  | [], k, codes, w => [(k, AOBucket.append_batch ⟨[], [], [], []⟩ codes w)]
  | (k2, b) :: t, k, codes, w =>
    if k2 = k then (k2, b.append_batch codes w) :: t
    else (k2, b) :: bucket_map_add t k codes w

/-- Mirror of `pack_pop_key`: sort the populations, pack the count into the
low nibble and each population into the following nibbles. -/
def pack_pop_key (pops : List Nat) : Nat :=
  ((pops.insertionSort (fun a c => a ≤ c)).foldl
    (fun acc p => (acc.1 ||| (p % 16) <<< acc.2, acc.2 + 4))
    ((pops.insertionSort (fun a c => a ≤ c)).length % 16, 4)).1

/-- Mirror of `code_pop_key`: pack the populations of the code's entries. -/
def code_pop_key (c bw : Nat) (jpop : List Nat) : Nat :=
  pack_pop_key ((code_entries c bw).map (fun j => jpop.getD j 0))

/-- One row of the pre-JBT CSR: a placement's half-board mask, population and
piece index. -/
structure PrePiece where
  mask : Nat
  pop : Nat
  jidx : Nat
  deriving DecidableEq

/-- Append a `(codes, weights)` batch onto the assoc entry for `k`
(the thread-local `group` / `frontier_map` / `by_key` accumulators). -/
def alPushCW : List (Nat × (List Nat × List Nat)) → Nat → List Nat → List Nat →
    List (Nat × (List Nat × List Nat))
  | [], k, codes, w => [(k, (codes, w))]
  | (k2, cw) :: t, k, codes, w =>
    if k2 = k then (k2, (cw.1 ++ codes, cw.2 ++ w)) :: t
    else (k2, cw) :: alPushCW t k codes w

/-- The driver's `root_code`: `-1` (here `none`) when the half board is
complete, else `u*n + v`. -/
def root_code_of (nm n : Nat) : Option Nat :=
  match find_root nm n with
  | none => none
  | some uv => some (uv.1 * n + uv.2)

/-- Driver state: per-root frontiers (mask-keyed buckets) and the completed
out-buckets (pop-key-keyed). -/
structure EnumState where
  frontiers : List (List (Nat × AOBucket))
  out : List (Nat × AOBucket)

/-- Survivor grouping for one placement: keep the vacated frontier entries
disjoint from the placement, group their committed codes by destination mask,
dropping destinations that fail the evil check (only while `i < evil_cut`). -/
def piece_groups (rf : List (Nat × AOBucket)) (p : PrePiece) (n i evil_cut : Nat) :
    List (Nat × (List Nat × List Nat)) :=
  (rf.filter (fun e => decide (e.1 &&& p.mask = 0))).foldl
    (fun g e =>
      let nm := e.1 ||| p.mask
      if i < evil_cut ∧ detect_evil_pmask nm n = true then g
      else alPushCW g nm e.2.codes e.2.weights)
    []

/-- Route one destination group: skip empty batches, update the codes by
inserting the placement's piece index unless its population is `n`, and merge
into the out-buckets (complete board) or the destination frontier. -/
def route_group (st : EnumState) (p : PrePiece) (n bw : Nat) (jpop : List Nat)
    (g : Nat × (List Nat × List Nat)) : EnumState :=
  if (g.2).1 = [] then st
  else
    let codes2 := if p.pop = n then (g.2).1
      else (g.2).1.map (fun c => (code_insert c p.jidx bw).1)
    match root_code_of g.1 n with
    | none =>
      let by_key := (codes2.zip (g.2).2).foldl
        (fun bk cw => alPushCW bk (code_pop_key cw.1 bw jpop) [cw.1] [cw.2]) []
      ⟨st.frontiers, by_key.foldl (fun o kb => bucket_map_add o kb.1 (kb.2).1 (kb.2).2) st.out⟩
    | some rc =>
      ⟨st.frontiers.set rc
        (bucket_map_add (st.frontiers.getD rc []) g.1 codes2 (g.2).2), st.out⟩

/-- Process one placement of the current root against the vacated frontier. -/
def process_piece (n bw i evil_cut : Nat) (jpop : List Nat)
    (rf : List (Nat × AOBucket)) (st : EnumState) (p : PrePiece) : EnumState :=
  (piece_groups rf p n i evil_cut).foldl (fun st2 g => route_group st2 p n bw jpop g) st

/-- Process root `i`: flush and vacate its frontier, then run every placement
of the root's CSR row against the vacated entries. -/
def process_root (n bw evil_cut : Nat) (pre : List (List PrePiece)) (jpop : List Nat)
    (st : EnumState) (i : Nat) : EnumState :=
  let rf := (st.frontiers.getD i []).map (fun e => (e.1, e.2.flush))
  (pre.getD i []).foldl (process_piece n bw i evil_cut jpop rf)
    ⟨st.frontiers.set i [], st.out⟩

/-- Mirror of `enumerate_to_snapshot` up to the final flush: seed root 0 with
the empty code at mask 0, drain the roots in order, and flush the
out-buckets. -/
def enumerate_to_snapshot_out (n m : Nat) (pre : List (List PrePiece)) (jpop : List Nat) :
    List (Nat × AOBucket) :=
  let bw := bitwidth m
  let total_roots := (n / 2) * n
  let st0 : EnumState := ⟨(List.range total_roots).map (fun _ => []), []⟩
  let st1 : EnumState :=
    ⟨st0.frontiers.set 0 [(0, AOBucket.append_batch ⟨[], [], [], []⟩ [0] [1])], []⟩
  let stF := (List.range total_roots).foldl (process_root n bw (total_roots - n) pre jpop) st1
  stF.out.map (fun e => (e.1, e.2.flush))

/-- Mirror of `build_snapshot_from_out`: sort the pop-keys, decode each
bucket's codes into CSR rows, cast the weights, and unpack the key. -/
def build_snapshot_from_out (out : List (Nat × AOBucket)) (bw : Nat) : List Bucket :=
  ((out.map (fun e => e.1)).insertionSort (fun a c => a ≤ c)).map (fun key =>
    let bkt := ((out.find? (fun e => decide (e.1 = key))).map (fun e => e.2)).getD ⟨[], [], [], []⟩
    ⟨bkt.codes.foldl (fun acc c => acc ++ (code_entries c bw).map (fun j => (j : Int))) [],
     bkt.codes.foldl (fun acc c => acc ++ [acc.getLastD 0 + ((code_entries c bw).length : Int)]) [0],
     bkt.weights.map (fun w => (w : ℚ)),
     (List.range (key % 16)).map (fun idx => (((key >>> (4 * idx + 4)) % 16 : Nat) : Int))⟩)

/-- The full enumeration pipeline: CSR inputs to snapshot buckets. -/
def enumerate_to_snapshot_model (n m : Nat) (pre : List (List PrePiece)) (jpop : List Nat) :
    List Bucket :=
  build_snapshot_from_out (enumerate_to_snapshot_out n m pre jpop) (bitwidth m)

/-- Union of the placement masks of a code's entries (the spec-side mask a
code should cover). -/
def unionMask (pmaskOf : List Nat) (es : List Nat) : Nat :=
  es.foldr (fun j acc => pmaskOf.getD j 0 ||| acc) 0

/-- Structural well-formedness of a code: a u128 value whose decoded entries
are strictly ascending piece indices below `m`, at most 10 of them. -/
def INVs (m bw c : Nat) : Prop :=
  c < 2 ^ 128 ∧ code_len c ≤ 10 ∧
  List.Chain' (fun x y => x < y) (code_entries c bw) ∧
  (∀ x ∈ code_entries c bw, x < m)

/-- Invariant tying a code to the partial mask it lives under: structurally
well formed, and unless an insert was dropped at the length-10 cap, the union
of its placements' masks is inside `pm`, its population sum is the popcount of
that union, and the uncovered-by-signature part of `pm` is a multiple of `n`
(the cells of skipped population-`n` placements). -/
def INV (n m bw : Nat) (pmaskOf jpop : List Nat) (pm c : Nat) : Prop :=
  INVs m bw c ∧
  (code_len c = 10 ∨
    (unionMask pmaskOf (code_entries c bw) &&& pm = unionMask pmaskOf (code_entries c bw) ∧
     ((code_entries c bw).map (fun j => jpop.getD j 0)).sum =
       popcount (unionMask pmaskOf (code_entries c bw)) ∧
     n ∣ (popcount pm - popcount (unionMask pmaskOf (code_entries c bw)))))

/-- Validity of one CSR placement: nonzero mask inside the half board whose
popcount is the recorded population, and a piece index consistent with the
placement tables and representable in a `bw`-bit field. -/
@[reducible] def ValidPiece (n m bw : Nat) (pmaskOf jpop : List Nat) (p : PrePiece) : Prop :=
  p.mask ≠ 0 ∧ p.mask &&& left_half_mask n = p.mask ∧ p.pop = popcount p.mask ∧
  p.jidx < m ∧ p.jidx < 2 ^ bw ∧
  pmaskOf.getD p.jidx 0 = p.mask ∧ jpop.getD p.jidx 0 = p.pop

/-- Per-entry frontier invariant: every committed or pending code of the
bucket satisfies the code/mask invariant for the entry's mask. -/
def EntInv (n m bw : Nat) (pmaskOf jpop : List Nat) (e : Nat × AOBucket) : Prop :=
  ∀ c ∈ e.2.codes ++ e.2.pend_codes, INV n m bw pmaskOf jpop e.1 c

/-- Driver-state invariant: every frontier entry satisfies `EntInv`, and every
out-bucket code satisfies the invariant at the full half-board mask. -/
def STINV (n m bw : Nat) (pmaskOf jpop : List Nat) (st : EnumState) : Prop :=
  (∀ fr ∈ st.frontiers, ∀ e ∈ fr, EntInv n m bw pmaskOf jpop e) ∧
  (∀ e ∈ st.out, ∀ c ∈ e.2.codes ++ e.2.pend_codes,
    INV n m bw pmaskOf jpop (left_half_mask n) c)

/-! ## Concrete instances for the solver claims -/

/-- Left bucket of scenario S6: key `[2,2]`, one row `[j0,j1] = [0,1]`, weight 1. -/
def s6L : Bucket := ⟨[0, 1], [0, 2], [1], [2, 2]⟩

/-- Right bucket of scenario S6: one row `[x0,x0'] = [2,3]`, weight 1. -/
def s6R : Bucket := ⟨[2, 3], [0, 2], [1], [2, 2]⟩

/-- Populations for S6 (N = 4): all four pieces have population 2. -/
def s6pop : List Int := [2, 2, 2, 2]

/-- Compat table for S6: at p = 2 both of `j0, j1` pair with both of `x0, x0'`. -/
def s6compat : List (Int × (List Int × List Int)) := [(2, ([0, 0, 1, 1], [2, 3, 2, 3]))]

end Matcher

/-! ## Theorems -/

namespace Matcher

section CodeLemmas

/-- Shifting a truncated word: `(x % 2^(s+r)) >>> s = (x >>> s) % 2^r`. -/
theorem mod_pow_shiftRight (x s r : Nat) : (x % 2 ^ (s + r)) >>> s = (x >>> s) % 2 ^ r := by
  rw [Nat.shiftRight_eq_div_pow, Nat.shiftRight_eq_div_pow, pow_add]
  exact Nat.mod_mul_right_div_self x (2 ^ s) (2 ^ r)

/-- Nested power-of-two mods collapse to the smaller width (inner wider). -/
theorem mod_pow_mod_of_le {a b : Nat} (x : Nat) (h : b ≤ a) :
    (x % 2 ^ a) % 2 ^ b = x % 2 ^ b :=
  Nat.mod_mod_of_dvd x (pow_dvd_pow 2 h)

/-- Nested power-of-two mods collapse to the smaller width (outer wider). -/
theorem mod_pow_mod_of_ge {a b : Nat} (x : Nat) (h : a ≤ b) :
    (x % 2 ^ a) % 2 ^ b = x % 2 ^ a :=
  Nat.mod_eq_of_lt (lt_of_lt_of_le (Nat.mod_lt _ (Nat.two_pow_pos a))
    (Nat.pow_le_pow_right (by norm_num) h))

/-- A value below `2^128` keeps only low bits in its high half. -/
theorem shiftRight64_mod (c : Nat) (hc : c < 2 ^ 128) : (c >>> 64) % 2 ^ 64 = c >>> 64 := by
  apply Nat.mod_eq_of_lt
  rw [Nat.shiftRight_eq_div_pow]
  exact Nat.div_lt_of_lt_mul (by norm_num at hc ⊢; omega)

/-- Oring a shifted word onto low bits below the shift is addition. -/
theorem shiftLeft_lor_eq_add {c k : Nat} (a : Nat) (h : c < 2 ^ k) :
    (a <<< k) ||| c = 2 ^ k * a + c := by
  apply Nat.eq_of_testBit_eq
  intro t
  rw [Nat.testBit_mul_pow_two_add a h t]
  simp only [Nat.testBit_lor, Nat.testBit_shiftLeft, ge_iff_le]
  by_cases htk : t < k
  · simp [decide_eq_false (not_le.mpr htk), htk]
  · have hc : c.testBit t = false :=
      Nat.testBit_lt_two_pow (lt_of_lt_of_le h (Nat.pow_le_pow_right (by norm_num) (by omega)))
    simp [decide_eq_true (le_of_not_lt htk), htk, hc]

/-- `code_get` in closed form: the `b`-bit field at offset `4 + i·b`. -/
theorem code_get_eq {c : Nat} (i b : Nat) (hb : b ≤ 32) (h128 : 4 + i * b + b ≤ 128)
    (hc : c < 2 ^ 128) : code_get c i b = (c >>> (4 + i * b)) % 2 ^ b := by
  unfold code_get
  by_cases hs : 4 + i * b < 64
  · simp only [hs, if_true]
    by_cases hbr : b ≤ 64 - (4 + i * b)
    · simp only [hbr, if_true]
      rw [show (64 : Nat) = (4 + i * b) + (64 - (4 + i * b)) by omega, mod_pow_shiftRight,
        mod_pow_mod_of_le _ hbr, mod_pow_mod_of_ge _ hb]
    · simp only [hbr, if_false]
      have hlow : ((c % 2 ^ 64) >>> (4 + i * b)) % 2 ^ (64 - (4 + i * b)) =
          (c >>> (4 + i * b)) % 2 ^ (64 - (4 + i * b)) := by
        have key : (c % 2 ^ 64) >>> (4 + i * b) =
            (c >>> (4 + i * b)) % 2 ^ (64 - (4 + i * b)) := by
          conv in (64 : Nat) => rw [show (64 : Nat) = (4 + i * b) + (64 - (4 + i * b)) by omega]
          exact mod_pow_shiftRight c _ _
        rw [key, mod_pow_mod_of_le _ le_rfl]
      have hhi : ((c >>> 64) % 2 ^ 64) % 2 ^ (b - (64 - (4 + i * b))) =
          (c >>> 64) % 2 ^ (b - (64 - (4 + i * b))) := mod_pow_mod_of_le _ (by omega)
      rw [hlow, hhi, shiftLeft_lor_eq_add _ (Nat.mod_lt _ (Nat.two_pow_pos _))]
      have hdec : (c >>> (4 + i * b)) % 2 ^ b =
          (c >>> (4 + i * b)) % 2 ^ (64 - (4 + i * b)) +
            2 ^ (64 - (4 + i * b)) *
              ((c >>> (4 + i * b) / 2 ^ (64 - (4 + i * b))) % 2 ^ (b - (64 - (4 + i * b)))) := by
        rw [show (2 : Nat) ^ b = 2 ^ (64 - (4 + i * b)) * 2 ^ (b - (64 - (4 + i * b))) from by
          rw [← pow_add]; congr 1; omega]
        exact Nat.mod_mul
      have hdiv : c >>> (4 + i * b) / 2 ^ (64 - (4 + i * b)) = c >>> 64 := by
        rw [← Nat.shiftRight_eq_div_pow, ← Nat.shiftRight_add]
        congr 1
        omega
      rw [hdiv] at hdec
      rw [← Nat.add_comm, ← hdec]
      exact Nat.mod_eq_of_lt (lt_of_lt_of_le (Nat.mod_lt _ (Nat.two_pow_pos b))
        (Nat.pow_le_pow_right (by norm_num) hb))
  · simp only [hs, if_false]
    rw [shiftRight64_mod c hc,
      show ((c >>> 64) >>> (4 + i * b - 64)) = c >>> (4 + i * b) from by
        rw [← Nat.shiftRight_add]; congr 1; omega,
      mod_pow_mod_of_ge _ hb]

/-- Bit view of the u128 complement pattern `(2^128 - 1) ^^^ m` below bit 128. -/
theorem testBit_not128 {t : Nat} (m : Nat) (ht : t < 128) :
    ((2 ^ 128 - 1) ^^^ m).testBit t = !(m.testBit t) := by
  rw [Nat.testBit_xor, Nat.testBit_two_pow_sub_one]
  simp [decide_eq_true ht, Bool.xor_comm]

/-- Bit view of a shifted word truncated to 128 bits. -/
theorem testBit_shl_mod {t : Nat} (x s : Nat) (ht : t < 128) :
    ((x <<< s) % 2 ^ 128).testBit t = (decide (s ≤ t) && x.testBit (t - s)) := by
  rw [Nat.testBit_mod_two_pow, Nat.testBit_shiftLeft]
  simp [decide_eq_true ht, ge_iff_le]

/-- Bit-level specification of `code_set`: bits inside field `i` come from
`val % 2^b`, all other bits (below 128) are unchanged. -/
theorem testBit_code_set (c i b val : Nat) {t : Nat} (h128 : 4 + i * b + b ≤ 128)
    (ht : t < 128) :
    (code_set c i b val).testBit t =
      if 4 + i * b ≤ t ∧ t < 4 + i * b + b then (val % 2 ^ b).testBit (t - (4 + i * b))
      else c.testBit t := by
  unfold code_set
  by_cases hs : 4 + i * b < 64
  · by_cases hbr : b ≤ 64 - (4 + i * b)
    · simp only [hs, hbr, if_true]
      rw [Nat.testBit_lor, Nat.testBit_land, testBit_not128 _ ht, testBit_shl_mod _ _ ht,
        testBit_shl_mod _ _ ht, Nat.testBit_two_pow_sub_one, Nat.testBit_mod_two_pow]
      by_cases hin : 4 + i * b ≤ t ∧ t < 4 + i * b + b
      · have e1 : decide (4 + i * b ≤ t) = true := decide_eq_true hin.1
        have e2 : decide (t - (4 + i * b) < b) = true := decide_eq_true (by omega)
        simp [e1, e2, hin]
      · simp only [hin, if_false]
        by_cases hle : 4 + i * b ≤ t
        · have e2 : decide (t - (4 + i * b) < b) = false := decide_eq_false (by omega)
          simp [decide_eq_true hle, e2]
        · simp [decide_eq_false hle]
    · simp only [hs, hbr, if_true, if_false]
      rw [Nat.testBit_lor, Nat.testBit_land, testBit_not128 _ ht, Nat.testBit_lor,
        Nat.testBit_land, testBit_not128 _ ht, testBit_shl_mod _ _ ht,
        testBit_shl_mod _ _ ht, testBit_shl_mod _ _ ht, testBit_shl_mod _ _ ht,
        Nat.testBit_mod_two_pow, Nat.testBit_mod_two_pow, Nat.testBit_shiftRight]
      by_cases hin : 4 + i * b ≤ t ∧ t < 4 + i * b + b
      · rcases lt_or_ge t 64 with h64 | h64
        · have e1 : decide (4 + i * b ≤ t) = true := decide_eq_true hin.1
          have e2 : decide (t - (4 + i * b) < 64 - (4 + i * b)) = true := decide_eq_true (by omega)
          have e3 : decide (64 ≤ t) = false := decide_eq_false (by omega)
          simp [e1, e2, e3, hin]
        · have e1 : decide (64 ≤ t) = true := decide_eq_true h64
          have e2 : decide (t - 64 < b - (64 - (4 + i * b))) = true := decide_eq_true (by omega)
          have e4 : 64 - (4 + i * b) + (t - 64) = t - (4 + i * b) := by omega
          have e5 : decide (4 + i * b ≤ t) = true := decide_eq_true hin.1
          have e6 : decide (t - (4 + i * b) < 64 - (4 + i * b)) = false :=
            decide_eq_false (by omega)
          simp [e1, e2, e4, e5, e6, hin]
      · simp only [hin, if_false]
        rcases lt_or_ge t 64 with h64 | h64
        · have e3 : decide (64 ≤ t) = false := decide_eq_false (by omega)
          by_cases hle : 4 + i * b ≤ t
          · have e2 : decide (t - (4 + i * b) < 64 - (4 + i * b)) = false :=
              decide_eq_false (by omega)
            simp [decide_eq_true hle, e2, e3]
          · simp [decide_eq_false hle, e3]
        · have e1 : decide (64 ≤ t) = true := decide_eq_true h64
          have e2 : decide (t - 64 < b - (64 - (4 + i * b))) = false :=
            decide_eq_false (by omega)
          have e6 : decide (t - (4 + i * b) < 64 - (4 + i * b)) = false :=
            decide_eq_false (by omega)
          have e7 : decide (64 - (4 + i * b) + (t - 64) < b) = false :=
            decide_eq_false (by omega)
          simp [e1, e2, e6, e7]
  · simp only [hs, if_false]
    rw [Nat.testBit_lor, Nat.testBit_land, testBit_not128 _ ht, testBit_shl_mod _ _ ht,
      testBit_shl_mod _ _ ht, Nat.testBit_two_pow_sub_one]
    have h64s : 64 + (4 + i * b - 64) = 4 + i * b := by omega
    rw [h64s]
    by_cases hin : 4 + i * b ≤ t ∧ t < 4 + i * b + b
    · have e1 : decide (4 + i * b ≤ t) = true := decide_eq_true hin.1
      have e2 : decide (t - (4 + i * b) < b) = true := decide_eq_true (by omega)
      simp [e1, e2, hin]
    · simp only [hin, if_false]
      by_cases hle : 4 + i * b ≤ t
      · have e2 : decide (t - (4 + i * b) < b) = false := decide_eq_false (by omega)
        simp [decide_eq_true hle, e2]
      · simp [decide_eq_false hle]

/-- `code_set` always produces a value below `2^128`. -/
theorem code_set_lt (c i b val : Nat) : code_set c i b val < 2 ^ 128 := by
  unfold code_set
  by_cases hs : 4 + i * b < 64
  · by_cases hbr : b ≤ 64 - (4 + i * b)
    · simp only [hs, hbr, if_true]
      exact Nat.or_lt_two_pow
        (Nat.and_lt_two_pow _ (Nat.xor_lt_two_pow (by norm_num) (Nat.mod_lt _ (by norm_num))))
        (Nat.mod_lt _ (by norm_num))
    · simp only [hs, hbr, if_true, if_false]
      exact Nat.or_lt_two_pow
        (Nat.and_lt_two_pow _ (Nat.xor_lt_two_pow (by norm_num) (Nat.mod_lt _ (by norm_num))))
        (Nat.mod_lt _ (by norm_num))
  · simp only [hs, if_false]
    exact Nat.or_lt_two_pow
      (Nat.and_lt_two_pow _ (Nat.xor_lt_two_pow (by norm_num) (Nat.mod_lt _ (by norm_num))))
      (Nat.mod_lt _ (by norm_num))

/-- Reading back the field just written returns the (truncated) value. -/
theorem code_get_code_set_self (c i b val : Nat) (hb : b ≤ 32) (h128 : 4 + i * b + b ≤ 128) :
    code_get (code_set c i b val) i b = val % 2 ^ b := by
  rw [code_get_eq i b hb h128 (code_set_lt c i b val)]
  apply Nat.eq_of_testBit_eq
  intro t
  rw [Nat.testBit_mod_two_pow, Nat.testBit_shiftRight]
  by_cases htb : t < b
  · rw [testBit_code_set c i b val h128 (by omega : 4 + i * b + t < 128)]
    have hin : 4 + i * b ≤ 4 + i * b + t ∧ 4 + i * b + t < 4 + i * b + b := by omega
    have e : 4 + i * b + t - (4 + i * b) = t := by omega
    simp [hin, e, decide_eq_true htb]
  · have hz : (val % 2 ^ b).testBit t = false :=
      Nat.testBit_lt_two_pow (lt_of_lt_of_le (Nat.mod_lt _ (Nat.two_pow_pos b))
        (Nat.pow_le_pow_right (by norm_num) (by omega)))
    simp [decide_eq_false htb, hz]

/-- Writing field `i` leaves every other field `i2` unchanged. -/
theorem code_get_code_set_ne (c : Nat) {i i2 : Nat} (b val : Nat) (hne : i2 ≠ i)
    (hb : b ≤ 32) (h128 : 4 + i * b + b ≤ 128) (h128' : 4 + i2 * b + b ≤ 128)
    (hc : c < 2 ^ 128) : code_get (code_set c i b val) i2 b = code_get c i2 b := by
  rw [code_get_eq i2 b hb h128' (code_set_lt c i b val), code_get_eq i2 b hb h128' hc]
  apply Nat.eq_of_testBit_eq
  intro t
  rw [Nat.testBit_mod_two_pow, Nat.testBit_mod_two_pow, Nat.testBit_shiftRight,
    Nat.testBit_shiftRight]
  by_cases htb : t < b
  · rw [testBit_code_set c i b val h128 (by omega : 4 + i2 * b + t < 128)]
    have hout : ¬(4 + i * b ≤ 4 + i2 * b + t ∧ 4 + i2 * b + t < 4 + i * b + b) := by
      rcases Nat.lt_or_ge i2 i with h | h
      · have hle : i2 * b + b ≤ i * b := by
          have h2 := Nat.mul_le_mul_right b (Nat.succ_le_of_lt h)
          simpa [Nat.succ_mul] using h2
        omega
      · have hlt : i < i2 := lt_of_le_of_ne h (Ne.symm hne)
        have hle : i * b + b ≤ i2 * b := by
          have h2 := Nat.mul_le_mul_right b (Nat.succ_le_of_lt hlt)
          simpa [Nat.succ_mul] using h2
        omega
    simp [hout]
  · simp [decide_eq_false htb]

/-- Writing a field does not change the length nibble. -/
theorem code_len_code_set (c i b val : Nat) (h128 : 4 + i * b + b ≤ 128) :
    code_len (code_set c i b val) = code_len c := by
  unfold code_len
  rw [show (16 : Nat) = 2 ^ 4 from rfl]
  apply Nat.eq_of_testBit_eq
  intro t
  rw [Nat.testBit_mod_two_pow, Nat.testBit_mod_two_pow]
  by_cases ht4 : t < 4
  · rw [testBit_code_set c i b val h128 (by omega : t < 128)]
    have hout : ¬(4 + i * b ≤ t ∧ t < 4 + i * b + b) := by omega
    simp [hout]
  · simp [decide_eq_false ht4]

/-- Bit view of `code_with_len`: low nibble from `k`, the rest from `code`. -/
theorem testBit_code_with_len (c k : Nat) {t : Nat} (ht : t < 128) :
    (code_with_len c k).testBit t = if t < 4 then (k % 16).testBit t else c.testBit t := by
  unfold code_with_len
  rw [Nat.testBit_lor, Nat.testBit_land, testBit_not128 _ ht,
    show (15 : Nat) = 2 ^ 4 - 1 from rfl, Nat.testBit_two_pow_sub_one,
    show (16 : Nat) = 2 ^ 4 from rfl, Nat.testBit_mod_two_pow]
  by_cases ht4 : t < 4
  · simp [decide_eq_true ht4, ht4]
  · simp [decide_eq_false ht4, ht4]

/-- `code_with_len` always produces a value below `2^128`. -/
theorem code_with_len_lt (c k : Nat) : code_with_len c k < 2 ^ 128 := by
  unfold code_with_len
  exact Nat.or_lt_two_pow
    (Nat.and_lt_two_pow _ (Nat.xor_lt_two_pow (by norm_num) (by norm_num)))
    (lt_of_lt_of_le (Nat.mod_lt _ (by norm_num)) (by norm_num))

/-- The length nibble after `code_with_len` is `k % 16`. -/
theorem code_len_code_with_len (c k : Nat) : code_len (code_with_len c k) = k % 16 := by
  unfold code_len
  rw [show (16 : Nat) = 2 ^ 4 from rfl]
  apply Nat.eq_of_testBit_eq
  intro t
  rw [Nat.testBit_mod_two_pow, Nat.testBit_mod_two_pow]
  by_cases ht4 : t < 4
  · rw [testBit_code_with_len c k (by omega : t < 128)]
    rw [if_pos ht4, show (16 : Nat) = 2 ^ 4 from rfl, Nat.testBit_mod_two_pow]
    simp [decide_eq_true ht4]
  · simp [decide_eq_false ht4]

/-- Setting the length nibble does not change any field. -/
theorem code_get_code_with_len (c k i b : Nat) (hb : b ≤ 32) (h128 : 4 + i * b + b ≤ 128)
    (hc : c < 2 ^ 128) : code_get (code_with_len c k) i b = code_get c i b := by
  rw [code_get_eq i b hb h128 (code_with_len_lt c k), code_get_eq i b hb h128 hc]
  apply Nat.eq_of_testBit_eq
  intro t
  rw [Nat.testBit_mod_two_pow, Nat.testBit_mod_two_pow, Nat.testBit_shiftRight,
    Nat.testBit_shiftRight]
  by_cases htb : t < b
  · rw [testBit_code_with_len c k (by omega : 4 + i * b + t < 128)]
    simp [show ¬(4 + i * b + t < 4) from by omega]
  · simp [decide_eq_false htb]

/-- Every `code_get` value is below `2^b`. -/
theorem code_get_lt (c i b : Nat) (hb : b ≤ 32) (h128 : 4 + i * b + b ≤ 128)
    (hc : c < 2 ^ 128) : code_get c i b < 2 ^ b := by
  rw [code_get_eq i b hb h128 hc]
  exact Nat.mod_lt _ (Nat.two_pow_pos b)

/-- Field-index monotonicity of the 128-bit capacity bound. -/
theorem field_bound_mono {b u v : Nat} (h : u ≤ v) (hv : 4 + v * b + b ≤ 128) :
    4 + u * b + b ≤ 128 := by
  have := Nat.mul_le_mul_right b h
  omega

/-- `shiftLoop` keeps the value below `2^128`. -/
theorem shiftLoop_lt (b lo : Nat) : ∀ (s c : Nat), c < 2 ^ 128 →
    shiftLoop b lo c s < 2 ^ 128
  | 0, c, hc => hc
  | s + 1, c, _ => shiftLoop_lt b lo s _ (code_set_lt _ _ _ _)

/-- `shiftLoop` does not change the length nibble. -/
theorem shiftLoop_len (b lo : Nat) : ∀ (s c : Nat), 4 + (lo + s) * b + b ≤ 128 →
    code_len (shiftLoop b lo c s) = code_len c
  | 0, _, _ => rfl
  | s + 1, c, h => by
    have h' : 4 + (lo + s + 1) * b + b ≤ 128 := by
      have e : lo + (s + 1) = lo + s + 1 := rfl
      rw [e] at h
      exact h
    rw [shiftLoop, shiftLoop_len b lo s _ (field_bound_mono (Nat.le_succ _) h'),
      code_len_code_set c (lo + s + 1) b _ h']

/-- Effect of `shiftLoop` on fields: fields in `(lo, lo+s]` receive the field
one below, all others are unchanged. -/
theorem shiftLoop_get (b lo : Nat) (hb : b ≤ 32) : ∀ (s c m : Nat), c < 2 ^ 128 →
    4 + (lo + s) * b + b ≤ 128 → 4 + m * b + b ≤ 128 →
    code_get (shiftLoop b lo c s) m b =
      if lo < m ∧ m ≤ lo + s then code_get c (m - 1) b else code_get c m b
  | 0, c, m, _, _, _ => by
    have h0 : ¬(lo < m ∧ m ≤ lo + 0) := by omega
    rw [shiftLoop, if_neg h0]
  | s + 1, c, m, hc, hbound, hm => by
    have hset : 4 + (lo + s + 1) * b + b ≤ 128 := by
      have e : lo + (s + 1) = lo + s + 1 := rfl
      rw [e] at hbound
      exact hbound
    rw [shiftLoop]
    rw [shiftLoop_get b lo hb s _ m (code_set_lt _ _ _ _)
      (field_bound_mono (Nat.le_succ _) hset) hm]
    by_cases h1 : lo < m ∧ m ≤ lo + s
    · rw [if_pos h1, if_pos (by omega : lo < m ∧ m ≤ lo + (s + 1))]
      rw [code_get_code_set_ne c b _ (by omega : m - 1 ≠ lo + s + 1) hb hset
        (field_bound_mono (by omega) hm) hc]
    · rw [if_neg h1]
      by_cases h2 : m = lo + s + 1
      · subst h2
        rw [if_pos (by omega : lo < lo + s + 1 ∧ lo + s + 1 ≤ lo + (s + 1))]
        rw [code_get_code_set_self c (lo + s + 1) b _ hb hset,
          show lo + s + 1 - 1 = lo + s from by omega]
        exact Nat.mod_eq_of_lt (code_get_lt c (lo + s) b hb
          (field_bound_mono (Nat.le_succ _) hset) hc)
      · rw [if_neg (by omega : ¬(lo < m ∧ m ≤ lo + (s + 1)))]
        rw [code_get_code_set_ne c b _ h2 hb hset hm hc]

/-- Invariant-based specification of the binary-search loop of `code_insert`:
the returned position splits the sorted fields into those `< j` and those
`≥ j`. -/
theorem codeBsearch_spec (c b j k : Nat)
    (hsort : ∀ m n, m < n → n < k → code_get c m b < code_get c n b) :
    ∀ fuel lo hi, lo ≤ hi → hi ≤ k → hi - lo ≤ fuel →
    (∀ m, m < lo → code_get c m b < j) →
    (∀ m, hi ≤ m → m < k → j ≤ code_get c m b) →
    lo ≤ codeBsearch c b j fuel lo hi ∧ codeBsearch c b j fuel lo hi ≤ hi ∧
      (∀ m, m < codeBsearch c b j fuel lo hi → code_get c m b < j) ∧
      (∀ m, codeBsearch c b j fuel lo hi ≤ m → m < k → j ≤ code_get c m b)
  | 0, lo, hi, hlohi, hhik, hfuel, hlo, hhi => by
    have : lo = hi := by omega
    subst this
    exact ⟨le_rfl, le_rfl, hlo, hhi⟩
  | fuel + 1, lo, hi, hlohi, hhik, hfuel, hlo, hhi => by
    rw [codeBsearch]
    by_cases hlt : lo < hi
    · rw [if_pos hlt]
      by_cases hmid : code_get c ((lo + hi) / 2) b < j
      · rw [if_pos hmid]
        have hspec := codeBsearch_spec c b j k hsort fuel ((lo + hi) / 2 + 1) hi
          (by omega) hhik (by omega)
          (fun m hm => by
            rcases Nat.lt_or_ge m ((lo + hi) / 2) with h | h
            · exact lt_trans (hsort m ((lo + hi) / 2) h (by omega)) hmid
            · have : m = (lo + hi) / 2 := by omega
              subst this
              exact hmid)
          hhi
        exact ⟨by omega, hspec.2.1, hspec.2.2.1, hspec.2.2.2⟩
      · rw [if_neg hmid]
        have hspec := codeBsearch_spec c b j k hsort fuel lo ((lo + hi) / 2)
          (by omega) (by omega) (by omega) hlo
          (fun m hm hmk => by
            rcases Nat.lt_or_ge ((lo + hi) / 2) m with h | h
            · exact le_of_lt (lt_of_le_of_lt (le_of_not_lt hmid)
                (hsort ((lo + hi) / 2) m h hmk))
            · have : m = (lo + hi) / 2 := by omega
              subst this
              exact le_of_not_lt hmid)
        exact ⟨hspec.1, by omega, hspec.2.2.1, hspec.2.2.2⟩
    · rw [if_neg hlt]
      have : lo = hi := by omega
      subst this
      exact ⟨le_rfl, le_rfl, hlo, hhi⟩

/-- Strict ascent of the decoded entries, in index form. -/
theorem chain'_entries_iff (c b : Nat) :
    List.Chain' (fun x y => x < y) (code_entries c b) ↔
      ∀ m n, m < n → n < code_len c → code_get c m b < code_get c n b := by
  rw [code_entries, List.chain'_iff_pairwise, List.pairwise_iff_getElem]
  constructor
  · intro h m n hmn hn
    have hm : m < (List.range (code_len c)).length := by simpa using lt_trans hmn hn
    have hn' : n < (List.range (code_len c)).length := by simpa using hn
    have := h m n (by simpa using hm) (by simpa using hn') hmn
    simpa using this
  · intro h i j hi hj hij
    have hi' : i < code_len c := by simpa using hi
    have hj' : j < code_len c := by simpa using hj
    simpa using h i j hij hj'

/-- Membership in the decoded entries, in index form. -/
theorem mem_code_entries (c b x : Nat) :
    x ∈ code_entries c b ↔ ∃ m, m < code_len c ∧ code_get c m b = x := by
  simp [code_entries, List.mem_map, List.mem_range]

/-- Full characterization of `code_insert` on a valid sorted code (helper for
the insert and enumeration claims): unchanged with flag `false` on a
duplicate entry or at length 10, otherwise `j` is inserted in order. -/
theorem code_insert_char (c j b : Nat) (hc : c < 2 ^ 128) (hb1 : 1 ≤ b)
    (h128 : 4 + 10 * b ≤ 128) (hk : code_len c ≤ 10) (hj : j < 2 ^ b)
    (hsort : List.Chain' (fun x y => x < y) (code_entries c b)) :
    (j ∈ code_entries c b → code_insert c j b = (c, false)) ∧
    (code_len c = 10 → code_insert c j b = (c, false)) ∧
    (j ∉ code_entries c b → code_len c < 10 →
      (code_insert c j b).2 = true ∧
      code_len (code_insert c j b).1 = code_len c + 1 ∧
      List.Chain' (fun x y => x < y) (code_entries (code_insert c j b).1 b) ∧
      (∀ x, x ∈ code_entries (code_insert c j b).1 b ↔ x ∈ code_entries c b ∨ x = j)) := by
  have hb32 : b ≤ 32 := by omega
  have h9 : 4 + 9 * b + b ≤ 128 := by
    have e : 9 * b + b = 10 * b := by ring
    omega
  have hidx : ∀ m n, m < n → n < code_len c → code_get c m b < code_get c n b :=
    (chain'_entries_iff c b).mp hsort
  obtain ⟨hL0, hLk, hLlt, hLge⟩ := codeBsearch_spec c b j (code_len c) hidx
    (code_len c + 1) 0 (code_len c) (Nat.zero_le _) le_rfl (by omega)
    (fun m hm => absurd hm (Nat.not_lt_zero m))
    (fun m h1 h2 => absurd (lt_of_le_of_lt h1 h2) (lt_irrefl _))
  set k := code_len c with hkdef
  set L := codeBsearch c b j (k + 1) 0 k with hLdef
  have hdup_iff : (L < k ∧ code_get c L b = j) ↔ j ∈ code_entries c b := by
    constructor
    · rintro ⟨h1, h2⟩
      exact (mem_code_entries c b j).mpr ⟨L, h1, h2⟩
    · intro hmem
      obtain ⟨m, hmk, hme⟩ := (mem_code_entries c b j).mp hmem
      have hmL : ¬ m < L := fun hcon => absurd hme (ne_of_lt (hLlt m hcon))
      rcases Nat.eq_or_lt_of_le (le_of_not_lt hmL) with heq | hlt2
      · rw [← heq] at hmk hme
        exact ⟨hmk, hme⟩
      · have hj1 : j ≤ code_get c L b := hLge L le_rfl (lt_trans hlt2 hmk)
        have hj2 : code_get c L b < code_get c m b := hidx L m hlt2 hmk
        rw [hme] at hj2
        omega
  have hunfold : code_insert c j b =
      (if L < k ∧ code_get c L b = j then (c, false)
       else if 10 ≤ k then (c, false)
       else (code_with_len (code_set (shiftLoop b L c (k - L)) L b j) (k + 1), true)) := rfl
  refine ⟨?_, ?_, ?_⟩
  · intro hjmem
    rw [hunfold, if_pos (hdup_iff.mpr hjmem)]
  · intro h10
    rw [hunfold]
    by_cases hd : L < k ∧ code_get c L b = j
    · rw [if_pos hd]
    · rw [if_neg hd, if_pos (by omega)]
  · intro hnot hklt
    have hd : ¬(L < k ∧ code_get c L b = j) := fun hcon => hnot (hdup_iff.mp hcon)
    rw [hunfold, if_neg hd, if_neg (by omega : ¬ 10 ≤ k)]
    set out := shiftLoop b L c (k - L) with houtdef
    set out2 := code_set out L b j with hout2def
    set res := code_with_len out2 (k + 1) with hresdef
    have hout_lt : out < 2 ^ 128 := shiftLoop_lt b L _ c hc
    have hfield : ∀ i, i ≤ k → 4 + i * b + b ≤ 128 :=
      fun i hi => field_bound_mono (by omega) h9
    have hbound_shift : 4 + (L + (k - L)) * b + b ≤ 128 := by
      rw [show L + (k - L) = k from by omega]
      exact hfield k le_rfl
    have hgetout : ∀ m, m ≤ k → code_get out m b =
        if L < m ∧ m ≤ k then code_get c (m - 1) b else code_get c m b := by
      intro m hm
      rw [houtdef, shiftLoop_get b L hb32 (k - L) c m hc hbound_shift (hfield m hm),
        show L + (k - L) = k from by omega]
    have hset_bound : 4 + L * b + b ≤ 128 := hfield L (by omega)
    have hout2_get_L : code_get out2 L b = j := by
      rw [hout2def, code_get_code_set_self out L b j hb32 hset_bound]
      exact Nat.mod_eq_of_lt hj
    have hout2_get : ∀ m, m ≤ k → m ≠ L → code_get out2 m b = code_get out m b := by
      intro m hm hne
      rw [hout2def]
      exact code_get_code_set_ne out b j hne hb32 hset_bound (hfield m hm) hout_lt
    have hres_len : code_len res = k + 1 := by
      rw [hresdef, code_len_code_with_len]
      exact Nat.mod_eq_of_lt (by omega)
    have hres_get : ∀ i, i ≤ k → code_get res i b = code_get out2 i b := by
      intro i hi
      rw [hresdef]
      exact code_get_code_with_len out2 (k + 1) i b hb32 (hfield i hi) (code_set_lt _ _ _ _)
    have hval : ∀ i, i ≤ k → code_get res i b =
        if i < L then code_get c i b else if i = L then j else code_get c (i - 1) b := by
      intro i hi
      rw [hres_get i hi]
      by_cases h1 : i < L
      · rw [if_pos h1, hout2_get i hi (by omega), hgetout i hi, if_neg (by omega)]
      · by_cases h2 : i = L
        · rw [if_neg h1, if_pos h2]
          rw [h2] at hi ⊢
          exact hout2_get_L
        · rw [if_neg h1, if_neg h2, hout2_get i hi h2, hgetout i hi, if_pos (by omega)]
    have hjlt : ∀ m, L ≤ m → m < k → j < code_get c m b := by
      intro m h1 h2
      rcases Nat.lt_or_ge j (code_get c m b) with h | h
      · exact h
      · have hle := hLge m h1 h2
        have heq : code_get c m b = j := by omega
        exact absurd ((mem_code_entries c b j).mpr ⟨m, h2, heq⟩) hnot
    refine ⟨rfl, hres_len, ?_, ?_⟩
    · rw [chain'_entries_iff]
      intro m n hmn hn
      rw [hres_len] at hn
      rw [hval m (by omega), hval n (by omega)]
      by_cases hm1 : m < L
      · rw [if_pos hm1]
        by_cases hn1 : n < L
        · rw [if_pos hn1]
          exact hidx m n hmn (by omega)
        · by_cases hn2 : n = L
          · rw [if_neg hn1, if_pos hn2]
            exact hLlt m hm1
          · rw [if_neg hn1, if_neg hn2]
            exact lt_trans (hLlt m hm1) (hjlt (n - 1) (by omega) (by omega))
      · by_cases hm2 : m = L
        · rw [if_neg hm1, if_pos hm2]
          have hn1 : ¬ n < L := by omega
          have hn2 : n ≠ L := by omega
          rw [if_neg hn1, if_neg hn2]
          exact hjlt (n - 1) (by omega) (by omega)
        · rw [if_neg hm1, if_neg hm2]
          have hn1 : ¬ n < L := by omega
          have hn2 : n ≠ L := by omega
          rw [if_neg hn1, if_neg hn2]
          exact hidx (m - 1) (n - 1) (by omega) (by omega)
    · intro x
      rw [mem_code_entries, mem_code_entries, hres_len]
      constructor
      · rintro ⟨i, hik1, hix⟩
        rw [hval i (by omega)] at hix
        split_ifs at hix with h1 h2
        · exact Or.inl ⟨i, by omega, hix⟩
        · exact Or.inr hix.symm
        · exact Or.inl ⟨i - 1, by omega, hix⟩
      · rintro (⟨m, hmk, hmx⟩ | rfl)
        · by_cases h1 : m < L
          · refine ⟨m, by omega, ?_⟩
            rw [hval m (by omega), if_pos h1]
            exact hmx
          · refine ⟨m + 1, by omega, ?_⟩
            rw [hval (m + 1) (by omega), if_neg (by omega), if_neg (by omega)]
            simpa using hmx
        · refine ⟨L, by omega, ?_⟩
          rw [hval L (by omega), if_neg (lt_irrefl L), if_pos rfl]

/-- C6: for every valid sorted code, `code_insert` returns the code unchanged
with flag `false` on a duplicate or at length 10, and otherwise returns a code
whose entries are the old ones plus `j`, still strictly ascending, with the
length incremented. -/
theorem c6_code_insert_spec (c j b : Nat) (hc : c < 2 ^ 128) (hb1 : 1 ≤ b)
    (h128 : 4 + 10 * b ≤ 128) (hk : code_len c ≤ 10) (hj : j < 2 ^ b)
    (hsort : List.Chain' (fun x y => x < y) (code_entries c b)) :
    (j ∈ code_entries c b → code_insert c j b = (c, false)) ∧
    (code_len c = 10 → code_insert c j b = (c, false)) ∧
    (j ∉ code_entries c b → code_len c < 10 →
      (code_insert c j b).2 = true ∧
      code_len (code_insert c j b).1 = code_len c + 1 ∧
      List.Chain' (fun x y => x < y) (code_entries (code_insert c j b).1 b) ∧
      (∀ x, x ∈ code_entries (code_insert c j b).1 b ↔ x ∈ code_entries c b ∨ x = j)) :=
  code_insert_char c j b hc hb1 h128 hk hj hsort

/-- Length of the decoded entry list is the stored length. -/
theorem length_code_entries (c b : Nat) : (code_entries c b).length = code_len c := by
  simp [code_entries]

/-- Comparison of two one-digit-extended base-`B` values. -/
theorem digit_lt_iff {B a c S T : Nat} (ha : a < B) (hc : c < B) :
    a + B * S < c + B * T ↔ S < T ∨ (S = T ∧ a < c) := by
  constructor
  · intro h
    rcases Nat.lt_trichotomy S T with h1 | h1 | h1
    · exact Or.inl h1
    · subst h1
      exact Or.inr ⟨rfl, by omega⟩
    · exfalso
      have h2 := Nat.mul_le_mul_left B (Nat.succ_le_of_lt h1)
      rw [Nat.mul_succ] at h2
      omega
  · rintro (h1 | ⟨rfl, h2⟩)
    · have h2 := Nat.mul_le_mul_left B (Nat.succ_le_of_lt h1)
      rw [Nat.mul_succ] at h2
      omega
    · omega

/-- Equality of two one-digit-extended base-`B` values. -/
theorem digit_eq_iff {B a c S T : Nat} (ha : a < B) (hc : c < B) :
    a + B * S = c + B * T ↔ a = c ∧ S = T := by
  constructor
  · intro h
    rcases Nat.lt_trichotomy S T with h1 | h1 | h1
    · exfalso
      have h2 := Nat.mul_le_mul_left B (Nat.succ_le_of_lt h1)
      rw [Nat.mul_succ] at h2
      omega
    · subst h1
      exact ⟨by omega, rfl⟩
    · exfalso
      have h2 := Nat.mul_le_mul_left B (Nat.succ_le_of_lt h1)
      rw [Nat.mul_succ] at h2
      omega
  · rintro ⟨rfl, rfl⟩
    rfl

/-- Lexicographic comparison of equal-length lists extended by one final
element: the prefixes decide, ties fall to the last elements. -/
theorem lex_snoc_iff (a c : Nat) : ∀ (s t : List Nat), s.length = t.length →
    (List.Lex (fun x y => x < y) (s ++ [a]) (t ++ [c]) ↔
      List.Lex (fun x y => x < y) s t ∨ (s = t ∧ a < c))
  | [], [], _ => by
    constructor
    · intro h
      cases h with
      | cons h => cases h
      | rel h => exact Or.inr ⟨rfl, h⟩
    · rintro (h | ⟨-, h⟩)
      · cases h
      · exact List.Lex.rel h
  | [], y :: t, hlen => by simp at hlen
  | x :: s, [], hlen => by simp at hlen
  | x :: s, y :: t, hlen => by
    have hlen' : s.length = t.length := by simpa using hlen
    constructor
    · intro h
      cases h with
      | cons h =>
        rcases (lex_snoc_iff a c s t hlen').mp h with h2 | ⟨rfl, h2⟩
        · exact Or.inl (List.Lex.cons h2)
        · exact Or.inr ⟨rfl, h2⟩
      | rel h => exact Or.inl (List.Lex.rel h)
    · rintro (h | ⟨heq, h2⟩)
      · cases h with
        | cons h => exact List.Lex.cons ((lex_snoc_iff a c s t hlen').mpr (Or.inl h))
        | rel h => exact List.Lex.rel h
      · cases heq
        exact List.Lex.cons ((lex_snoc_iff a c s s rfl).mpr (Or.inr ⟨rfl, h2⟩))

/-- Equal-length bounded digit strings have equal values iff they are equal. -/
theorem digitsVal_inj (b : Nat) : ∀ (s t : List Nat), s.length = t.length →
    (∀ x ∈ s, x < 2 ^ b) → (∀ x ∈ t, x < 2 ^ b) →
    (digitsVal b s = digitsVal b t ↔ s = t)
  | [], [], _, _, _ => by simp
  | [], y :: t, hlen, _, _ => by simp at hlen
  | x :: s, [], hlen, _, _ => by simp at hlen
  | x :: s, y :: t, hlen, hs, ht => by
    have hlen' : s.length = t.length := by simpa using hlen
    rw [digitsVal, digitsVal,
      digit_eq_iff (hs x (by simp)) (ht y (by simp)),
      digitsVal_inj b s t hlen' (fun z hz => hs z (by simp [hz]))
        (fun z hz => ht z (by simp [hz]))]
    constructor
    · rintro ⟨rfl, rfl⟩
      exact rfl
    · intro h
      injection h with h1 h2
      exact ⟨h1, h2⟩

/-- Value order of equal-length bounded digit strings is colexicographic:
lexicographic on the reversed (most-significant-first) lists. -/
theorem digitsVal_lt_iff (b : Nat) : ∀ (s t : List Nat), s.length = t.length →
    (∀ x ∈ s, x < 2 ^ b) → (∀ x ∈ t, x < 2 ^ b) →
    (digitsVal b s < digitsVal b t ↔
      List.Lex (fun x y => x < y) s.reverse t.reverse)
  | [], [], _, _, _ => by
    simp [digitsVal]
  | [], y :: t, hlen, _, _ => by simp at hlen
  | x :: s, [], hlen, _, _ => by simp at hlen
  | x :: s, y :: t, hlen, hs, ht => by
    have hlen' : s.length = t.length := by simpa using hlen
    rw [digitsVal, digitsVal, List.reverse_cons, List.reverse_cons,
      lex_snoc_iff x y s.reverse t.reverse (by simpa using hlen'),
      digit_lt_iff (hs x (by simp)) (ht y (by simp)),
      ← digitsVal_lt_iff b s t hlen' (fun z hz => hs z (by simp [hz]))
        (fun z hz => ht z (by simp [hz])),
      List.reverse_inj,
      ← digitsVal_inj b s t hlen' (fun z hz => hs z (by simp [hz]))
        (fun z hz => ht z (by simp [hz]))]

/-- The packed digits of a word: `digitsVal` of the first `m` fields equals
the word shifted past the nibble, truncated to `m` fields. -/
theorem digitsVal_fields (b : Nat) : ∀ (m c' : Nat),
    digitsVal b ((List.range m).map (fun i => (c' >>> (4 + i * b)) % 2 ^ b)) =
      (c' >>> 4) % 2 ^ (m * b)
  | 0, c' => by simp [digitsVal, Nat.mod_one]
  | m + 1, c' => by
    rw [List.range_succ_eq_map, List.map_cons, digitsVal, List.map_map]
    have hfn : ((fun i => (c' >>> (4 + i * b)) % 2 ^ b) ∘ (· + 1)) =
        (fun i => ((c' >>> b) >>> (4 + i * b)) % 2 ^ b) := by
      funext i
      have e : 4 + (i + 1) * b = b + (4 + i * b) := by ring
      simp only [Function.comp]
      rw [e, Nat.shiftRight_add]
    rw [hfn, digitsVal_fields b m (c' >>> b)]
    have e0 : 4 + 0 * b = 4 := by ring
    rw [e0]
    have e2 : (m + 1) * b = b + m * b := by ring
    rw [e2, pow_add, Nat.mod_mul]
    have e3 : (c' >>> b) >>> 4 = c' >>> 4 / 2 ^ b := by
      rw [Nat.shiftRight_eq_div_pow, Nat.shiftRight_eq_div_pow, Nat.shiftRight_eq_div_pow,
        Nat.div_div_eq_div_mul, Nat.div_div_eq_div_mul, Nat.mul_comm]
    rw [e3]

/-- C8 counterexample: the codes packing `{0,3}` and `{1,2}` (b = 4, built by
`code_insert` from the empty code) compare as 770 > 530 as unsigned integers,
while `[0,3]` precedes `[1,2]` lexicographically — so integer order is not
lexicographic order on the sorted entry lists. -/
theorem c8_counterexample :
    (code_insert (code_insert 0 0 4).1 3 4).1 = 770 ∧
      (code_insert (code_insert 0 1 4).1 2 4).1 = 530 ∧
      code_entries 770 4 = [0, 3] ∧ code_entries 530 4 = [1, 2] ∧
      List.Lex (fun x y => x < y) [0, 3] [1, 2] ∧ (530 : Nat) < 770 := by
  refine ⟨by decide, by decide, by decide, by decide, List.Lex.rel (by norm_num), by norm_num⟩

/-- C8 amended: for canonical codes (no bits above the stored fields) of equal
length, unsigned integer comparison coincides with colexicographic order on
the entry lists, i.e. lexicographic order on the reversed
(most-significant-first) lists. -/
theorem c8_amended (c d b : Nat) (hb1 : 1 ≤ b) (h128 : 4 + 10 * b ≤ 128)
    (hk : code_len c ≤ 10) (hlen : code_len d = code_len c)
    (hchi : c >>> (4 + code_len c * b) = 0) (hdhi : d >>> (4 + code_len d * b) = 0) :
    (c < d ↔
      List.Lex (fun x y => x < y) (code_entries c b).reverse (code_entries d b).reverse) := by
  have hb32 : b ≤ 32 := by omega
  have h9 : 4 + 9 * b + b ≤ 128 := by
    have e : 9 * b + b = 10 * b := by ring
    omega
  set k := code_len c with hkdef
  rw [hlen] at hdhi
  have hkb128 : 4 + k * b ≤ 128 := by
    have := Nat.mul_le_mul_right b hk
    omega
  have hclt : c < 2 ^ 128 := by
    have h1 : c < 2 ^ (4 + k * b) := by
      rw [Nat.shiftRight_eq_div_pow] at hchi
      exact (Nat.div_eq_zero_iff (Nat.two_pow_pos _)).mp hchi
    exact lt_of_lt_of_le h1 (Nat.pow_le_pow_right (by norm_num) hkb128)
  have hdlt : d < 2 ^ 128 := by
    have h1 : d < 2 ^ (4 + k * b) := by
      rw [Nat.shiftRight_eq_div_pow] at hdhi
      exact (Nat.div_eq_zero_iff (Nat.two_pow_pos _)).mp hdhi
    exact lt_of_lt_of_le h1 (Nat.pow_le_pow_right (by norm_num) hkb128)
  have hent : ∀ x : Nat, x < 2 ^ 128 → code_len x = k →
      code_entries x b = (List.range k).map (fun i => (x >>> (4 + i * b)) % 2 ^ b) := by
    intro x hx hlx
    rw [code_entries, hlx]
    apply List.map_congr_left
    intro i hi
    have hik : i < k := List.mem_range.mp hi
    exact code_get_eq i b hb32 (field_bound_mono (by omega) h9) hx
  have hXx : ∀ x : Nat, x < 2 ^ 128 → code_len x = k → x >>> (4 + k * b) = 0 →
      digitsVal b (code_entries x b) = x >>> 4 := by
    intro x hx hlx hxhi
    rw [hent x hx hlx, digitsVal_fields]
    apply Nat.mod_eq_of_lt
    have h2 : (x >>> 4) >>> (k * b) = 0 := by
      rw [← Nat.shiftRight_add]
      exact hxhi
    rw [Nat.shiftRight_eq_div_pow] at h2
    exact (Nat.div_eq_zero_iff (Nat.two_pow_pos _)).mp h2
  have hbound : ∀ x : Nat, x < 2 ^ 128 → code_len x = k →
      ∀ y ∈ code_entries x b, y < 2 ^ b := by
    intro x hx hlx y hy
    rw [hent x hx hlx] at hy
    obtain ⟨i, _, rfl⟩ := List.mem_map.mp hy
    exact Nat.mod_lt _ (Nat.two_pow_pos b)
  have hdec : ∀ x : Nat, x = code_len x + 16 * (x >>> 4) := by
    intro x
    have h3 := Nat.mod_add_div x 16
    have h4 : x >>> 4 = x / 16 := by
      rw [Nat.shiftRight_eq_div_pow]
    rw [code_len, h4]
    omega
  rw [← digitsVal_lt_iff b (code_entries c b) (code_entries d b)
    (by rw [length_code_entries, length_code_entries, hlen])
    (hbound c hclt rfl) (hbound d hdlt hlen)]
  rw [hXx c hclt rfl hchi, hXx d hdlt hlen hdhi]
  have h5 := hdec c
  have h6 := hdec d
  omega

/-- Witness for C8 amended: at the codes for `{1,2}` (530) and `{0,3}` (770)
with b = 4, 530 < 770 and colexicographically `[1,2]` precedes `[0,3]`. -/
theorem c8_amended_witness :
    (530 : Nat) < 770 ∧
      List.Lex (fun x y => x < y) (code_entries 530 4).reverse (code_entries 770 4).reverse := by
  refine ⟨by norm_num, ?_⟩
  exact (c8_amended 530 770 4 (by norm_num) (by norm_num) (by decide) (by decide)
    (by decide) (by decide)).mp (by norm_num)

/-- Witness for C6: the spec's S2 sequence at b = 4 — inserting 3 then 1 gives
fields `[3]` then `[1,3]`, and re-inserting 3 returns the code unchanged with
flag `false`. -/
theorem c6_code_insert_spec_witness :
    code_insert (code_insert (code_insert 0 3 4).1 1 4).1 3 4 =
        ((code_insert (code_insert 0 3 4).1 1 4).1, false) ∧
      code_entries (code_insert (code_insert 0 3 4).1 1 4).1 4 = [1, 3] ∧
      code_entries (code_insert 0 3 4).1 4 = [3] := by
  refine ⟨?_, by decide, by decide⟩
  have h := c6_code_insert_spec (code_insert (code_insert 0 3 4).1 1 4).1 3 4
    (by decide) (by decide) (by decide) (by decide) (by decide)
    (by
      rw [show code_entries (code_insert (code_insert 0 3 4).1 1 4).1 4 = [1, 3] from by
        decide]
      norm_num [List.chain'_cons, List.chain'_singleton])
  exact h.1 (by decide)

end CodeLemmas

section CompatLemmas

/-- Lookup on a cons cell: head key wins, otherwise look in the tail. -/
theorem alLookup_cons {α : Type} (x : Int × α) (t : List (Int × α)) (q : Int) :
    alLookup (x :: t) q = if x.1 = q then some x.2 else alLookup t q := by
  by_cases hx : x.1 = q
  · simp [alLookup, List.find?, hx]
  · simp [alLookup, List.find?, hx]

/-- Looking up the key just overwritten. -/
theorem alLookup_alInsert_self {α : Type} (l : List (Int × α)) (k : Int) (v : α) :
    alLookup (alInsert l k v) k = some v := by
  induction l with
  | nil => simp [alInsert, alLookup, List.find?]
  | cons hd t ih =>
    obtain ⟨k1, v1⟩ := hd
    rw [alInsert]
    by_cases hk : k1 = k
    · rw [if_pos hk, alLookup_cons]
      simp [hk]
    · rw [if_neg hk, alLookup_cons]
      simp only [hk, if_false]
      exact ih

/-- Overwriting one key leaves other lookups unchanged. -/
theorem alLookup_alInsert_ne {α : Type} (l : List (Int × α)) (k : Int) (v : α) (q : Int)
    (h : q ≠ k) : alLookup (alInsert l k v) q = alLookup l q := by
  induction l with
  | nil => simp [alInsert, alLookup, List.find?, Ne.symm h]
  | cons hd t ih =>
    obtain ⟨k1, v1⟩ := hd
    rw [alInsert]
    by_cases hk : k1 = k
    · rw [if_pos hk, alLookup_cons, alLookup_cons]
      have hk1q : ¬ k1 = q := by omega
      simp [hk1q]
    · rw [if_neg hk, alLookup_cons, alLookup_cons]
      by_cases hq : k1 = q
      · simp [hq]
      · simp only [hq, if_false]
        exact ih

/-- Lookup in a list extended by one binding at the end. -/
theorem alLookup_append_single {α : Type} (l : List (Int × α)) (k : Int) (v : α) (q : Int) :
    alLookup (l ++ [(k, v)]) q =
      match alLookup l q with
      | some w => some w
      | none => if q = k then some v else none := by
  unfold alLookup
  rw [List.find?_append]
  cases hf : List.find? (fun p => decide (p.1 = q)) l with
  | some u => simp [hf]
  | none =>
    by_cases hqk : q = k
    · simp [hf, List.find?, hqk]
    · simp [hf, List.find?, hqk, Ne.symm hqk]

/-- Lookup after `alEntryOr`: present values win, the default fills only the
inserted key. -/
theorem alLookup_alEntryOr {α : Type} (l : List (Int × α)) (k : Int) (v : α) (q : Int) :
    alLookup (alEntryOr l k v) q =
      match alLookup l q with
      | some w => some w
      | none => if q = k then some v else none := by
  unfold alEntryOr
  cases hk : alLookup l k with
  | some w =>
    cases hq : alLookup l q with
    | some u => simp
    | none =>
      by_cases hqk : q = k
      · subst hqk
        rw [hq] at hk
        cases hk
      · simp [hqk]
  | none => exact alLookup_append_single l k v q

/-- A key of the association list has a lookup value. -/
theorem alLookup_isSome_of_mem_keys {α : Type} (l : List (Int × α)) (q : Int)
    (h : q ∈ l.map (fun kv => kv.1)) : alLookup l q ≠ none := by
  induction l with
  | nil => simp at h
  | cons hd t ih =>
    by_cases hq : hd.1 = q
    · simp [alLookup, List.find?, hq]
    · have h2 : q ∈ t.map (fun kv => kv.1) := by
        rcases List.mem_cons.mp h with h3 | h3
        · exact absurd h3.symm hq
        · exact h3
      simpa [alLookup, List.find?, hq] using ih h2

/-- A filled `alEntryOr` chain: existing bindings survive, keys from the list
are filled with the default. -/
theorem entryOr_fold_lookup {α : Type} (dflt : α) :
    ∀ (ps : List Int) (acc : List (Int × α)) (q : Int),
      alLookup (ps.foldl (fun m p => alEntryOr m p dflt) acc) q =
        match alLookup acc q with
        | some w => some w
        | none => if q ∈ ps then some dflt else none
  | [], acc, q => by
    cases h : alLookup acc q <;> simp [h]
  | a :: ps, acc, q => by
    rw [List.foldl_cons, entryOr_fold_lookup dflt ps _ q, alLookup_alEntryOr]
    cases h : alLookup acc q with
    | some w => simp
    | none =>
      by_cases hq : q = a
      · simp [hq]
      · simp [hq]

/-- Keys untouched by the double-insert fold of `build_compat_map` keep their
original lookup. -/
theorem insert2_fold_notin {α : Type} (f g : Int → α) (n : Int) :
    ∀ (ps : List Int) (acc : List (Int × α)) (q : Int),
      (∀ x ∈ ps, x ≠ q ∧ n - x ≠ q) →
      alLookup (ps.foldl (fun m p => alInsert (alInsert m p (f p)) (n - p) (g p)) acc) q =
        alLookup acc q
  | [], acc, q, _ => rfl
  | a :: ps, acc, q, h => by
    rw [List.foldl_cons,
      insert2_fold_notin f g n ps _ q (fun x hx => h x (List.mem_cons_of_mem a hx)),
      alLookup_alInsert_ne _ _ _ _ (Ne.symm (h a (by simp)).2),
      alLookup_alInsert_ne _ _ _ _ (Ne.symm (h a (by simp)).1)]

/-- Keys reached by the double-insert fold of `build_compat_map` carry the
computed pair and its mirror. -/
theorem insert2_fold_mem {α : Type} (f g : Int → α) (n : Int) :
    ∀ (ps : List Int) (acc : List (Int × α)) (p0 : Int),
      p0 ∈ ps → ps.Nodup → (∀ x ∈ ps, 1 ≤ x ∧ 2 * x < n) →
      alLookup (ps.foldl (fun m p => alInsert (alInsert m p (f p)) (n - p) (g p)) acc) p0 =
          some (f p0) ∧
        alLookup (ps.foldl (fun m p => alInsert (alInsert m p (f p)) (n - p) (g p)) acc)
          (n - p0) = some (g p0)
  | [], _, p0, hmem, _, _ => absurd hmem (List.not_mem_nil p0)
  | a :: ps, acc, p0, hmem, hnodup, hrange => by
    rcases List.mem_cons.mp hmem with rfl | hmem2
    · have ha := hrange p0 (by simp)
      have hnotin : ∀ x ∈ ps, x ≠ p0 ∧ n - x ≠ p0 := by
        intro x hx
        have hxr := hrange x (List.mem_cons_of_mem p0 hx)
        have hxne : x ≠ p0 := by
          intro hcon
          exact (List.nodup_cons.mp hnodup).1 (hcon ▸ hx)
        exact ⟨hxne, by omega⟩
      have hnotin2 : ∀ x ∈ ps, x ≠ n - p0 ∧ n - x ≠ n - p0 := by
        intro x hx
        have hxr := hrange x (List.mem_cons_of_mem p0 hx)
        have hxne : x ≠ p0 := by
          intro hcon
          exact (List.nodup_cons.mp hnodup).1 (hcon ▸ hx)
        constructor <;> omega
      rw [List.foldl_cons]
      constructor
      · rw [insert2_fold_notin f g n ps _ p0 hnotin,
          alLookup_alInsert_ne _ _ _ _ (by omega : p0 ≠ n - p0),
          alLookup_alInsert_self]
      · rw [insert2_fold_notin f g n ps _ (n - p0) hnotin2, alLookup_alInsert_self]
    · rw [List.foldl_cons]
      exact insert2_fold_mem f g n ps _ p0 hmem2 (List.nodup_cons.mp hnodup).2
        (fun x hx => hrange x (List.mem_cons_of_mem a hx))

/-- The mirror-fill fold of `cover_and_symmetrize_compat`, characterized by
`mirrorSpec`. -/
theorem mirror_fold_lookup (c : List (Int × (List Int × List Int))) (n : Int) :
    ∀ (todo : List Int) (acc : List (Int × (List Int × List Int))) (pr : List Int),
      (∀ p ∈ todo, alLookup c p ≠ none) →
      (∀ p ∈ todo, p ∉ pr) →
      todo.Nodup →
      (∀ q, alLookup acc q = mirrorSpec c n pr q) →
      ∀ q, alLookup (todo.foldl (fun m p =>
          match alLookup m p with
          | some v => alEntryOr m (n - p) (v.2, v.1)
          | none => m) acc) q = mirrorSpec c n (pr ++ todo) q
  | [], acc, pr, _, _, _, hacc, q => by simpa using hacc q
  | a :: todo, acc, pr, hkeys, hpr, hnodup, hacc, q => by
    obtain ⟨va, hva⟩ : ∃ v, alLookup c a = some v := by
      cases h : alLookup c a with
      | some v => exact ⟨v, rfl⟩
      | none => exact absurd h (hkeys a (by simp))
    have hacca : alLookup acc a = some va := by
      rw [hacc a]
      simp [mirrorSpec, hva]
    rw [List.foldl_cons]
    have hstep : (match alLookup acc a with
        | some v => alEntryOr acc (n - a) (v.2, v.1)
        | none => acc) = alEntryOr acc (n - a) (va.2, va.1) := by
      rw [hacca]
    rw [hstep]
    have hrec := mirror_fold_lookup c n todo (alEntryOr acc (n - a) (va.2, va.1))
      (pr ++ [a])
      (fun p hp => hkeys p (List.mem_cons_of_mem a hp))
      (fun p hp => by
        intro hcon
        rcases List.mem_append.mp hcon with h1 | h1
        · exact hpr p (List.mem_cons_of_mem a hp) h1
        · have : p = a := by simpa using h1
          exact (List.nodup_cons.mp hnodup).1 (this ▸ hp))
      (List.nodup_cons.mp hnodup).2
      (fun q2 => by
        rw [alLookup_alEntryOr, hacc q2]
        unfold mirrorSpec
        cases h1 : alLookup c q2 with
        | some v => simp
        | none =>
          cases h2 : alLookup c (n - q2) with
          | none =>
            have hne : q2 ≠ n - a := by
              intro hcon
              rw [hcon, show n - (n - a) = a from by omega, hva] at h2
              cases h2
            simp [hne]
          | some w =>
            by_cases h3 : n - q2 ∈ pr
            · simp [h3]
            · by_cases h4 : q2 = n - a
              · have h5 : n - q2 = a := by omega
                rw [h5] at h2
                rw [hva] at h2
                injection h2 with h6
                have h7 : (a : Int) ∈ pr ++ [a] := by simp
                have h10 : a ∉ pr := hpr a (by simp)
                rw [h5]
                simp [h3, h4, h7, h6, h10]
              · have h8 : n - q2 ≠ a := by omega
                have h9 : (n - q2) ∉ pr ++ [a] := by
                  intro hcon
                  rcases List.mem_append.mp hcon with hc1 | hc1
                  · exact h3 hc1
                  · exact h8 (by simpa using hc1)
                simp [h3, h4, h9])
      q
    rw [hrec]
    have e : pr ++ [a] ++ todo = pr ++ (a :: todo) := by simp
    rw [e]

/-- Members of the 1-based integer range list. -/
theorem mem_range1_map (m x : Int) :
    x ∈ (List.range m.toNat).map (fun i : Nat => (i : Int) + 1) ↔ 1 ≤ x ∧ x ≤ m := by
  simp only [List.mem_map, List.mem_range]
  constructor
  · rintro ⟨i, hi, rfl⟩
    omega
  · rintro ⟨h1, h2⟩
    exact ⟨(x - 1).toNat, by omega, by omega⟩

/-- The 1-based integer range list has no duplicates. -/
theorem nodup_range1_map (m : Int) :
    ((List.range m.toNat).map (fun i : Nat => (i : Int) + 1)).Nodup :=
  List.Nodup.map (fun a b hab => by omega) (List.nodup_range _)

/-- Lookup characterization of `build_compat_map`: the computed pair below the
midpoint, the empty pair at the midpoint, the swapped pair above it. -/
theorem build_compat_map_lookup (jbt_ref_pop : List Int) (jbt_ref_comps : List (List Nat))
    (n : Int) (hn : 2 ≤ n) (p : Int) (h1 : 1 ≤ p) (h2 : p < n) :
    alLookup (build_compat_map jbt_ref_pop jbt_ref_comps n) p =
      some (if 2 * p < n then compat_for_pop_pair jbt_ref_pop jbt_ref_comps n p
        else if 2 * p = n then ([], [])
        else ((compat_for_pop_pair jbt_ref_pop jbt_ref_comps n (n - p)).2,
          (compat_for_pop_pair jbt_ref_pop jbt_ref_comps n (n - p)).1)) := by
  simp only [build_compat_map]
  rw [entryOr_fold_lookup]
  have hrange : ∀ x ∈ (List.range ((n - 1) / 2).toNat).map (fun i : Nat => (i : Int) + 1),
      1 ≤ x ∧ 2 * x < n := by
    intro x hx
    have := (mem_range1_map _ _).mp hx
    omega
  have hnodup := nodup_range1_map ((n - 1) / 2)
  rcases Int.lt_trichotomy (2 * p) n with hp | hp | hp
  · -- below the midpoint: p is in the processed list
    have hpmem : p ∈ (List.range ((n - 1) / 2).toNat).map (fun i : Nat => (i : Int) + 1) := by
      rw [mem_range1_map]
      omega
    have hmem := insert2_fold_mem
      (fun q => compat_for_pop_pair jbt_ref_pop jbt_ref_comps n q)
      (fun q => ((compat_for_pop_pair jbt_ref_pop jbt_ref_comps n q).2,
        (compat_for_pop_pair jbt_ref_pop jbt_ref_comps n q).1))
      n _ [] p hpmem hnodup hrange
    have hs1 := hmem.1
    by_cases heven : n % 2 = 0
    · rw [if_pos heven]
      rw [alLookup_alEntryOr, hs1]
      simp [hp, show ¬ 2 * p = n from by omega]
    · rw [if_neg heven]
      rw [hs1]
      simp [hp, show ¬ 2 * p = n from by omega]
  · -- the midpoint: filled by the even-midpoint stage
    have hnone : alLookup ((((List.range ((n - 1) / 2).toNat).map
        (fun i : Nat => (i : Int) + 1))).foldl (fun m q =>
          alInsert (alInsert m q (compat_for_pop_pair jbt_ref_pop jbt_ref_comps n q))
            (n - q) ((compat_for_pop_pair jbt_ref_pop jbt_ref_comps n q).2,
              (compat_for_pop_pair jbt_ref_pop jbt_ref_comps n q).1)) []) p = none := by
      rw [insert2_fold_notin]
      · rfl
      · intro x hx
        have := hrange x hx
        omega
    have heven : n % 2 = 0 := by omega
    rw [if_pos heven, alLookup_alEntryOr, hnone,
      if_neg (show ¬ 2 * p < n from by omega), if_pos (show 2 * p = n from by omega)]
    simp [show p = n / 2 from by omega]
  · -- above the midpoint: the mirror key of n - p
    have hpmem : (n - p) ∈ (List.range ((n - 1) / 2).toNat).map (fun i : Nat => (i : Int) + 1) := by
      rw [mem_range1_map]
      omega
    have hmem := insert2_fold_mem
      (fun q => compat_for_pop_pair jbt_ref_pop jbt_ref_comps n q)
      (fun q => ((compat_for_pop_pair jbt_ref_pop jbt_ref_comps n q).2,
        (compat_for_pop_pair jbt_ref_pop jbt_ref_comps n q).1))
      n _ [] (n - p) hpmem hnodup hrange
    have hs1 := hmem.2
    rw [show n - (n - p) = p from by omega] at hs1
    by_cases heven : n % 2 = 0
    · rw [if_pos heven]
      rw [alLookup_alEntryOr, hs1]
      simp [show ¬ 2 * p < n from by omega, show ¬ 2 * p = n from by omega]
    · rw [if_neg heven]
      rw [hs1]
      simp [show ¬ 2 * p < n from by omega, show ¬ 2 * p = n from by omega]

/-- A successful lookup means the key occurs in the key list. -/
theorem mem_keys_of_alLookup {α : Type} (l : List (Int × α)) (q : Int) (v : α)
    (h : alLookup l q = some v) : q ∈ l.map (fun kv => kv.1) := by
  induction l with
  | nil => simp [alLookup] at h
  | cons hd t ih =>
    rw [alLookup_cons] at h
    by_cases hq : hd.1 = q
    · simp [hq]
    · rw [if_neg hq] at h
      simp [ih h]

/-- Final lookup characterization of `cover_and_symmetrize_compat`. -/
theorem cover_and_symmetrize_lookup (c : List (Int × (List Int × List Int))) (n : Int)
    (hnodupc : (c.map (fun kv => kv.1)).Nodup) (q : Int) :
    alLookup (cover_and_symmetrize_compat c n) q =
      match mirrorSpec c n (c.map (fun kv => kv.1)) q with
      | some w => some w
      | none =>
        if q ∈ (List.range (n - 1).toNat).map (fun i : Nat => (i : Int) + 1)
        then some ([], []) else none := by
  simp only [cover_and_symmetrize_compat]
  rw [entryOr_fold_lookup,
    mirror_fold_lookup c n (c.map (fun kv => kv.1)) c []
      (fun p hp => by
        obtain ⟨kv, hkv, rfl⟩ := List.mem_map.mp hp
        intro hcon
        have h2 : kv.1 ∈ c.map (fun kv => kv.1) := List.mem_map.mpr ⟨kv, hkv, rfl⟩
        exact alLookup_isSome_of_mem_keys c kv.1 h2 hcon)
      (by simp) hnodupc
      (fun q2 => by
        unfold mirrorSpec
        cases h : alLookup c q2 with
        | some v => simp [h]
        | none =>
          cases h2 : alLookup c (n - q2) with
          | some w => simp [h, h2]
          | none => simp [h, h2])
      q]
  rw [List.nil_append]
  cases hm : mirrorSpec c n (c.map (fun kv => kv.1)) q <;> simp

/-- C4 amended: the locally built compat table is always fully covered and
symmetric; `cover_and_symmetrize_compat` always covers every `p ∈ [1, N-1]`
for every external table (asymmetric ones included), and is additionally
symmetric provided the supplied table is already symmetric wherever both `p`
and `N-p` are present (in particular when at most one of them was
supplied). -/
theorem c4_amended (jbt_ref_pop : List Int) (jbt_ref_comps : List (List Nat))
    (n_total : Int) (c : List (Int × (List Int × List Int))) (hn : 2 ≤ n_total)
    (hnodupc : (c.map (fun kv => kv.1)).Nodup) :
    (∀ p : Int, 1 ≤ p → p < n_total →
      ∃ v, alLookup (build_compat_map jbt_ref_pop jbt_ref_comps n_total) p = some v ∧
        alLookup (build_compat_map jbt_ref_pop jbt_ref_comps n_total) (n_total - p) =
          some (v.2, v.1)) ∧
    (∀ p : Int, 1 ≤ p → p < n_total →
      ∃ v, alLookup (cover_and_symmetrize_compat c n_total) p = some v) ∧
    ((∀ p v w, alLookup c p = some v → alLookup c (n_total - p) = some w →
        w = (v.2, v.1)) →
      ∀ p : Int, 1 ≤ p → p < n_total →
        ∃ v, alLookup (cover_and_symmetrize_compat c n_total) p = some v ∧
          alLookup (cover_and_symmetrize_compat c n_total) (n_total - p) =
            some (v.2, v.1)) := by
  refine ⟨?_, ?_, ?_⟩
  · intro p h1 h2
    rw [build_compat_map_lookup jbt_ref_pop jbt_ref_comps n_total hn p h1 h2,
      build_compat_map_lookup jbt_ref_pop jbt_ref_comps n_total hn (n_total - p)
        (by omega) (by omega)]
    refine ⟨_, rfl, ?_⟩
    rcases Int.lt_trichotomy (2 * p) n_total with hp | hp | hp
    · rw [if_pos hp, if_neg (show ¬ 2 * (n_total - p) < n_total from by omega),
        if_neg (show ¬ 2 * (n_total - p) = n_total from by omega),
        show n_total - (n_total - p) = p from by omega]
    · rw [if_neg (show ¬ 2 * p < n_total from by omega), if_pos hp,
        if_neg (show ¬ 2 * (n_total - p) < n_total from by omega),
        if_pos (show 2 * (n_total - p) = n_total from by omega)]
    · rw [if_neg (show ¬ 2 * p < n_total from by omega),
        if_neg (show ¬ 2 * p = n_total from by omega),
        if_pos (show 2 * (n_total - p) < n_total from by omega)]
  · intro p h1 h2
    rw [cover_and_symmetrize_lookup c n_total hnodupc p]
    have hmemp : p ∈ (List.range (n_total - 1).toNat).map (fun i : Nat => (i : Int) + 1) := by
      rw [mem_range1_map]
      omega
    cases hm : mirrorSpec c n_total (c.map (fun kv => kv.1)) p with
    | some w => exact ⟨w, rfl⟩
    | none =>
      refine ⟨([], []), ?_⟩
      rw [if_pos hmemp]
  · intro hsymc p h1 h2
    rw [cover_and_symmetrize_lookup c n_total hnodupc p,
      cover_and_symmetrize_lookup c n_total hnodupc (n_total - p)]
    unfold mirrorSpec
    have hmemp : p ∈ (List.range (n_total - 1).toNat).map (fun i : Nat => (i : Int) + 1) := by
      rw [mem_range1_map]
      omega
    have hmemnp : (n_total - p) ∈
        (List.range (n_total - 1).toNat).map (fun i : Nat => (i : Int) + 1) := by
      rw [mem_range1_map]
      omega
    have hback : n_total - (n_total - p) = p := by omega
    cases hcp : alLookup c p with
    | some v =>
      cases hcnp : alLookup c (n_total - p) with
      | some w =>
        have hw : w = (v.2, v.1) := hsymc p v w hcp hcnp
        refine ⟨v, by simp, ?_⟩
        simp [hcnp, hw]
      | none =>
        refine ⟨v, by simp, ?_⟩
        rw [hback]
        have hpk : p ∈ c.map (fun kv => kv.1) := mem_keys_of_alLookup c p v hcp
        simp [hcnp, hcp, hpk]
    | none =>
      cases hcnp : alLookup c (n_total - p) with
      | some w =>
        have hnpk : (n_total - p) ∈ c.map (fun kv => kv.1) :=
          mem_keys_of_alLookup c (n_total - p) w hcnp
        refine ⟨(w.2, w.1), by simp [hcnp, hnpk], ?_⟩
        simp [hcnp]
      | none =>
        refine ⟨([], []), ?_, ?_⟩
        · simp
          exact ⟨(p - 1).toNat, by omega, by omega⟩
        · rw [hback]
          simp [hcp]
          exact ⟨(n_total - p - 1).toNat, by omega, by omega⟩

/-- C4 counterexample: the asymmetric external table `{1 ↦ ([0],[1]),
3 ↦ ([5],[6])}` for N = 4 passes through `cover_and_symmetrize_compat`
unchanged at keys 1 and 3, and `compat[3] ≠ swap(compat[1])`. -/
theorem c4_counterexample :
    alLookup (cover_and_symmetrize_compat [(1, ([0], [1])), (3, ([5], [6]))] 4) 1 =
        some ([0], [1]) ∧
      alLookup (cover_and_symmetrize_compat [(1, ([0], [1])), (3, ([5], [6]))] 4) 3 =
        some ([5], [6]) ∧
      (([5], [6]) : List Int × List Int) ≠ (([1], [0]) : List Int × List Int) := by
  refine ⟨by decide, by decide, by decide⟩

/-- Witness for C4 amended: N = 4 with the single-key external table
`{1 ↦ ([0],[1])}`, covered and symmetric at p = 1; and the asymmetric
counterexample table `{1 ↦ ([0],[1]), 3 ↦ ([5],[6])}`, still covered at the
absent key p = 2. -/
theorem c4_amended_witness :
    (∃ v, alLookup (cover_and_symmetrize_compat [(1, ([0], [1]))] 4) 1 = some v ∧
      alLookup (cover_and_symmetrize_compat [(1, ([0], [1]))] 4) 3 = some (v.2, v.1)) ∧
    (∃ v, alLookup (cover_and_symmetrize_compat
      [(1, ([0], [1])), (3, ([5], [6]))] 4) 2 = some v) := by
  have h := c4_amended [] [] 4 [(1, ([0], [1]))] (by norm_num) (by decide)
  have h2 := c4_amended [] [] 4 [(1, ([0], [1])), (3, ([5], [6]))] (by norm_num) (by decide)
  refine ⟨h.2.2 ?_ 1 (by norm_num) (by norm_num), h2.2.1 2 (by norm_num) (by norm_num)⟩
  intro p v w h1 hh2
  by_cases hp : (1 : Int) = p
  · rw [← hp] at hh2
    rw [show (4 : Int) - 1 = 3 from by norm_num] at hh2
    simp [alLookup, List.find?] at hh2
  · simp [alLookup, List.find?, hp] at h1

end CompatLemmas




section FlushLemmas

/-- Consecutive deduplication preserves membership. -/
theorem mem_dedupConsec {α : Type} [DecidableEq α] :
    ∀ (l : List α) (x : α), x ∈ dedupConsec l ↔ x ∈ l
  | [], x => by simp [dedupConsec]
  | [a], x => by simp [dedupConsec]
  | a :: b :: t, x => by
    rw [dedupConsec]
    by_cases hab : a = b
    · rw [if_pos hab, mem_dedupConsec (b :: t) x]
      subst hab
      simp [List.mem_cons]
    · rw [if_neg hab]
      simp [List.mem_cons, mem_dedupConsec (b :: t) x]

/-- Consecutive deduplication keeps the head element first. -/
theorem dedupConsec_cons_head {α : Type} [DecidableEq α] :
    ∀ (b : α) (t : List α), ∃ t2, dedupConsec (b :: t) = b :: t2
  | b, [] => ⟨[], rfl⟩
  | b, c :: t => by
    rw [dedupConsec]
    by_cases hbc : b = c
    · rw [if_pos hbc]
      obtain ⟨t2, ht⟩ := dedupConsec_cons_head c t
      exact ⟨t2, hbc ▸ ht⟩
    · rw [if_neg hbc]
      exact ⟨dedupConsec (c :: t), rfl⟩

/-- Consecutive deduplication of a weakly sorted list is strictly sorted. -/
theorem chain'_lt_dedupConsec :
    ∀ (l : List Nat), List.Chain' (fun x y => x ≤ y) l →
      List.Chain' (fun x y => x < y) (dedupConsec l)
  | [], _ => by simp [dedupConsec]
  | [a], _ => by simp [dedupConsec]
  | a :: b :: t, h => by
    rw [dedupConsec]
    have h1 : a ≤ b := (List.chain'_cons.mp h).1
    have h2 := (List.chain'_cons.mp h).2
    by_cases hab : a = b
    · rw [if_pos hab]
      exact chain'_lt_dedupConsec (b :: t) h2
    · rw [if_neg hab]
      obtain ⟨t2, ht2⟩ := dedupConsec_cons_head b t
      rw [ht2]
      have hd := chain'_lt_dedupConsec (b :: t) h2
      rw [ht2] at hd
      exact List.chain'_cons.mpr ⟨lt_of_le_of_ne h1 hab, hd⟩

/-- Splitting the per-code weight sum at a cons cell. -/
theorem codeWeightSum_cons (c2 w : Nat) (t : List (Nat × Nat)) (c3 : Nat) :
    codeWeightSum ((c2, w) :: t) c3 =
      (if c2 = c3 then w else 0) + codeWeightSum t c3 := by
  unfold codeWeightSum
  by_cases h : c2 = c3 <;> simp [List.filter, h]

/-- The run-merge loop, characterized: codes are the deduplicated sorted code
list, each weight is the (u64-saturated, then u32-clamped) per-code sum, with
the accumulator feeding the first code. -/
theorem mergeRunsAux_eq :
    ∀ (l : List (Nat × Nat)) (c sum : Nat),
      List.Pairwise (fun x y => x.1 ≤ y.1) l →
      (∀ x ∈ l, c ≤ x.1) →
      (∀ x ∈ l, x.2 ≤ 2 ^ 64 - 1) →
      sum ≤ 2 ^ 64 - 1 →
      mergeRunsAux c sum l =
        (dedupConsec (c :: l.map (fun x => x.1))).map (fun c2 =>
          (c2, clampW (min ((if c2 = c then sum else 0) + codeWeightSum l c2)
            (2 ^ 64 - 1))))
  | [], c, sum, _, _, _, hs => by
    show [(c, clampW sum)] =
      [(c, clampW (min ((if c = c then sum else 0) + codeWeightSum [] c) (2 ^ 64 - 1)))]
    rw [if_pos rfl, show codeWeightSum [] c = 0 from rfl,
      show min (sum + 0) (2 ^ 64 - 1) = sum from by omega]
  | (c2, w) :: t, c, sum, hsort, hge, hb, hs => by
    rw [mergeRunsAux]
    have hsort_t := (List.pairwise_cons.mp hsort).2
    have hge_t : ∀ x ∈ t, c2 ≤ x.1 := (List.pairwise_cons.mp hsort).1
    have hb_t : ∀ x ∈ t, x.2 ≤ 2 ^ 64 - 1 := fun x hx => hb x (List.mem_cons_of_mem _ hx)
    by_cases hc2 : c2 = c
    · rw [if_pos hc2]
      subst hc2
      rw [mergeRunsAux_eq t c2 (satAdd64 sum w) hsort_t hge_t hb_t
        (by unfold satAdd64; omega)]
      rw [List.map_cons,
        show dedupConsec (c2 :: c2 :: t.map (fun x => x.1)) =
          dedupConsec (c2 :: t.map (fun x => x.1)) from by rw [dedupConsec, if_pos rfl]]
      apply List.map_congr_left
      intro c3 hc3
      congr 1
      rw [codeWeightSum_cons]
      by_cases h3 : c3 = c2
      · subst h3
        rw [if_pos rfl, if_pos rfl, if_pos rfl]
        congr 1
        unfold satAdd64
        omega
      · rw [if_neg h3, if_neg h3, if_neg (fun hcon => h3 hcon.symm)]
        simp
    · rw [if_neg hc2]
      have hcc2 : c < c2 := lt_of_le_of_ne (hge (c2, w) (by simp)) (fun h => hc2 h.symm)
      rw [mergeRunsAux_eq t c2 w hsort_t hge_t hb_t (hb (c2, w) (by simp))]
      rw [List.map_cons,
        show dedupConsec (c :: c2 :: t.map (fun x => x.1)) =
          c :: dedupConsec (c2 :: t.map (fun x => x.1)) from by
            rw [dedupConsec, if_neg (by omega : ¬ c = c2)]]
      rw [List.map_cons]
      congr 1
      · congr 1
        rw [if_pos rfl, codeWeightSum_cons, if_neg hc2]
        have hzero : codeWeightSum t c = 0 := by
          unfold codeWeightSum
          rw [List.filter_eq_nil_iff.mpr]
          · simp
          · intro x hx
            have := hge_t x hx
            simp only [decide_eq_true_eq]
            omega
        rw [hzero, show min (sum + (0 + 0)) (2 ^ 64 - 1) = sum from by omega]
      · apply List.map_congr_left
        intro c3 hc3
        have hc3mem : c3 ∈ c2 :: t.map (fun x => x.1) := (mem_dedupConsec _ _).mp hc3
        have hc3ge : c2 ≤ c3 := by
          rcases List.mem_cons.mp hc3mem with rfl | h
          · exact le_rfl
          · obtain ⟨x, hx, rfl⟩ := List.mem_map.mp h
            exact hge_t x hx
        have hc3ne : ¬ c3 = c := by omega
        congr 1
        rw [if_neg hc3ne, codeWeightSum_cons]
        by_cases h : c3 = c2
        · subst h
          simp
        · rw [if_neg h, if_neg fun hcon : c2 = c3 => h hcon.symm]
          simp

end FlushLemmas

/-- C9: when L's key is empty, `subtotal_for_pair` returns
`(Σ L.weights) · (Σ R.weights)`, for every right bucket and every auxiliary
table. -/
theorem c9_neutral_fast_path (b1 b2 : Bucket) (pop : List Int) (nt : Int)
    (compat : List (Int × (List Int × List Int))) (rows_by : List (Int × List Nat))
    (cand_map : List (Int × List Int)) (h : b1.key = []) :
    subtotal_for_pair b1 b2 pop nt compat rows_by cand_map =
      b1.weights.sum * b2.weights.sum := by
  simp [subtotal_for_pair, h]

/-- Witness for C9: a neutral bucket (empty key, weights `[2,3]`) paired with
itself yields `(Σw)² = 25`. -/
theorem c9_neutral_fast_path_witness :
    (⟨[], [0, 0], [2, 3], []⟩ : Bucket).key = [] ∧
      subtotal_for_pair ⟨[], [0, 0], [2, 3], []⟩ ⟨[], [0, 0], [2, 3], []⟩ [] 4 [] [] [] =
        25 := by
  refine ⟨rfl, ?_⟩
  rw [c9_neutral_fast_path _ _ _ _ _ _ _ rfl]
  norm_num

/-- C1: with L.key = `[2,2]`, one L row `[j0,j1]`, one R row `[x0,x0']`
(weights 1) and `cands[j0] = cands[j1] = [x0,x0']`, the branch-and-bound
fallback counts only injective assignments: `subtotal_for_pair` returns 2,
not 4.  The candidate map is the one `precompute_candidates_for_bucket1`
derives from the compat table, and the row index the one `build_rows_by_jbt`
derives from R. -/
theorem c1_bnb_injectivity :
    subtotal_for_pair s6L s6R s6pop 4 s6compat (build_rows_by_jbt s6R)
      (precompute_candidates_for_bucket1 s6L (build_rows_by_jbt s6R) s6pop 4 s6compat) =
      2 := by
  have hrows : build_rows_by_jbt s6R = [(2, [0]), (3, [0])] := by decide
  have hcand : precompute_candidates_for_bucket1 s6L (build_rows_by_jbt s6R) s6pop 4 s6compat
      = [(0, [2, 3]), (1, [2, 3])] := by rw [hrows]; decide
  rw [hcand, hrows]
  have hbase : ∀ used, recBnB [(2, [0]), (3, [0])] [(0, [2, 3]), (1, [2, 3])] 1 [] [true] [1] used
      = 1 := by
    intro used
    simp +decide [recBnB, recFeasible, maskedSum]
  have hmid : ∀ x, x = 2 ∨ x = 3 → recBnB [(2, [0]), (3, [0])] [(0, [2, 3]), (1, [2, 3])] 2
      [1] [true] [1] [x] = 1 := by
    rintro x (rfl | rfl) <;>
    · simp +decide [recBnB, recFeasible, pivotLoop, viableList, intersectMask,
        maskedSum, candsOf, rowsOf, alLookup, hbase]
  have hmid2 : recBnB [(2, [0]), (3, [0])] [(0, [2, 3]), (1, [2, 3])] 2
      [1] [true] [1] [2] = 1 := hmid 2 (Or.inl rfl)
  have hmid3 : recBnB [(2, [0]), (3, [0])] [(0, [2, 3]), (1, [2, 3])] 2
      [1] [true] [1] [3] = 1 := hmid 3 (Or.inr rfl)
  have hrec : recBnB [(2, [0]), (3, [0])] [(0, [2, 3]), (1, [2, 3])] 3 [0, 1] [true] [1] [] = 2 := by
    simp +decide [recBnB, recFeasible, pivotLoop, viableList, intersectMask,
      maskedSum, candsOf, rowsOf, alLookup, hmid2, hmid3]
    norm_num
  simp +decide [subtotal_for_pair, s6L, s6R, s6pop, Bucket.n_rows, Bucket.row_slice,
    row_subtotal, classifyPositions, uniquePass, hasOverlap, maskedSum, candsOf,
    rowsOf, alLookup, candCount, hrec, List.range_succ]

/-- C7 (code bug): at M = 3 the source computes field width
`max(1, ceil(log2(M-1))) = 1`, while the spec requires
`max(1, ceil(log2 M)) = 2`; piece index 2 is then not representable in one
field (`¬ 2 < 2 ^ bitwidth 3`). -/
theorem c7_bitwidth_bug :
    bitwidth 3 = 1 ∧ specFieldWidth 3 = 2 ∧ ¬ (2 : Nat) < 2 ^ bitwidth 3 := by
  have h1 : Nat.clog 2 1 = 0 := Nat.clog_of_right_le_one le_rfl 2
  have h2 : Nat.clog 2 2 = 1 := by
    rw [Nat.clog_of_two_le (by norm_num) (by norm_num)]
    norm_num [h1]
  have h3 : Nat.clog 2 3 = 2 := by
    rw [Nat.clog_of_two_le (by norm_num) (by norm_num)]
    norm_num [h2]
  have hb : bitwidth 3 = 1 := by decide
  refine ⟨hb, ?_, by rw [hb]; norm_num⟩
  rw [specFieldWidth, h3]
  norm_num

/-- Extracting the first components of a pairing map recovers the list. -/
theorem map_fst_map_pair {α β : Type} (g : α → β) : ∀ (l : List α),
    (l.map (fun c => (c, g c))).map (fun x => x.1) = l
  | [] => rfl
  | a :: t => by rw [List.map_cons, List.map_cons, map_fst_map_pair g t]

/-- Zipping the two component projections of a pair list recovers the list. -/
theorem zip_map_fst_snd {α β : Type} : ∀ (l : List (α × β)),
    (l.map (fun x => x.1)).zip (l.map (fun x => x.2)) = l
  | [] => rfl
  | (a, b) :: t => by
    rw [List.map_cons, List.map_cons, List.zip_cons_cons, zip_map_fst_snd t]

/-- C5: after every flush the pending buffers are empty; a flush with no
pending data leaves the bucket unchanged; and whenever there was pending
data, the committed codes are strictly ascending (hence duplicate free),
the committed code set is exactly the set of previously committed or
pending codes, and each committed weight is the sum of the weights of all
prior entries sharing that code, clamped at `2^32 - 1`. -/
theorem c5_flush_spec (b : AOBucket)
    (hlen : b.codes.length = b.weights.length)
    (hlenp : b.pend_codes.length = b.pend_w.length)
    (hw : ∀ w ∈ b.weights ++ b.pend_w, w < 2 ^ 32) :
    (b.flush.pend_codes = [] ∧ b.flush.pend_w = []) ∧
    (b.pend_codes = [] → b.flush = b) ∧
    (b.pend_codes ≠ [] →
      List.Chain' (fun x y => x < y) b.flush.codes ∧
      (∀ c, c ∈ b.flush.codes ↔ c ∈ b.codes ++ b.pend_codes) ∧
      (∀ cw ∈ b.flush.codes.zip b.flush.weights,
        cw.2 = min (codeWeightSum
          ((b.codes ++ b.pend_codes).zip (b.weights ++ b.pend_w)) cw.1)
          (2 ^ 32 - 1))) := by
  by_cases hpend : b.pend_codes = []
  · have hpw : b.pend_w = [] := by
      cases hb : b.pend_w with
      | nil => rfl
      | cons x t =>
        rw [hpend, hb] at hlenp
        simp at hlenp
    have hid : b.flush = b := by
      unfold AOBucket.flush
      rw [if_pos hpend]
    exact ⟨⟨by rw [hid, hpend], by rw [hid, hpw]⟩, fun _ => hid,
      fun hcon => absurd hpend hcon⟩
  · haveI htr : IsTrans (Nat × Nat) (fun x y => x.1 ≤ y.1) :=
      ⟨fun a b2 c h1 h2 => le_trans h1 h2⟩
    haveI htot : IsTotal (Nat × Nat) (fun x y => x.1 ≤ y.1) :=
      ⟨fun a b2 => Nat.le_total a.1 b2.1⟩
    set all := (b.codes ++ b.pend_codes).zip (b.weights ++ b.pend_w) with hall
    set sorted := all.insertionSort (fun x y => x.1 ≤ y.1) with hsorted_def
    have hflush : b.flush = ⟨(mergeRuns sorted).map (fun x : Nat × Nat => x.1),
        (mergeRuns sorted).map (fun x : Nat × Nat => x.2), [], []⟩ := by
      unfold AOBucket.flush
      rw [if_neg hpend]
    have hlens : (b.codes ++ b.pend_codes).length = (b.weights ++ b.pend_w).length := by
      simp [hlen, hlenp]
    have hperm : sorted.Perm all := List.perm_insertionSort _ _
    have hsorted : List.Pairwise (fun x y : Nat × Nat => x.1 ≤ y.1) sorted :=
      List.sorted_insertionSort _ _
    have hfst : all.map (fun x : Nat × Nat => x.1) = b.codes ++ b.pend_codes :=
      List.map_fst_zip _ _ (le_of_eq hlens)
    have hallne : all ≠ [] := by
      intro hcon
      have hl := congrArg List.length hcon
      rw [hall, List.length_zip, hlens, Nat.min_self, List.length_append] at hl
      simp only [List.length_nil] at hl
      exact hpend (List.length_eq_zero.mp (by omega))
    have hsne : sorted ≠ [] := by
      intro hcon
      have hleq := hperm.length_eq
      rw [hcon] at hleq
      exact hallne (List.length_eq_zero.mp hleq.symm)
    obtain ⟨⟨c0, w0⟩, rest, hxr⟩ := List.exists_cons_of_ne_nil hsne
    have hwts : ∀ y : Nat × Nat, y ∈ sorted → y.2 ≤ 2 ^ 64 - 1 := by
      intro y hy
      obtain ⟨yc, yw⟩ := y
      have hy2 : (yc, yw) ∈ all := hperm.mem_iff.mp hy
      have hmem := (List.of_mem_zip hy2).2
      have hlt := hw yw hmem
      show yw ≤ 2 ^ 64 - 1
      omega
    have hsorted2 := hsorted
    rw [hxr] at hsorted2
    have hsort_rest := (List.pairwise_cons.mp hsorted2).2
    have hge0 : ∀ y ∈ rest, c0 ≤ y.1 := (List.pairwise_cons.mp hsorted2).1
    have hb_rest : ∀ y ∈ rest, y.2 ≤ 2 ^ 64 - 1 := fun y hy =>
      hwts y (by rw [hxr]; exact List.mem_cons_of_mem _ hy)
    have hw0 : w0 ≤ 2 ^ 64 - 1 := hwts (c0, w0) (by rw [hxr]; exact List.mem_cons_self _ _)
    have hmr : mergeRuns sorted = mergeRunsAux c0 w0 rest := by rw [hxr, mergeRuns]
    have heq := mergeRunsAux_eq rest c0 w0 hsort_rest hge0 hb_rest hw0
    have hFs : ∀ c2, (if c2 = c0 then w0 else 0) + codeWeightSum rest c2 =
        codeWeightSum sorted c2 := by
      intro c2
      rw [hxr, codeWeightSum_cons]
      by_cases h : c2 = c0
      · rw [if_pos h, if_pos h.symm]
      · rw [if_neg h, if_neg fun hcon : c0 = c2 => h hcon.symm]
    have hsum_perm : ∀ c2, codeWeightSum sorted c2 = codeWeightSum all c2 := by
      intro c2
      unfold codeWeightSum
      exact ((hperm.filter _).map _).sum_eq
    have hcodes_eq : c0 :: rest.map (fun x : Nat × Nat => x.1) =
        sorted.map (fun x : Nat × Nat => x.1) := by
      rw [hxr, List.map_cons]
    have hmerged : mergeRuns sorted =
        (dedupConsec (c0 :: rest.map (fun x : Nat × Nat => x.1))).map
          (fun c2 => (c2, min (codeWeightSum all c2) (2 ^ 32 - 1))) := by
      rw [hmr, heq]
      apply List.map_congr_left
      intro c2 hc2
      congr 1
      rw [hFs c2, hsum_perm c2]
      unfold clampW
      omega
    have hcodes : (mergeRuns sorted).map (fun x : Nat × Nat => x.1) =
        dedupConsec (sorted.map (fun x : Nat × Nat => x.1)) := by
      rw [hmerged, map_fst_map_pair, hcodes_eq]
    have hch : List.Chain' (fun x y : Nat => x ≤ y)
        (sorted.map (fun x : Nat × Nat => x.1)) :=
      List.Pairwise.chain' (List.Pairwise.map _ (fun a b2 h => h) hsorted)
    refine ⟨⟨by rw [hflush], by rw [hflush]⟩, fun hcon => absurd hcon hpend,
      fun _ => ⟨?_, ?_, ?_⟩⟩
    · rw [hflush]
      show List.Chain' (fun x y => x < y) ((mergeRuns sorted).map (fun x : Nat × Nat => x.1))
      rw [hcodes]
      exact chain'_lt_dedupConsec _ hch
    · intro c
      rw [hflush]
      show c ∈ (mergeRuns sorted).map (fun x : Nat × Nat => x.1) ↔
        c ∈ b.codes ++ b.pend_codes
      rw [hcodes, mem_dedupConsec, (hperm.map (fun x : Nat × Nat => x.1)).mem_iff, hfst]
    · intro cw hcw
      rw [hflush] at hcw
      have hcw2 : cw ∈ ((mergeRuns sorted).map (fun x : Nat × Nat => x.1)).zip
          ((mergeRuns sorted).map (fun x : Nat × Nat => x.2)) := hcw
      rw [zip_map_fst_snd, hmerged] at hcw2
      obtain ⟨c2, hc2mem, hF⟩ := List.mem_map.mp hcw2
      rw [← hF]

/-- Concrete flush run: `codes = [5]`, `weights = [7]`, pending `[3, 3]` with
weights `[1, 2]`; the flushed codes are strictly ascending, pending empties,
and code 3 appears exactly when it appeared before. -/
theorem c5_flush_spec_witness :
    List.Chain' (fun x y => x < y) (AOBucket.flush ⟨[5], [7], [3, 3], [1, 2]⟩).codes ∧
      (AOBucket.flush ⟨[5], [7], [3, 3], [1, 2]⟩).pend_codes = [] ∧
      ((3 : Nat) ∈ (AOBucket.flush ⟨[5], [7], [3, 3], [1, 2]⟩).codes ↔
        (3 : Nat) ∈ ([5] : List Nat) ++ [3, 3]) := by
  have h := c5_flush_spec ⟨[5], [7], [3, 3], [1, 2]⟩ (by decide) (by decide) (by decide)
  exact ⟨(h.2.2 (by decide)).1, h.1.1, (h.2.2 (by decide)).2.1 3⟩

section RootLemmas

/-- A value is divisible by `2^k` iff its low `k` bits are all clear. -/
theorem mod_two_pow_eq_zero_iff (x k : Nat) :
    x % 2 ^ k = 0 ↔ ∀ j, j < k → x.testBit j = false := by
  constructor
  · intro h j hj
    have h2 := congrArg (fun y => Nat.testBit y j) h
    simp only [Nat.testBit_mod_two_pow, Nat.zero_testBit] at h2
    rwa [decide_eq_true hj, Bool.true_and] at h2
  · intro h
    apply Nat.eq_of_testBit_eq
    intro j
    rw [Nat.testBit_mod_two_pow, Nat.zero_testBit]
    by_cases hj : j < k
    · rw [h j hj, Bool.and_false]
    · rw [decide_eq_false hj, Bool.false_and]

/-- Strict monotonicity of powers of two. -/
theorem two_pow_lt_two_pow {a b : Nat} (h : a < b) : (2 : Nat) ^ a < 2 ^ b := by
  have h1 : (2 : Nat) ^ (a + 1) ≤ 2 ^ b := Nat.pow_le_pow_right (by norm_num) (by omega)
  have h2 : (2 : Nat) ^ (a + 1) = 2 ^ a * 2 := Nat.pow_succ 2 a
  have h3 : 0 < (2 : Nat) ^ a := Nat.two_pow_pos a
  omega

/-- A number of the form `2^t * q * 2` is divisible by `2^(t+1)`. -/
theorem mod_two_pow_succ_of (t q c : Nat) (hc : c = 2 ^ t * q * 2) :
    c % 2 ^ (t + 1) = 0 := by
  subst hc
  rw [Nat.pow_succ 2 t, show 2 ^ t * q * 2 = 2 ^ t * 2 * q from by ring]
  exact Nat.mul_mod_right _ _

/-- `tzAux` on a nonzero value below `2^fuel` returns the exact trailing-zero
count: the value is divisible by that power of two and has that bit set. -/
theorem tzAux_spec : ∀ (fuel c : Nat), c ≠ 0 → c < 2 ^ fuel →
    c % 2 ^ tzAux fuel c = 0 ∧ c.testBit (tzAux fuel c) = true
  | 0, c, hne, hlt => absurd (by omega : c = 0) hne
  | fuel + 1, c, hne, hlt => by
    rw [tzAux]
    by_cases h : c % 2 = 1
    · rw [if_pos h]
      exact ⟨by rw [Nat.pow_zero, Nat.mod_one], by rw [Nat.testBit_zero]; exact decide_eq_true h⟩
    · rw [if_neg h]
      have hc2 : c / 2 ≠ 0 := by omega
      have hlt2 : c / 2 < 2 ^ fuel := by
        have hp : (2 : Nat) ^ (fuel + 1) = 2 ^ fuel * 2 := Nat.pow_succ 2 fuel
        omega
      obtain ⟨h1, h2⟩ := tzAux_spec fuel (c / 2) hc2 hlt2
      refine ⟨?_, ?_⟩
      · obtain ⟨q, hq⟩ := Nat.dvd_of_mod_eq_zero h1
        exact mod_two_pow_succ_of (tzAux fuel (c / 2)) q c (by omega)
      · rw [Nat.testBit_add_one]
        exact h2

/-- `tzAux` is at least `k` whenever `2^k` divides the (nonzero) value. -/
theorem tzAux_ge : ∀ (k fuel c : Nat), c ≠ 0 → c % 2 ^ k = 0 → k ≤ fuel →
    k ≤ tzAux fuel c
  | 0, _, _, _, _, _ => Nat.zero_le _
  | k + 1, 0, _, _, _, hkf => absurd hkf (by omega)
  | k + 1, fuel + 1, c, hne, hmod, hkf => by
    rw [tzAux]
    have hdvd : (2 : Nat) ∣ c :=
      dvd_trans (dvd_pow_self 2 (Nat.succ_ne_zero k)) (Nat.dvd_of_mod_eq_zero hmod)
    have hceven : c % 2 = 0 := by omega
    rw [if_neg (by omega)]
    have hc2 : c / 2 ≠ 0 := by omega
    have hmod2 : (c / 2) % 2 ^ k = 0 := by
      obtain ⟨q, hq⟩ := Nat.dvd_of_mod_eq_zero hmod
      rw [Nat.pow_succ 2 k] at hq
      have hq2 : c = 2 ^ k * q * 2 := by rw [hq]; ring
      have hd : c / 2 = 2 ^ k * q := by omega
      rw [hd]
      exact Nat.mul_mod_right _ _
    have hrec := tzAux_ge k fuel (c / 2) hc2 hmod2 (by omega)
    omega

/-- Trailing-zero count of a power of two below `2^64`. -/
theorem tz64_two_pow (t : Nat) (ht : t < 64) : tz64 (2 ^ t) = t := by
  obtain ⟨h1, h2⟩ := tzAux_spec 64 (2 ^ t) (Nat.two_pow_pos t).ne.symm (two_pow_lt_two_pow ht)
  rw [Nat.testBit_two_pow] at h2
  exact (of_decide_eq_true h2).symm

/-- Low bit of an odd predecessor: above bit 0, `m - 1` and `m` agree for odd
`m`. -/
theorem testBit_pred_of_odd (m : Nat) (hm : m % 2 = 1) (i : Nat) :
    (m - 1).testBit (i + 1) = m.testBit (i + 1) := by
  rw [Nat.testBit_add_one, Nat.testBit_add_one, show (m - 1) / 2 = m / 2 from by omega]

/-- The two's-complement trick isolates the lowest set bit:
`c &&& (2^64 - c) = 2^(tz64 c)` for nonzero `c < 2^64`. -/
theorem and_neg_eq_two_pow_tz (c : Nat) (hne : c ≠ 0) (hlt : c < 2 ^ 64) :
    c &&& (2 ^ 64 - c) = 2 ^ tz64 c := by
  obtain ⟨h1, h2⟩ := tzAux_spec 64 c hne hlt
  have h1t : c % 2 ^ tz64 c = 0 := h1
  have h2t : c.testBit (tz64 c) = true := h2
  have ht64 : tz64 c < 64 := by
    by_contra hcon
    rw [Nat.testBit_lt_two_pow
      (lt_of_lt_of_le hlt (Nat.pow_le_pow_right (by norm_num) (by omega)))] at h2t
    exact Bool.false_ne_true h2t
  obtain ⟨t, htdef⟩ : ∃ t, tz64 c = t := ⟨tz64 c, rfl⟩
  rw [htdef] at h1t h2t ht64 ⊢
  obtain ⟨m, hm⟩ := Nat.dvd_of_mod_eq_zero h1t
  have hbit : ∀ j, c.testBit j =
      if j < t then (0 : Nat).testBit j else m.testBit (j - t) := by
    intro j
    conv_lhs => rw [hm]
    rw [← Nat.add_zero (2 ^ t * m)]
    exact Nat.testBit_mul_pow_two_add m (Nat.two_pow_pos _) j
  have hm0 : m.testBit 0 = true := by
    have hx := hbit t
    rw [if_neg (lt_irrefl _), Nat.sub_self] at hx
    rw [← hx]
    exact h2t
  have hmodd : m % 2 = 1 := by
    rw [Nat.testBit_zero] at hm0
    exact of_decide_eq_true hm0
  have hmlt : m < 2 ^ (64 - t) := by
    have hp : (2 : Nat) ^ t * 2 ^ (64 - t) = 2 ^ 64 := by
      rw [← Nat.pow_add]
      congr 1
      omega
    apply Nat.lt_of_mul_lt_mul_left (a := 2 ^ t)
    rw [hp, ← hm]
    exact hlt
  have hsub : 2 ^ 64 - c = 2 ^ t * (2 ^ (64 - t) - m) := by
    conv_lhs => rw [hm]
    rw [Nat.mul_sub_left_distrib, ← Nat.pow_add,
      show t + (64 - t) = 64 from by omega]
  have hBeven : 2 ^ (64 - t) % 2 = 0 := by
    have hd : (2 : Nat) ∣ 2 ^ (64 - t) := dvd_pow_self 2 (by omega)
    omega
  have hmpos : m ≠ 0 := by
    intro hcon
    rw [hcon] at hmodd
    simp at hmodd
  have hm2odd : (2 ^ (64 - t) - m) % 2 = 1 := by omega
  apply Nat.eq_of_testBit_eq
  intro j
  rw [Nat.testBit_and, Nat.testBit_two_pow, hsub,
    ← Nat.add_zero (2 ^ t * (2 ^ (64 - t) - m)),
    Nat.testBit_mul_pow_two_add _ (Nat.two_pow_pos _) j, hbit j]
  rcases Nat.lt_trichotomy j t with hj | hj | hj
  · rw [if_pos hj, if_pos hj, Nat.zero_testBit, Bool.false_and,
      decide_eq_false (by omega : ¬ t = j)]
  · rw [hj, if_neg (lt_irrefl _), if_neg (lt_irrefl _), Nat.sub_self,
      Nat.testBit_zero, Nat.testBit_zero, decide_eq_true hmodd,
      decide_eq_true hm2odd, decide_eq_true (rfl : t = t)]
    rfl
  · rw [if_neg (by omega), if_neg (by omega),
      decide_eq_false (by omega : ¬ t = j)]
    have hsplit : j - t = (j - t - 1) + 1 := by omega
    rw [hsplit,
      show 2 ^ (64 - t) - m = 2 ^ (64 - t) - ((m - 1) + 1) from by omega,
      Nat.testBit_two_pow_sub_succ (by omega : m - 1 < 2 ^ (64 - t)),
      testBit_pred_of_odd m hmodd]
    cases m.testBit (j - t - 1 + 1) <;> simp

/-- The half-board mask is a u64 value. -/
theorem left_half_mask_lt (n : Nat) : left_half_mask n < 2 ^ 64 := by
  unfold left_half_mask
  by_cases h : n = 0
  · rw [if_pos h]
    norm_num
  · rw [if_neg h]
    exact Nat.mod_lt _ (by norm_num)

/-- `find_root` on an incomplete mask returns the coordinates of the lowest
clear half-board bit (the isolated-lsb computation reduces to the trailing
zeros of the complement). -/
theorem find_root_eq (pm n : Nat) (hpm : pm < 2 ^ 64)
    (hne : pm ^^^ left_half_mask n ≠ 0) :
    find_root pm n = some (tz64 (pm ^^^ left_half_mask n) / n,
      tz64 (pm ^^^ left_half_mask n) % n) := by
  have hc : pm ^^^ left_half_mask n < 2 ^ 64 :=
    Nat.xor_lt_two_pow hpm (left_half_mask_lt n)
  unfold find_root
  rw [if_neg hne, Nat.mod_eq_of_lt hc,
    Nat.mod_eq_of_lt (by omega : 2 ^ 64 - (pm ^^^ left_half_mask n) < 2 ^ 64),
    and_neg_eq_two_pow_tz _ hne hc]
  have ht : tz64 (pm ^^^ left_half_mask n) < 64 := by
    obtain ⟨h1, h2⟩ := tzAux_spec 64 _ hne hc
    have h2t : (pm ^^^ left_half_mask n).testBit (tz64 (pm ^^^ left_half_mask n)) = true := h2
    by_contra hcon
    rw [Nat.testBit_lt_two_pow
      (lt_of_lt_of_le hc (Nat.pow_le_pow_right (by norm_num) (by omega)))] at h2t
    exact Bool.false_ne_true h2t
  rw [tz64_two_pow _ ht]

end RootLemmas

/-- C10: processing root `i` only routes batches forward: if a frontier mask
has root `i` (its lowest missing half-board cell is `i`), the piece placed
there covers cell `i` and no lower cell, and the piece is disjoint from the
mask, then the union mask either completes the half board (`find_root = none`,
merged into the out-buckets) or has a root strictly greater than `i`, so a
drained frontier is never repopulated and the driver visits each frontier
once. -/
theorem c10_root_progress (n i pm piece : Nat)
    (hpm : pm < 2 ^ 64) (hpiece : piece < 2 ^ 64)
    (hsub : pm &&& left_half_mask n = pm)
    (hroot : find_root pm n = some (i / n, i % n))
    (hcov_low : piece % 2 ^ i = 0) (hcov_bit : piece.testBit i = true)
    (hdisj : pm &&& piece = 0) :
    find_root (pm ||| piece) n = none ∨
      ∃ u v, find_root (pm ||| piece) n = some (u, v) ∧ i < u * n + v := by
  have hhalf : left_half_mask n < 2 ^ 64 := left_half_mask_lt n
  have hc1ne : pm ^^^ left_half_mask n ≠ 0 := by
    intro hcon
    unfold find_root at hroot
    rw [if_pos hcon] at hroot
    exact Option.noConfusion hroot
  have hc1lt : pm ^^^ left_half_mask n < 2 ^ 64 := Nat.xor_lt_two_pow hpm hhalf
  rw [find_root_eq pm n hpm hc1ne] at hroot
  have hinj := Option.some.inj hroot
  have h1 : tz64 (pm ^^^ left_half_mask n) / n = i / n := congrArg Prod.fst hinj
  have h2 : tz64 (pm ^^^ left_half_mask n) % n = i % n := congrArg Prod.snd hinj
  have ht1 : tz64 (pm ^^^ left_half_mask n) = i := by
    have e1 := Nat.div_add_mod (tz64 (pm ^^^ left_half_mask n)) n
    rw [h1, h2, Nat.div_add_mod] at e1
    exact e1.symm
  obtain ⟨hm1, hb1⟩ := tzAux_spec 64 _ hc1ne hc1lt
  have hm1t : (pm ^^^ left_half_mask n) % 2 ^ i = 0 := by
    rw [← ht1]
    exact hm1
  have hb1t : (pm ^^^ left_half_mask n).testBit i = true := by
    rw [← ht1]
    exact hb1
  have hlow : ∀ j, j < i → (pm ^^^ left_half_mask n).testBit j = false :=
    (mod_two_pow_eq_zero_iff _ _).mp hm1t
  have hhbi : (left_half_mask n).testBit i = true := by
    cases hhh : (left_half_mask n).testBit i
    · exfalso
      have hp : pm.testBit i = (pm.testBit i && (left_half_mask n).testBit i) := by
        conv_lhs => rw [← hsub]
        rw [Nat.testBit_and]
      rw [hhh, Bool.and_false] at hp
      rw [Nat.testBit_xor, hp, hhh] at hb1t
      simp at hb1t
    · rfl
  have hpmi : pm.testBit i = false := by
    cases hph : pm.testBit i
    · rfl
    · exfalso
      rw [Nat.testBit_xor, hph, hhbi] at hb1t
      simp at hb1t
  have hpl : ∀ j, j < i → piece.testBit j = false :=
    (mod_two_pow_eq_zero_iff _ _).mp hcov_low
  have hc2low : ∀ j, j < i + 1 → ((pm ||| piece) ^^^ left_half_mask n).testBit j = false := by
    intro j hj
    rcases Nat.lt_or_ge j i with hji | hji
    · have hx := hlow j hji
      rw [Nat.testBit_xor] at hx
      rw [Nat.testBit_xor, Nat.testBit_or, hpl j hji, Bool.or_false]
      exact hx
    · have hji2 : j = i := by omega
      subst hji2
      rw [Nat.testBit_xor, Nat.testBit_or, hpmi, hcov_bit, hhbi]
      rfl
  have hc2mod : ((pm ||| piece) ^^^ left_half_mask n) % 2 ^ (i + 1) = 0 :=
    (mod_two_pow_eq_zero_iff _ _).mpr hc2low
  by_cases hc2 : (pm ||| piece) ^^^ left_half_mask n = 0
  · left
    unfold find_root
    rw [if_pos hc2]
  · right
    have hor : pm ||| piece < 2 ^ 64 := Nat.or_lt_two_pow hpm hpiece
    rw [find_root_eq _ n hor hc2]
    refine ⟨_, _, rfl, ?_⟩
    have htz_ge : i + 1 ≤ tz64 ((pm ||| piece) ^^^ left_half_mask n) := by
      apply tzAux_ge (i + 1) 64 _ hc2 hc2mod
      have hle : 2 ^ (i + 1) ≤ (pm ||| piece) ^^^ left_half_mask n :=
        Nat.le_of_dvd (Nat.pos_of_ne_zero hc2) (Nat.dvd_of_mod_eq_zero hc2mod)
      have hc2lt : (pm ||| piece) ^^^ left_half_mask n < 2 ^ 64 :=
        Nat.xor_lt_two_pow hor hhalf
      by_contra hcon
      have hge : (2 : Nat) ^ 64 ≤ 2 ^ (i + 1) := Nat.pow_le_pow_right (by norm_num) (by omega)
      omega
    rw [Nat.div_add_mod']
    omega

/-- Concrete root progress on the 2x2 board: the frontier mask `{cell 0}` has
root 1; adding the single-cell piece at cell 1 completes the half board. -/
theorem c10_root_progress_witness :
    find_root (1 ||| 2) 2 = none ∨
      ∃ u v, find_root (1 ||| 2) 2 = some (u, v) ∧ 1 < u * 2 + v :=
  c10_root_progress 2 1 1 2 (by norm_num) (by norm_num) (by decide)
    (by decide) (by decide) (by decide) (by decide)

/-- C3: the claim fails at N = 10. `edge_masks` computes `1u64 << (x*n+(n-1))`
with shift amounts up to 99; for N = 10 the shift overflows (panic in debug,
shift-amount wrap in release), polluting the edge masks with spurious bits, so
the flood fill splits the 10-cell column-0 component and `detect_evil_pmask`
returns `true` although the complement's unique 4-connected component has 10
cells and `10 % 10 = 0` (the spec-modelled detector with the intended geometry
returns `false`). For N = 4 the code matches the claim's concrete instances:
a 3-cell hole in column 0 is evil, the 4-cell hole is not. -/
theorem c3_detect_evil_shift_bug :
    detect_evil_pmask (left_half_mask 10 ^^^ col_mask 10 0) 10 = true ∧
    spec_detect_evil_pmask (left_half_mask 10 ^^^ col_mask 10 0) 10 = false ∧
    popcount (col_mask 10 0) % 10 = 0 ∧
    detect_evil_pmask (left_half_mask 4 ^^^ 14) 4 = true ∧
    detect_evil_pmask (left_half_mask 4 ^^^ 15) 4 = false := by
  decide

section EnumLemmas

/-- Pointwise characterization of mask inclusion (`a &&& b = a`). -/
theorem sub_iff_testBit (a b : Nat) :
    a &&& b = a ↔ ∀ j, a.testBit j = true → b.testBit j = true := by
  constructor
  · intro h j hj
    have h2 := congrArg (fun x => Nat.testBit x j) h
    simp only [Nat.testBit_and] at h2
    rw [hj, Bool.true_and] at h2
    exact h2
  · intro h
    apply Nat.eq_of_testBit_eq
    intro j
    rw [Nat.testBit_and]
    cases hj : a.testBit j
    · simp
    · simp [h j hj]

/-- Inclusion into the left arm of a union. -/
theorem sub_or_self_left (a b : Nat) : a &&& (a ||| b) = a := by
  rw [sub_iff_testBit]
  intro j hj
  rw [Nat.testBit_or, hj, Bool.true_or]

/-- Inclusion is preserved by widening the right-hand side with a union. -/
theorem sub_or_right_of {a c : Nat} (b : Nat) (h : a &&& c = a) : a &&& (b ||| c) = a := by
  rw [sub_iff_testBit] at h ⊢
  intro j hj
  rw [Nat.testBit_or, h j hj, Bool.or_true]

/-- Inclusion is preserved by widening the right-hand side on the right. -/
theorem sub_or_left_of {a c : Nat} (b : Nat) (h : a &&& c = a) : a &&& (c ||| b) = a := by
  rw [sub_iff_testBit] at h ⊢
  intro j hj
  rw [Nat.testBit_or, h j hj, Bool.true_or]

/-- A union of two included masks is included. -/
theorem or_sub_of {a b c : Nat} (ha : a &&& c = a) (hb : b &&& c = b) :
    (a ||| b) &&& c = a ||| b := by
  rw [sub_iff_testBit] at ha hb ⊢
  intro j hj
  rw [Nat.testBit_or] at hj
  rcases Bool.or_eq_true_iff.mp hj with h | h
  · exact ha j h
  · exact hb j h

/-- A mask included in a set disjoint from `q` is disjoint from `q`. -/
theorem disjoint_of_sub {a pm q : Nat} (hsub : a &&& pm = a) (hd : pm &&& q = 0) :
    a &&& q = 0 := by
  rw [sub_iff_testBit] at hsub
  apply Nat.eq_of_testBit_eq
  intro j
  rw [Nat.testBit_and, Nat.zero_testBit]
  cases hj : a.testBit j
  · simp
  · have hp := hsub j hj
    have h2 := congrArg (fun x => Nat.testBit x j) hd
    simp only [Nat.testBit_and, Nat.zero_testBit] at h2
    rw [hp, Bool.true_and] at h2
    simp [h2]

/-- A nonzero mask included in `pm` contradicts `pm &&& q = 0` when it is also
included in `q`. -/
theorem ne_zero_not_sub_disjoint {a pm q : Nat} (ha : a ≠ 0) (hsub : a &&& pm = a)
    (hq : pm &&& q = 0) : ¬ a &&& q = a := by
  intro hcon
  have hz := disjoint_of_sub hsub hq
  rw [hcon] at hz
  exact ha hz

/-- Halving a bitwise or halves both arguments. -/
theorem or_div_two (a b : Nat) : (a ||| b) / 2 = a / 2 ||| b / 2 := by
  apply Nat.eq_of_testBit_eq
  intro j
  simp only [Nat.testBit_or, ← Nat.testBit_add_one, Nat.testBit_or]

/-- Halving a bitwise and halves both arguments. -/
theorem and_div_two (a b : Nat) : (a &&& b) / 2 = a / 2 &&& b / 2 := by
  apply Nat.eq_of_testBit_eq
  intro j
  simp only [Nat.testBit_and, ← Nat.testBit_add_one, Nat.testBit_and]

/-- Parity of a disjoint union adds the parities. -/
theorem or_mod_two_disjoint (a b : Nat) (hd : a &&& b = 0) :
    (a ||| b) % 2 = a % 2 + b % 2 := by
  have h1 := Nat.testBit_or a b 0
  simp only [Nat.testBit_zero] at h1
  have h2 := Nat.testBit_and a b 0
  rw [hd, Nat.zero_testBit] at h2
  simp only [Nat.testBit_zero] at h2
  rcases Nat.mod_two_eq_zero_or_one a with ha | ha <;>
    rcases Nat.mod_two_eq_zero_or_one b with hb | hb
  · have h3 : ¬ ((a ||| b) % 2 = 1) := by
      intro hcon
      rw [hcon, ha, hb] at h1
      simp at h1
    omega
  · have h3 : (a ||| b) % 2 = 1 := by
      rw [ha, hb] at h1
      simpa using h1
    omega
  · have h3 : (a ||| b) % 2 = 1 := by
      rw [ha, hb] at h1
      simpa using h1
    omega
  · exfalso
    rw [ha, hb] at h2
    simp at h2

/-- The popcount loop on zero. -/
theorem popcountAux_zero : ∀ fuel, popcountAux fuel 0 = 0
  | 0 => rfl
  | fuel + 1 => by rw [popcountAux, popcountAux_zero fuel]

/-- The popcount loop is additive on disjoint masks. -/
theorem popcountAux_or_disjoint : ∀ (fuel a b : Nat), a &&& b = 0 →
    popcountAux fuel (a ||| b) = popcountAux fuel a + popcountAux fuel b
  | 0, _, _, _ => rfl
  | fuel + 1, a, b, hd => by
    rw [popcountAux, popcountAux, popcountAux, or_div_two,
      popcountAux_or_disjoint fuel (a / 2) (b / 2)
        (by rw [← and_div_two, hd]),
      or_mod_two_disjoint a b hd]
    omega

/-- Popcount is additive on disjoint u64 masks. -/
theorem popcount_or_disjoint (a b : Nat) (hd : a &&& b = 0) :
    popcount (a ||| b) = popcount a + popcount b :=
  popcountAux_or_disjoint 64 a b hd

/-- The popcount loop is monotone along mask inclusion. -/
theorem popcountAux_le_subset : ∀ (fuel a b : Nat), a &&& b = a →
    popcountAux fuel a ≤ popcountAux fuel b
  | 0, _, _, _ => le_rfl
  | fuel + 1, a, b, hs => by
    rw [popcountAux, popcountAux]
    have hrec := popcountAux_le_subset fuel (a / 2) (b / 2) (by rw [← and_div_two, hs])
    have h2 := congrArg (fun x => Nat.testBit x 0) hs
    simp only [Nat.testBit_and, Nat.testBit_zero] at h2
    rcases Nat.mod_two_eq_zero_or_one a with ha | ha <;>
      rcases Nat.mod_two_eq_zero_or_one b with hb | hb <;>
        simp [ha, hb] at h2 ⊢ <;> omega

/-- Popcount is monotone along u64 mask inclusion. -/
theorem popcount_le_subset (a b : Nat) (hs : a &&& b = a) : popcount a ≤ popcount b :=
  popcountAux_le_subset 64 a b hs

/-- The popcount of a low-bits mask is its width. -/
theorem popcountAux_two_pow_sub_one : ∀ (fuel k : Nat), k ≤ fuel →
    popcountAux fuel (2 ^ k - 1) = k
  | fuel, 0, _ => by
    rw [show (2 : Nat) ^ 0 - 1 = 0 from rfl, popcountAux_zero]
  | fuel + 1, k + 1, hk => by
    have hp : (2 : Nat) ^ (k + 1) = 2 ^ k * 2 := Nat.pow_succ 2 k
    have h1 : 0 < (2 : Nat) ^ k := Nat.two_pow_pos k
    rw [popcountAux, show ((2 : Nat) ^ (k + 1) - 1) % 2 = 1 from by omega,
      show ((2 : Nat) ^ (k + 1) - 1) / 2 = 2 ^ k - 1 from by omega,
      popcountAux_two_pow_sub_one fuel k (by omega)]
    omega

/-- Popcount of the half-board mask is the number of half-board cells. -/
theorem popcount_left_half (n : Nat) (hn : 0 < n) (hcells : n * (n / 2) ≤ 64) :
    popcount (left_half_mask n) = n * (n / 2) := by
  unfold left_half_mask
  rw [if_neg (by omega), Nat.shiftLeft_eq, Nat.one_mul,
    Nat.mod_eq_of_lt (by
      have h1 : (2 : Nat) ^ (n * (n / 2)) ≤ 2 ^ 64 := Nat.pow_le_pow_right (by norm_num) hcells
      have h2 : 0 < (2 : Nat) ^ (n * (n / 2)) := Nat.two_pow_pos _
      omega)]
  exact popcountAux_two_pow_sub_one 64 _ hcells

/-- `unionMask` over a cons. -/
theorem unionMask_cons (pmaskOf : List Nat) (j : Nat) (t : List Nat) :
    unionMask pmaskOf (j :: t) = pmaskOf.getD j 0 ||| unionMask pmaskOf t := rfl

/-- `unionMask` is invariant under permutations. -/
theorem unionMask_perm (pmaskOf : List Nat) {l1 l2 : List Nat} (hp : l1.Perm l2) :
    unionMask pmaskOf l1 = unionMask pmaskOf l2 := by
  induction hp with
  | nil => rfl
  | cons x _ ih => rw [unionMask_cons, unionMask_cons, ih]
  | swap x y l =>
    rw [unionMask_cons, unionMask_cons, unionMask_cons, unionMask_cons,
      ← Nat.or_assoc, Nat.or_comm (pmaskOf.getD y 0) (pmaskOf.getD x 0), Nat.or_assoc]
  | trans _ _ ih1 ih2 => rw [ih1, ih2]

/-- Each member mask is included in the union. -/
theorem mem_sub_unionMask (pmaskOf : List Nat) {j : Nat} :
    ∀ {es : List Nat}, j ∈ es →
      pmaskOf.getD j 0 &&& unionMask pmaskOf es = pmaskOf.getD j 0 := by
  intro es hmem
  induction es with
  | nil => cases hmem
  | cons a t ih =>
    rw [unionMask_cons]
    rcases List.mem_cons.mp hmem with rfl | h
    · exact sub_or_self_left _ _
    · exact sub_or_right_of _ (ih h)

end EnumLemmas

section InvLemmas

/-- Mask inclusion is transitive. -/
theorem sub_trans {a b c : Nat} (h1 : a &&& b = a) (h2 : b &&& c = b) : a &&& c = a := by
  rw [sub_iff_testBit] at h1 h2 ⊢
  exact fun j hj => h2 j (h1 j hj)

/-- `code_insert` either returns the input unchanged or a `code_with_len`. -/
theorem code_insert_cases (c j b : Nat) : code_insert c j b = (c, false) ∨
    ∃ x k2, code_insert c j b = (code_with_len x k2, true) := by
  have h : code_insert c j b =
      (if codeBsearch c b j (code_len c + 1) 0 (code_len c) < code_len c ∧
          code_get c (codeBsearch c b j (code_len c + 1) 0 (code_len c)) b = j then (c, false)
       else if 10 ≤ code_len c then (c, false)
       else (code_with_len (code_set (shiftLoop b
              (codeBsearch c b j (code_len c + 1) 0 (code_len c)) c
              (code_len c - codeBsearch c b j (code_len c + 1) 0 (code_len c)))
            (codeBsearch c b j (code_len c + 1) 0 (code_len c)) b j)
            (code_len c + 1), true)) := rfl
  rw [h]
  split
  · exact Or.inl rfl
  · split
    · exact Or.inl rfl
    · exact Or.inr ⟨_, _, rfl⟩

/-- The code produced by `code_insert` is still a u128 value. -/
theorem code_insert_fst_lt (c j b : Nat) (hc : c < 2 ^ 128) :
    (code_insert c j b).1 < 2 ^ 128 := by
  rcases code_insert_cases c j b with h | ⟨x, k2, h⟩
  · rw [h]
    exact hc
  · rw [h]
    exact code_with_len_lt x k2

/-- A strictly ascending list has no duplicates. -/
theorem chain_lt_nodup (l : List Nat) (h : List.Chain' (fun x y => x < y) l) :
    l.Nodup := by
  haveI : IsTrans Nat (fun x y : Nat => x < y) := ⟨fun a b c => Nat.lt_trans⟩
  exact (List.chain'_iff_pairwise.mp h).imp (fun h2 => Nat.ne_of_lt h2)

/-- The seed entry: the empty code at the empty mask. -/
theorem INV_seed (n m bw : Nat) (pmaskOf jpop : List Nat) :
    INV n m bw pmaskOf jpop 0 0 := by
  have he : code_entries 0 bw = [] := by
    simp [code_entries, code_len]
  have hu : unionMask pmaskOf ([] : List Nat) = 0 := rfl
  have hp0 : popcount 0 = 0 := popcountAux_zero 64
  refine ⟨⟨by norm_num, by decide, ?_, ?_⟩, Or.inr ⟨?_, ?_, ?_⟩⟩
  · rw [he]
    exact List.chain'_nil
  · rw [he]
    intro x hx
    cases hx
  · rw [he, hu]
    decide
  · rw [he, hu, hp0]
    rfl
  · rw [he, hu, hp0]
    exact ⟨0, by omega⟩

/-- The survivor transition: extending a mask by a disjoint valid placement
preserves the invariant, whether the placement is recorded in the code
(`pop ≠ n`, `code_insert`) or skipped (`pop = n`). -/
theorem INV_step (n m bw : Nat) (pmaskOf jpop : List Nat) (pm c : Nat) (p : PrePiece)
    (hb1 : 1 ≤ bw) (h128 : 4 + 10 * bw ≤ 128)
    (hv : ValidPiece n m bw pmaskOf jpop p)
    (hdisj : pm &&& p.mask = 0)
    (hinv : INV n m bw pmaskOf jpop pm c) :
    INV n m bw pmaskOf jpop (pm ||| p.mask)
      (if p.pop = n then c else (code_insert c p.jidx bw).1) := by
  obtain ⟨⟨hc, hk, hch, hm⟩, hbranch⟩ := hinv
  obtain ⟨hmne, hmsub, hpop, hjm, hjb, hpmask, hjpop⟩ := hv
  have hd2 : popcount (pm ||| p.mask) = popcount pm + popcount p.mask :=
    popcount_or_disjoint pm p.mask hdisj
  by_cases hpn : p.pop = n
  · rw [if_pos hpn]
    refine ⟨⟨hc, hk, hch, hm⟩, ?_⟩
    rcases hbranch with h10 | ⟨hsub, hsum, hdvd⟩
    · exact Or.inl h10
    · refine Or.inr ⟨sub_or_left_of _ hsub, hsum, ?_⟩
      have hped : popcount p.mask = n := by rw [← hpop, hpn]
      have hle := popcount_le_subset _ _ hsub
      obtain ⟨q, hq⟩ := hdvd
      refine ⟨q + 1, ?_⟩
      have hmul : n * (q + 1) = n * q + n := by ring
      omega
  · rw [if_neg hpn]
    by_cases h10 : code_len c = 10
    · have hrej := (code_insert_char c p.jidx bw hc hb1 h128 hk hjb hch).2.1 h10
      rw [hrej]
      exact ⟨⟨hc, hk, hch, hm⟩, Or.inl h10⟩
    · rcases hbranch with h10x | ⟨hsub, hsum, hdvd⟩
      · exact absurd h10x h10
      · have hjnot : p.jidx ∉ code_entries c bw := by
          intro hmem
          have hM := mem_sub_unionMask pmaskOf hmem
          rw [hpmask] at hM
          have hMpm : p.mask &&& pm = p.mask := sub_trans hM hsub
          have hz := disjoint_of_sub hMpm hdisj
          rw [Nat.and_self] at hz
          exact hmne hz
        obtain ⟨hflag, hlen, hch2, hmem2⟩ :=
          (code_insert_char c p.jidx bw hc hb1 h128 hk hjb hch).2.2 hjnot (by omega)
        have hc2lt : (code_insert c p.jidx bw).1 < 2 ^ 128 := code_insert_fst_lt c p.jidx bw hc
        have hnd2 : (code_entries (code_insert c p.jidx bw).1 bw).Nodup :=
          chain_lt_nodup _ hch2
        have hnd1 : (p.jidx :: code_entries c bw).Nodup :=
          List.nodup_cons.mpr ⟨hjnot, chain_lt_nodup _ hch⟩
        have hperm : (code_entries (code_insert c p.jidx bw).1 bw).Perm
            (p.jidx :: code_entries c bw) := by
          rw [List.perm_ext_iff_of_nodup hnd2 hnd1]
          intro a
          rw [hmem2 a, List.mem_cons]
          exact Or.comm
        have hun2 : unionMask pmaskOf (code_entries (code_insert c p.jidx bw).1 bw) =
            p.mask ||| unionMask pmaskOf (code_entries c bw) := by
          rw [unionMask_perm pmaskOf hperm, unionMask_cons, hpmask]
        have hdunion : p.mask &&& unionMask pmaskOf (code_entries c bw) = 0 := by
          have h1 := disjoint_of_sub hsub hdisj
          rw [Nat.and_comm]
          exact h1
        refine ⟨⟨hc2lt, by omega, hch2, ?_⟩, Or.inr ⟨?_, ?_, ?_⟩⟩
        · intro x hx
          rcases (hmem2 x).mp hx with hold | rfl
          · exact hm x hold
          · exact hjm
        · rw [hun2]
          exact or_sub_of (sub_or_right_of pm (Nat.and_self p.mask)) (sub_or_left_of _ hsub)
        · have hps : ((code_entries (code_insert c p.jidx bw).1 bw).map
              (fun j => jpop.getD j 0)).sum =
              jpop.getD p.jidx 0 + ((code_entries c bw).map (fun j => jpop.getD j 0)).sum := by
            rw [(hperm.map (fun j => jpop.getD j 0)).sum_eq]
            rfl
          rw [hps, hun2, popcount_or_disjoint _ _ hdunion, hsum, hjpop, hpop]
        · rw [hun2, popcount_or_disjoint _ _ hdunion]
          have hle := popcount_le_subset _ _ hsub
          obtain ⟨q, hq⟩ := hdvd
          exact ⟨q, by omega⟩

end InvLemmas

section StateLemmas

/-- Codes of the merged runs come from the input list. -/
theorem mergeRunsAux_fst_mem : ∀ (l : List (Nat × Nat)) (c sum x : Nat),
    x ∈ (mergeRunsAux c sum l).map (fun p => p.1) →
      x = c ∨ x ∈ l.map (fun p => p.1)
  | [], c, sum, x, h => by
    simp [mergeRunsAux] at h
    exact Or.inl h
  | (c2, w) :: t, c, sum, x, h => by
    rw [mergeRunsAux] at h
    by_cases hc2 : c2 = c
    · rw [if_pos hc2] at h
      rcases mergeRunsAux_fst_mem t c (satAdd64 sum w) x h with h1 | h1
      · exact Or.inl h1
      · rw [List.map_cons]
        exact Or.inr (List.mem_cons_of_mem _ h1)
    · rw [if_neg hc2, List.map_cons, List.mem_cons] at h
      rcases h with h1 | h1
      · exact Or.inl h1
      · rcases mergeRunsAux_fst_mem t c2 w x h1 with h2 | h2
        · rw [List.map_cons, h2]
          exact Or.inr (List.mem_cons_self _ _)
        · rw [List.map_cons]
          exact Or.inr (List.mem_cons_of_mem _ h2)

/-- Codes of a merged list come from the list. -/
theorem mergeRuns_fst_mem (l : List (Nat × Nat)) (x : Nat)
    (h : x ∈ (mergeRuns l).map (fun p => p.1)) : x ∈ l.map (fun p => p.1) := by
  cases l with
  | nil => cases h
  | cons a t =>
    obtain ⟨ac, aw⟩ := a
    rw [mergeRuns] at h
    rcases mergeRunsAux_fst_mem t ac aw x h with h1 | h1
    · rw [List.map_cons, h1]
      exact List.mem_cons_self _ _
    · rw [List.map_cons]
      exact List.mem_cons_of_mem _ h1

/-- A flush introduces no new codes. -/
theorem flush_mem (b : AOBucket) (c : Nat)
    (h : c ∈ b.flush.codes ++ b.flush.pend_codes) : c ∈ b.codes ++ b.pend_codes := by
  by_cases hp : b.pend_codes = []
  · have he : b.flush = b := by
      unfold AOBucket.flush
      rw [if_pos hp]
    rwa [he] at h
  · have he : b.flush = ⟨(mergeRuns (((b.codes ++ b.pend_codes).zip
        (b.weights ++ b.pend_w)).insertionSort (fun x y => x.1 ≤ y.1))).map (fun p => p.1),
        (mergeRuns (((b.codes ++ b.pend_codes).zip
        (b.weights ++ b.pend_w)).insertionSort (fun x y => x.1 ≤ y.1))).map (fun p => p.2),
        [], []⟩ := by
      unfold AOBucket.flush
      rw [if_neg hp]
    rw [he] at h
    have h2 : c ∈ (mergeRuns (((b.codes ++ b.pend_codes).zip
        (b.weights ++ b.pend_w)).insertionSort (fun x y => x.1 ≤ y.1))).map (fun p => p.1) := by
      simpa using h
    have h3 := mergeRuns_fst_mem _ c h2
    have hperm := List.perm_insertionSort (fun x y : Nat × Nat => x.1 ≤ y.1)
      ((b.codes ++ b.pend_codes).zip (b.weights ++ b.pend_w))
    have h4 : c ∈ ((b.codes ++ b.pend_codes).zip (b.weights ++ b.pend_w)).map
        (fun p : Nat × Nat => p.1) := (hperm.map _).mem_iff.mp h3
    obtain ⟨p2, hp2, hpe⟩ := List.mem_map.mp h4
    obtain ⟨pc, pw⟩ := p2
    rw [← hpe]
    exact (List.of_mem_zip hp2).1

/-- `append_batch` only adds the batch's codes. -/
theorem append_batch_mem (b : AOBucket) (cs ws : List Nat) (c : Nat)
    (h : c ∈ (b.append_batch cs ws).codes ++ (b.append_batch cs ws).pend_codes) :
    c ∈ b.codes ++ b.pend_codes ∨ c ∈ cs := by
  by_cases h0 : cs = []
  · have he : b.append_batch cs ws = b := by
      unfold AOBucket.append_batch
      rw [if_pos h0]
    rw [he] at h
    exact Or.inl h
  · have he : b.append_batch cs ws =
        if 32768 ≤ (b.pend_codes ++ cs).length
        then (AOBucket.mk b.codes b.weights (b.pend_codes ++ cs) (b.pend_w ++ ws)).flush
        else AOBucket.mk b.codes b.weights (b.pend_codes ++ cs) (b.pend_w ++ ws) := by
      unfold AOBucket.append_batch
      rw [if_neg h0]
    rw [he] at h
    by_cases hlen : 32768 ≤ (b.pend_codes ++ cs).length
    · rw [if_pos hlen] at h
      have h2 := flush_mem _ c h
      simp only [List.mem_append] at h2 ⊢
      rcases h2 with h3 | h3 | h3
      · exact Or.inl (Or.inl h3)
      · exact Or.inl (Or.inr h3)
      · exact Or.inr h3
    · rw [if_neg hlen] at h
      simp only [List.mem_append] at h ⊢
      rcases h with h3 | h3 | h3
      · exact Or.inl (Or.inl h3)
      · exact Or.inl (Or.inr h3)
      · exact Or.inr h3

/-- Every code of the keyed-bucket map after an add comes from an existing
entry with the same key or from the batch under the added key. -/
theorem bucket_map_add_mem : ∀ (l : List (Nat × AOBucket)) (k : Nat) (cs ws : List Nat)
    (e : Nat × AOBucket), e ∈ bucket_map_add l k cs ws →
    ∀ c ∈ e.2.codes ++ e.2.pend_codes,
      (∃ e0 ∈ l, e0.1 = e.1 ∧ c ∈ e0.2.codes ++ e0.2.pend_codes) ∨ (e.1 = k ∧ c ∈ cs)
  | [], k, cs, ws, e, he, c, hc => by
    rw [bucket_map_add, List.mem_singleton] at he
    subst he
    rcases append_batch_mem _ cs ws c hc with h1 | h1
    · simp at h1
    · exact Or.inr ⟨rfl, h1⟩
  | (k2, b) :: t, k, cs, ws, e, he, c, hc => by
    rw [bucket_map_add] at he
    by_cases hk : k2 = k
    · rw [if_pos hk] at he
      rcases List.mem_cons.mp he with rfl | het
      · rcases append_batch_mem b cs ws c hc with h1 | h1
        · exact Or.inl ⟨(k2, b), List.mem_cons_self _ _, rfl, h1⟩
        · exact Or.inr ⟨hk, h1⟩
      · exact Or.inl ⟨e, List.mem_cons_of_mem _ het, rfl, hc⟩
    · rw [if_neg hk] at he
      rcases List.mem_cons.mp he with rfl | het
      · exact Or.inl ⟨(k2, b), List.mem_cons_self _ _, rfl, hc⟩
      · rcases bucket_map_add_mem t k cs ws e het c hc with ⟨e0, he0, h1, h2⟩ | h1
        · exact Or.inl ⟨e0, List.mem_cons_of_mem _ he0, h1, h2⟩
        · exact Or.inr h1

/-- Every code of the group accumulator after a push comes from an existing
entry with the same key or from the pushed batch under the pushed key. -/
theorem alPushCW_mem : ∀ (g : List (Nat × (List Nat × List Nat))) (k : Nat)
    (cs ws : List Nat) (e : Nat × (List Nat × List Nat)), e ∈ alPushCW g k cs ws →
    ∀ c ∈ (e.2).1, (∃ e0 ∈ g, e0.1 = e.1 ∧ c ∈ (e0.2).1) ∨ (e.1 = k ∧ c ∈ cs)
  | [], k, cs, ws, e, he, c, hc => by
    rw [alPushCW, List.mem_singleton] at he
    subst he
    exact Or.inr ⟨rfl, hc⟩
  | (k2, cw) :: t, k, cs, ws, e, he, c, hc => by
    rw [alPushCW] at he
    by_cases hk : k2 = k
    · rw [if_pos hk] at he
      rcases List.mem_cons.mp he with rfl | het
      · rcases List.mem_append.mp hc with h1 | h1
        · exact Or.inl ⟨(k2, cw), List.mem_cons_self _ _, rfl, h1⟩
        · exact Or.inr ⟨hk, h1⟩
      · exact Or.inl ⟨e, List.mem_cons_of_mem _ het, rfl, hc⟩
    · rw [if_neg hk] at he
      rcases List.mem_cons.mp he with rfl | het
      · exact Or.inl ⟨(k2, cw), List.mem_cons_self _ _, rfl, hc⟩
      · rcases alPushCW_mem t k cs ws e het c hc with ⟨e0, he0, h1, h2⟩ | h1
        · exact Or.inl ⟨e0, List.mem_cons_of_mem _ he0, h1, h2⟩
        · exact Or.inr h1

end StateLemmas

section DriverLemmas

/-- Every code grouped for a placement comes from a surviving frontier entry,
with the group key being that entry's mask extended by the placement. -/
theorem piece_groups_mem (rf : List (Nat × AOBucket)) (p : PrePiece) (n i cut : Nat) :
    ∀ e ∈ piece_groups rf p n i cut, ∀ c ∈ (e.2).1,
      ∃ pm b2, (pm, b2) ∈ rf ∧ pm &&& p.mask = 0 ∧ e.1 = pm ||| p.mask ∧ c ∈ b2.codes := by
  have main : ∀ (l : List (Nat × AOBucket)) (g0 : List (Nat × (List Nat × List Nat))),
      (∀ e ∈ l, e ∈ rf ∧ e.1 &&& p.mask = 0) →
      (∀ e ∈ g0, ∀ c ∈ (e.2).1,
        ∃ pm b2, (pm, b2) ∈ rf ∧ pm &&& p.mask = 0 ∧ e.1 = pm ||| p.mask ∧ c ∈ b2.codes) →
      ∀ e ∈ l.foldl (fun g e2 =>
          if i < cut ∧ detect_evil_pmask (e2.1 ||| p.mask) n = true then g
          else alPushCW g (e2.1 ||| p.mask) e2.2.codes e2.2.weights) g0,
        ∀ c ∈ (e.2).1,
          ∃ pm b2, (pm, b2) ∈ rf ∧ pm &&& p.mask = 0 ∧ e.1 = pm ||| p.mask ∧ c ∈ b2.codes := by
    intro l
    induction l with
    | nil =>
      intro g0 _ hg0
      exact hg0
    | cons a t ih =>
      intro g0 hl hg0
      rw [List.foldl_cons]
      apply ih
      · intro e he
        exact hl e (List.mem_cons_of_mem _ he)
      · by_cases hcond : i < cut ∧ detect_evil_pmask (a.1 ||| p.mask) n = true
        · rw [if_pos hcond]
          exact hg0
        · rw [if_neg hcond]
          intro e he c hc
          rcases alPushCW_mem g0 _ _ _ e he c hc with ⟨e0, he0, h1, h2⟩ | ⟨h1, h2⟩
          · obtain ⟨pm, b2, hx1, hx2, hx3, hx4⟩ := hg0 e0 he0 c h2
            exact ⟨pm, b2, hx1, hx2, by rw [← h1]; exact hx3, hx4⟩
          · obtain ⟨ha1, ha2⟩ := hl a (List.mem_cons_self _ _)
            exact ⟨a.1, a.2, by simpa using ha1, ha2, h1, h2⟩
  intro e he c hc
  refine main (rf.filter (fun e2 => decide (e2.1 &&& p.mask = 0))) [] ?_ ?_ e he c hc
  · intro e2 he2
    exact ⟨List.mem_of_mem_filter he2, by simpa using List.of_mem_filter he2⟩
  · intro e2 he2
    cases he2

/-- Whatever a by-key grouping fold accumulates came from the zipped batch. -/
theorem bykey_fold_mem (bw : Nat) (jpop : List Nat) (P : Nat → Prop) :
    ∀ (l : List (Nat × Nat)) (bk0 : List (Nat × (List Nat × List Nat))),
      (∀ e ∈ bk0, ∀ c ∈ (e.2).1, P c) → (∀ cw ∈ l, P cw.1) →
      ∀ e ∈ l.foldl (fun bk cw => alPushCW bk (code_pop_key cw.1 bw jpop) [cw.1] [cw.2]) bk0,
        ∀ c ∈ (e.2).1, P c
  | [], bk0, h0, _, e, he, c, hc => h0 e he c hc
  | cw :: t, bk0, h0, hl, e, he, c, hc => by
    rw [List.foldl_cons] at he
    refine bykey_fold_mem bw jpop P t _ ?_
      (fun cw2 hcw2 => hl cw2 (List.mem_cons_of_mem _ hcw2)) e he c hc
    intro e2 he2 c2 hc2
    rcases alPushCW_mem bk0 _ _ _ e2 he2 c2 hc2 with ⟨e0, he0, _, h2⟩ | ⟨_, h2⟩
    · exact h0 e0 he0 c2 h2
    · rw [List.mem_singleton] at h2
      subst h2
      exact hl cw (List.mem_cons_self _ _)

/-- Merging keyed batches into the out-buckets preserves a per-code property
that the old buckets and the batches satisfy. -/
theorem out_fold_mem (P : Nat → Prop) :
    ∀ (bl : List (Nat × (List Nat × List Nat))) (o0 : List (Nat × AOBucket)),
      (∀ e ∈ o0, ∀ c ∈ e.2.codes ++ e.2.pend_codes, P c) →
      (∀ e ∈ bl, ∀ c ∈ (e.2).1, P c) →
      ∀ e ∈ bl.foldl (fun o kb => bucket_map_add o kb.1 (kb.2).1 (kb.2).2) o0,
        ∀ c ∈ e.2.codes ++ e.2.pend_codes, P c
  | [], o0, h0, _, e, he, c, hc => h0 e he c hc
  | kb :: t, o0, h0, hbl, e, he, c, hc => by
    rw [List.foldl_cons] at he
    refine out_fold_mem P t _ ?_
      (fun e2 he2 => hbl e2 (List.mem_cons_of_mem _ he2)) e he c hc
    intro e2 he2 c2 hc2
    rcases bucket_map_add_mem o0 _ _ _ e2 he2 c2 hc2 with ⟨e0, he0, _, h2⟩ | ⟨_, h2⟩
    · exact h0 e0 he0 c2 h2
    · exact hbl kb (List.mem_cons_self _ _) c2 h2

/-- An indexed read of a list is a member or the default. -/
theorem getD_mem_or_eq {α : Type} (l : List α) (i : Nat) (d : α) :
    l.getD i d ∈ l ∨ l.getD i d = d := by
  by_cases h : i < l.length
  · left
    rw [List.getD_eq_getElem l d h]
    exact List.getElem_mem h
  · right
    exact List.getD_eq_default l d (by omega)

/-- Routing one group preserves the driver invariant. -/
theorem route_group_STINV (n m bw : Nat) (pmaskOf jpop : List Nat) (st : EnumState)
    (p : PrePiece) (g : Nat × (List Nat × List Nat))
    (hb1 : 1 ≤ bw) (h128 : 4 + 10 * bw ≤ 128)
    (hv : ValidPiece n m bw pmaskOf jpop p)
    (hst : STINV n m bw pmaskOf jpop st)
    (hg : ∀ c ∈ (g.2).1, ∃ pm, pm &&& p.mask = 0 ∧ g.1 = pm ||| p.mask ∧
      INV n m bw pmaskOf jpop pm c) :
    STINV n m bw pmaskOf jpop (route_group st p n bw jpop g) := by
  unfold route_group
  by_cases h0 : (g.2).1 = []
  · rw [if_pos h0]
    exact hst
  · rw [if_neg h0]
    have hcodes2 : ∀ c2 ∈ (if p.pop = n then (g.2).1
        else (g.2).1.map (fun c => (code_insert c p.jidx bw).1)),
        INV n m bw pmaskOf jpop g.1 c2 := by
      intro c2 hc2
      by_cases hpn : p.pop = n
      · rw [if_pos hpn] at hc2
        obtain ⟨pm, hd, hkey, hinv⟩ := hg c2 hc2
        have hs := INV_step n m bw pmaskOf jpop pm c2 p hb1 h128 hv hd hinv
        rw [if_pos hpn] at hs
        rw [hkey]
        exact hs
      · rw [if_neg hpn] at hc2
        obtain ⟨c, hcmem, rfl⟩ := List.mem_map.mp hc2
        obtain ⟨pm, hd, hkey, hinv⟩ := hg c hcmem
        have hs := INV_step n m bw pmaskOf jpop pm c p hb1 h128 hv hd hinv
        rw [if_neg hpn] at hs
        rw [hkey]
        exact hs
    rcases hroot : root_code_of g.1 n with _ | rc
    · have hhalf : g.1 = left_half_mask n := by
        unfold root_code_of at hroot
        rcases hfr : find_root g.1 n with _ | uv
        · unfold find_root at hfr
          by_cases hz : g.1 ^^^ left_half_mask n = 0
          · exact Nat.xor_eq_zero.mp hz
          · rw [if_neg hz] at hfr
            exact Option.noConfusion hfr
        · rw [hfr] at hroot
          exact Option.noConfusion hroot
      refine ⟨hst.1, ?_⟩
      intro e he c hc
      refine out_fold_mem (fun c2 => INV n m bw pmaskOf jpop (left_half_mask n) c2)
        _ st.out hst.2 ?_ e he c hc
      intro e2 he2 c2 hc2
      refine bykey_fold_mem bw jpop (fun c3 => INV n m bw pmaskOf jpop (left_half_mask n) c3)
        _ [] ?_ ?_ e2 he2 c2 hc2
      · intro e3 he3
        cases he3
      · intro cw hcw
        have h3 := hcodes2 cw.1 (by
          obtain ⟨cwa, cwb⟩ := cw
          exact (List.of_mem_zip hcw).1)
        rw [hhalf] at h3
        exact h3
    · refine ⟨?_, hst.2⟩
      intro fr hfr e he
      rcases List.mem_or_eq_of_mem_set hfr with hmem | rfl
      · exact hst.1 fr hmem e he
      · intro c hc
        rcases bucket_map_add_mem _ _ _ _ e he c hc with ⟨e0, he0, h1, h2⟩ | ⟨h1, h2⟩
        · rcases getD_mem_or_eq st.frontiers rc [] with hin | hnil
          · have h3 := hst.1 _ hin e0 he0 c h2
            rw [h1] at h3
            exact h3
          · rw [hnil] at he0
            cases he0
        · rw [h1]
          exact hcodes2 c h2

/-- Processing one placement preserves the driver invariant. -/
theorem process_piece_STINV (n m bw i cut : Nat) (pmaskOf jpop : List Nat)
    (rf : List (Nat × AOBucket)) (st : EnumState) (p : PrePiece)
    (hb1 : 1 ≤ bw) (h128 : 4 + 10 * bw ≤ 128)
    (hv : ValidPiece n m bw pmaskOf jpop p)
    (hrf : ∀ e ∈ rf, EntInv n m bw pmaskOf jpop e)
    (hst : STINV n m bw pmaskOf jpop st) :
    STINV n m bw pmaskOf jpop (process_piece n bw i cut jpop rf st p) := by
  unfold process_piece
  have hgs := piece_groups_mem rf p n i cut
  have main : ∀ (gl : List (Nat × (List Nat × List Nat))) (st0 : EnumState),
      (∀ g ∈ gl, ∀ c ∈ (g.2).1, ∃ pm, pm &&& p.mask = 0 ∧ g.1 = pm ||| p.mask ∧
        INV n m bw pmaskOf jpop pm c) →
      STINV n m bw pmaskOf jpop st0 →
      STINV n m bw pmaskOf jpop (gl.foldl (fun st2 g => route_group st2 p n bw jpop g) st0) := by
    intro gl
    induction gl with
    | nil =>
      intro st0 _ h
      exact h
    | cons a t ih =>
      intro st0 hgl h
      rw [List.foldl_cons]
      exact ih _ (fun g hg => hgl g (List.mem_cons_of_mem _ hg))
        (route_group_STINV n m bw pmaskOf jpop st0 p a hb1 h128 hv h
          (fun c hc => hgl a (List.mem_cons_self _ _) c hc))
  apply main _ st ?_ hst
  intro g hgmem c hc
  obtain ⟨pm, b2, hmem, hd, hkey, hcodes⟩ := hgs g hgmem c hc
  exact ⟨pm, hd, hkey, hrf (pm, b2) hmem c (List.mem_append.mpr (Or.inl hcodes))⟩

/-- Processing one root preserves the driver invariant. -/
theorem process_root_STINV (n m bw cut : Nat) (pre : List (List PrePiece))
    (pmaskOf jpop : List Nat) (st : EnumState) (i : Nat)
    (hb1 : 1 ≤ bw) (h128 : 4 + 10 * bw ≤ 128)
    (hpre : ∀ p ∈ pre.getD i [], ValidPiece n m bw pmaskOf jpop p)
    (hst : STINV n m bw pmaskOf jpop st) :
    STINV n m bw pmaskOf jpop (process_root n bw cut pre jpop st i) := by
  unfold process_root
  have hrf : ∀ e ∈ (st.frontiers.getD i []).map (fun e => (e.1, e.2.flush)),
      EntInv n m bw pmaskOf jpop e := by
    intro e he
    obtain ⟨e0, he0, rfl⟩ := List.mem_map.mp he
    intro c hc
    have h2 := flush_mem e0.2 c hc
    rcases getD_mem_or_eq st.frontiers i [] with hin | hnil
    · exact hst.1 _ hin e0 he0 c h2
    · rw [hnil] at he0
      cases he0
  have hst1 : STINV n m bw pmaskOf jpop ⟨st.frontiers.set i [], st.out⟩ := by
    refine ⟨?_, hst.2⟩
    intro fr hfr e he
    rcases List.mem_or_eq_of_mem_set hfr with hmem | rfl
    · exact hst.1 fr hmem e he
    · cases he
  have main : ∀ (pl : List PrePiece) (st0 : EnumState),
      (∀ p ∈ pl, ValidPiece n m bw pmaskOf jpop p) →
      STINV n m bw pmaskOf jpop st0 →
      STINV n m bw pmaskOf jpop (pl.foldl (process_piece n bw i cut jpop
        ((st.frontiers.getD i []).map (fun e => (e.1, e.2.flush)))) st0) := by
    intro pl
    induction pl with
    | nil =>
      intro st0 _ h
      exact h
    | cons a t ih =>
      intro st0 hpl h
      rw [List.foldl_cons]
      exact ih _ (fun p2 hp2 => hpl p2 (List.mem_cons_of_mem _ hp2))
        (process_piece_STINV n m bw i cut pmaskOf jpop _ st0 a hb1 h128
          (hpl a (List.mem_cons_self _ _)) hrf h)
  exact main (pre.getD i []) _ hpre hst1

/-- The final out-buckets of the driver satisfy the invariant at the full
half-board mask. -/
theorem enumerate_out_STINV (n m : Nat) (pre : List (List PrePiece))
    (pmaskOf jpop : List Nat)
    (h128 : 4 + 10 * bitwidth m ≤ 128)
    (hpre : ∀ i, ∀ p ∈ pre.getD i [], ValidPiece n m (bitwidth m) pmaskOf jpop p) :
    ∀ e ∈ enumerate_to_snapshot_out n m pre jpop, ∀ c ∈ e.2.codes,
      INV n m (bitwidth m) pmaskOf jpop (left_half_mask n) c := by
  have hb1 : 1 ≤ bitwidth m := Nat.le_max_left 1 _
  have hseed : STINV n m (bitwidth m) pmaskOf jpop
      ⟨((List.range ((n / 2) * n)).map (fun _ => ([] : List (Nat × AOBucket)))).set 0
        [(0, AOBucket.append_batch ⟨[], [], [], []⟩ [0] [1])], []⟩ := by
    refine ⟨?_, ?_⟩
    · intro fr hfr e he
      rcases List.mem_or_eq_of_mem_set hfr with hmem | rfl
      · obtain ⟨_, _, rfl⟩ := List.mem_map.mp hmem
        cases he
      · rw [List.mem_singleton] at he
        subst he
        intro c hc
        rcases append_batch_mem _ _ _ c hc with h1 | h1
        · simp at h1
        · rw [List.mem_singleton] at h1
          subst h1
          exact INV_seed n m (bitwidth m) pmaskOf jpop
    · intro e he
      cases he
  have main : ∀ (rl : List Nat) (st0 : EnumState),
      STINV n m (bitwidth m) pmaskOf jpop st0 →
      STINV n m (bitwidth m) pmaskOf jpop
        (rl.foldl (process_root n (bitwidth m) ((n / 2) * n - n) pre jpop) st0) := by
    intro rl
    induction rl with
    | nil =>
      intro st0 h
      exact h
    | cons a t ih =>
      intro st0 h
      rw [List.foldl_cons]
      exact ih _ (process_root_STINV n m (bitwidth m) _ pre pmaskOf jpop st0 a
        hb1 h128 (hpre a) h)
  have hfin := main (List.range ((n / 2) * n)) _ hseed
  intro e he c hc
  unfold enumerate_to_snapshot_out at he
  obtain ⟨e0, he0, rfl⟩ := List.mem_map.mp he
  have h2 := flush_mem e0.2 c (by
    refine List.mem_append.mpr (Or.inl ?_)
    simpa using hc)
  exact hfin.2 e0 he0 c h2

end DriverLemmas

/-- C2 counterexample: on a valid N = 4 library of eight single-cell
placements the snapshot's only bucket has a row of length 8 > N; and on a
valid N = 2 library whose single placement fills a full column, the snapshot
row is empty although the half board has popcount 2, so the row's population
sum is 0, not `popcount(half_mask)`. -/
theorem c2_counterexample :
    (((enumerate_to_snapshot_model 4 8 ((List.range 8).map (fun i => [⟨2 ^ i, 1, i⟩]))
        [1, 1, 1, 1, 1, 1, 1, 1]).getD 0 ⟨[], [], [], []⟩).row_slice 0).length = 8 ∧
    ¬ (((enumerate_to_snapshot_model 4 8 ((List.range 8).map (fun i => [⟨2 ^ i, 1, i⟩]))
        [1, 1, 1, 1, 1, 1, 1, 1]).getD 0 ⟨[], [], [], []⟩).row_slice 0).length ≤ 4 ∧
    ((enumerate_to_snapshot_model 2 1 [[⟨3, 2, 0⟩], []] [2]).getD 0
        ⟨[], [], [], []⟩).row_slice 0 = [] ∧
    popcount (left_half_mask 2) = 2 := by
  decide

/-- C2 (amended): for every valid library, every code of every out-bucket of
the enumeration decodes to a strictly ascending sequence of piece indices of
length at most 10 (not N); and whenever its length is below the 10-entry cap
(so no insert was ever dropped), its population sum equals the popcount of
the union of its placements' masks, that union lies inside the half board,
and the sum falls short of `popcount(half_mask) = N·N/2` by a multiple of N
(the cells of the skipped population-N placements, which the signature
intentionally omits). -/
theorem c2_amended (n m : Nat) (pre : List (List PrePiece)) (pmaskOf jpop : List Nat)
    (hn : 0 < n) (hcells : n * (n / 2) ≤ 64)
    (h128 : 4 + 10 * bitwidth m ≤ 128)
    (hpre : ∀ i, ∀ p ∈ pre.getD i [], ValidPiece n m (bitwidth m) pmaskOf jpop p) :
    ∀ e ∈ enumerate_to_snapshot_out n m pre jpop, ∀ c ∈ e.2.codes,
      List.Chain' (fun x y => x < y) (code_entries c (bitwidth m)) ∧
      (∀ x ∈ code_entries c (bitwidth m), x < m) ∧
      (code_entries c (bitwidth m)).length ≤ 10 ∧
      (code_len c < 10 →
        ((code_entries c (bitwidth m)).map (fun j => jpop.getD j 0)).sum =
          popcount (unionMask pmaskOf (code_entries c (bitwidth m))) ∧
        unionMask pmaskOf (code_entries c (bitwidth m)) &&& left_half_mask n =
          unionMask pmaskOf (code_entries c (bitwidth m)) ∧
        n ∣ n * (n / 2) -
          ((code_entries c (bitwidth m)).map (fun j => jpop.getD j 0)).sum) := by
  intro e he c hc
  obtain ⟨⟨hclt, hk, hch, hm⟩, hbranch⟩ :=
    enumerate_out_STINV n m pre pmaskOf jpop h128 hpre e he c hc
  refine ⟨hch, hm, ?_, ?_⟩
  · rw [length_code_entries]
    exact hk
  · intro hlt
    rcases hbranch with h10 | ⟨hsub, hsum, hdvd⟩
    · omega
    · refine ⟨hsum, hsub, ?_⟩
      rw [← popcount_left_half n hn hcells, hsum]
      exact hdvd

/-- The amended enumeration invariant at the N = 4 single-cell library: the
unique surviving code decodes to an ascending row whose population sum is the
popcount of its placements' union. -/
theorem c2_amended_witness :
    List.Chain' (fun x y => x < y) (code_entries 262957192 (bitwidth 8)) ∧
      ((code_entries 262957192 (bitwidth 8)).map
        (fun j => ([1, 1, 1, 1, 1, 1, 1, 1] : List Nat).getD j 0)).sum =
        popcount (unionMask [1, 2, 4, 8, 16, 32, 64, 128]
          (code_entries 262957192 (bitwidth 8))) := by
  have hbound : ∀ i, i < 8 →
      ∀ p ∈ ((List.range 8).map (fun i2 => [(⟨2 ^ i2, 1, i2⟩ : PrePiece)])).getD i [],
        ValidPiece 4 8 (bitwidth 8) [1, 2, 4, 8, 16, 32, 64, 128]
          [1, 1, 1, 1, 1, 1, 1, 1] p := by
    decide
  have hpre : ∀ i,
      ∀ p ∈ ((List.range 8).map (fun i2 => [(⟨2 ^ i2, 1, i2⟩ : PrePiece)])).getD i [],
        ValidPiece 4 8 (bitwidth 8) [1, 2, 4, 8, 16, 32, 64, 128]
          [1, 1, 1, 1, 1, 1, 1, 1] p := by
    intro i p hp
    by_cases hi : i < 8
    · exact hbound i hi p hp
    · rw [List.getD_eq_default _ _ (by
        rw [List.length_map, List.length_range]
        omega)] at hp
      cases hp
  have h := c2_amended 4 8 ((List.range 8).map (fun i2 => [⟨2 ^ i2, 1, i2⟩]))
    [1, 2, 4, 8, 16, 32, 64, 128] [1, 1, 1, 1, 1, 1, 1, 1]
    (by norm_num) (by norm_num) (by decide) hpre
  have hout : enumerate_to_snapshot_out 4 8
      ((List.range 8).map (fun i2 => [⟨2 ^ i2, 1, i2⟩])) [1, 1, 1, 1, 1, 1, 1, 1] =
      [(4581298456, ⟨[262957192], [1], [], []⟩)] := rfl
  obtain ⟨hch, hxm, hlen, hgood⟩ := h (4581298456, ⟨[262957192], [1], [], []⟩)
    (by rw [hout]; exact List.mem_singleton.mpr rfl) 262957192
    (List.mem_singleton.mpr rfl)
  exact ⟨hch, (hgood (by decide)).1⟩


end Matcher
